import Mathlib

set_option maxRecDepth 100000

/-!
Verification of the libcolony task-assignment core (src/colony.h).

The C++ core works on IEEE doubles.  We embed doubles as `EDouble`:
exact rationals extended with the special values `inf`, `ninf` and `nan`,
with the IEEE comparison and arithmetic semantics for the operations the
code actually performs (addition, subtraction, division, `std::min`,
`std::max`, `<`, `<=`, `>=`, `abs`).  Finite arithmetic is exact (no
rounding); decimal literals of the source become the corresponding exact
rationals.
-/

namespace Colony

/-- Embedding of a C++ `double`: a rational, or one of the IEEE special
values positive infinity, negative infinity, NaN. -/
inductive EDouble where
  | nan : EDouble
  | inf : EDouble
  | ninf : EDouble
  | fin : ℚ → EDouble
deriving DecidableEq, Repr

namespace EDouble

/-- IEEE addition on the embedded doubles. -/
def add : EDouble → EDouble → EDouble
  | nan, _ => nan
  | _, nan => nan
  | inf, ninf => nan
  | ninf, inf => nan
  | inf, _ => inf
  | _, inf => inf
  | ninf, _ => ninf
  | _, ninf => ninf
  | fin a, fin b => fin (a + b)

/-- IEEE subtraction on the embedded doubles. -/
def sub : EDouble → EDouble → EDouble
  | nan, _ => nan
  | _, nan => nan
  | inf, inf => nan
  | ninf, ninf => nan
  | inf, _ => inf
  | ninf, _ => ninf
  | fin _, inf => ninf
  | fin _, ninf => inf
  | fin a, fin b => fin (a - b)

/-- IEEE division, for the cases `ComputeCost` can reach.  Division by
zero follows IEEE: `0/0 = nan`, `x/0 = ±inf` by sign. -/
def div : EDouble → EDouble → EDouble
  | nan, _ => nan
  | _, nan => nan
  | inf, inf => nan
  | inf, ninf => nan
  | ninf, inf => nan
  | ninf, ninf => nan
  | inf, fin b => if b < 0 then ninf else inf
  | ninf, fin b => if b < 0 then inf else ninf
  | fin _, inf => fin 0
  | fin _, ninf => fin 0
  | fin a, fin b =>
    if b = 0 then (if a = 0 then nan else if a < 0 then ninf else inf)
    else fin (a / b)

/-- IEEE strict `<`: any comparison with NaN is false. -/
def lt : EDouble → EDouble → Bool
  | nan, _ => false
  | _, nan => false
  | ninf, ninf => false
  | ninf, _ => true
  | _, ninf => false
  | inf, _ => false
  | fin _, inf => true
  | fin a, fin b => decide (a < b)

/-- IEEE `<=`: any comparison with NaN is false. -/
def le (a b : EDouble) : Bool :=
  match a, b with
  | nan, _ => false
  | _, nan => false
  | _, _ => lt a b || decide (a = b)

/-- C++ `std::max(a, b)` is `(a < b) ? b : a`. -/
def stdMax (a b : EDouble) : EDouble := if lt a b then b else a

/-- C++ `std::min(a, b)` is `(b < a) ? b : a`. -/
def stdMin (a b : EDouble) : EDouble := if lt b a then b else a

/-- IEEE absolute value. -/
def abs : EDouble → EDouble
  | nan => nan
  | inf => inf
  | ninf => inf
  | fin a => fin |a|

/-- Is this value a finite double? -/
def isFin : EDouble → Bool
  | fin _ => true
  | _ => false

/-- The rational carried by a finite value (0 for the special values). -/
def toQ : EDouble → ℚ
  | fin a => a
  | _ => 0

end EDouble

open EDouble

/-- Embedding of `colony::ComputeCost` (src/colony.h).  The C++ performs
two consecutive divisions; over exact rationals these compose exactly. -/
def ComputeCost (travel_time work_time retry_risk priority : EDouble) : EDouble :=
  if le (fin 1) retry_risk || le priority (fin 0) then
    inf
  else
    let cost := add travel_time work_time
    let cost := div cost (sub (fin 1) retry_risk)
    let cost := div cost priority
    cost

/-- Embedding of `colony::Assignment`.  The C++ ids are `int`; every use
indexes a C array, so only non-negative values are meaningful (negative
ids are undefined behavior in the source) and we model ids as `Nat`. -/
structure Assignment where
  character : Nat
  task : Nat
  cost : EDouble
deriving DecidableEq, Repr

/-- The exact value of `std::numeric_limits<double>::max()`. -/
def DBL_MAX : ℚ := ((2 ^ 1024 - 2 ^ 971 : ℕ) : ℚ)

/-- The exact value of `std::numeric_limits<double>::min()`
(the smallest positive normal double, `2 ^ (-1022)`). -/
def DBL_MIN : ℚ := mkRat 1 (2 ^ 1022)

/-- The comparison used by the sort in `LimitAssignments`:
the C++ comparator is `a.cost < b.cost`; we sort by the corresponding
non-strict relation (C++ `std::sort` is unstable, so tie order is
implementation defined; our model uses the stable insertion sort). -/
def costLE (a b : Assignment) : Prop := EDouble.lt b.cost a.cost = false

instance : DecidableRel costLE := fun _ _ => decEq _ _

/-- The erase-if loop used at the end of `Optimize` (src/colony.h):
walk the vector with an index; an element failing the predicate is
replaced by the current last element (C++ `std::swap` with `back()` then
`pop_back()`), which is examined next at the same index.  `fuel` is an
explicit bound on the number of iterations: callers pass `l.length`,
which is exact (every iteration shrinks `l.length - i`), keeping the
semantics identical to the C++ loop. -/
def eraseWalk (p : α → Bool) (l : List α) (i : Nat) : Nat → List α
  | 0 => l
  | fuel + 1 =>
    if h : i < l.length then
      if p (l.get ⟨i, h⟩) then
        eraseWalk p l (i + 1) fuel
      else
        eraseWalk p ((l.set i (l.getD (l.length - 1) (l.get ⟨i, h⟩))).dropLast) i fuel
    else l

/-- The filtering loop of `colony::LimitAssignments`: the same
index/swap/pop walk, threading the two counter arrays
(`tasks_per_character` and `characters_per_task`, modelled as total
counting functions; the C++ arrays are zero-initialized and only indexed
at ids present in the input).  As in `eraseWalk`, `fuel = l.length`
makes the fuel recursion exactly the C++ loop. -/
def limitLoop (limC limT : Int) (l : List Assignment) (i : Nat)
    (tpc cpt : Nat → Nat) : Nat → List Assignment
  | 0 => l
  | fuel + 1 =>
    if h : i < l.length then
      let a := l.get ⟨i, h⟩
      if limC ≤ (tpc a.character : Int) then
        limitLoop limC limT ((l.set i (l.getD (l.length - 1) a)).dropLast) i tpc cpt fuel
      else if limT ≤ (cpt a.task : Int) then
        limitLoop limC limT ((l.set i (l.getD (l.length - 1) a)).dropLast) i tpc cpt fuel
      else
        limitLoop limC limT l (i + 1)
          (fun c => if c = a.character then tpc c + 1 else tpc c)
          (fun t => if t = a.task then cpt t + 1 else cpt t) fuel
    else l

/-- Embedding of `colony::LimitAssignments` (src/colony.h): sort by
ascending cost, then walk with per-character and per-task counters,
erasing (via swap-with-back) any pairing whose character or task has
already reached its limit. -/
def LimitAssignments (assignments : List Assignment)
    (limit_per_character limit_per_task : Int) : List Assignment :=
  let sorted := List.insertionSort costLE assignments
  limitLoop limit_per_character limit_per_task
    sorted 0 (fun _ => 0) (fun _ => 0) sorted.length

/-! ### The Hungarian solver of `colony::Optimize`

The solver state mirrors the local variables of `Optimize`: the value
matrix, labels `lx`/`ly`, matching arrays `xy`/`yx` (entry `-1` means
unmatched, as in the C++ `memset(-1)`), tree sets `S`/`T`, the `slack`
and `slackx` arrays, the predecessor array `prev` (`-1` unset, `-2`
root sentinel), and the BFS queue `q` with read position `rd`
(writing position is `q.length`).  All loops that the source does not
obviously bound are given explicit fuel and return `none` on
exhaustion. -/

structure KMState where
  NX : Nat
  NY : Nat
  value : List (List EDouble)
  lx : List EDouble
  ly : List EDouble
  xy : List Int
  yx : List Int
  S : List Bool
  T : List Bool
  slack : List EDouble
  slackx : List Nat
  prev : List Int
  q : List Nat
  rd : Nat
  maxMatch : Nat
deriving DecidableEq, Repr

namespace KMState

/-- `value[x][y]`. -/
def val (s : KMState) (x y : Nat) : EDouble := (s.value.getD x []).getD y (fin 1)

/-- `lx[x]`. -/
def lxAt (s : KMState) (x : Nat) : EDouble := s.lx.getD x (fin 0)

/-- `ly[y]`. -/
def lyAt (s : KMState) (y : Nat) : EDouble := s.ly.getD y (fin 0)

/-- `xy[x]`. -/
def xyAt (s : KMState) (x : Nat) : Int := s.xy.getD x (-1)

/-- `yx[y]`. -/
def yxAt (s : KMState) (y : Nat) : Int := s.yx.getD y (-1)

/-- `S[x]`. -/
def SAt (s : KMState) (x : Nat) : Bool := s.S.getD x false

/-- `T[y]`. -/
def TAt (s : KMState) (y : Nat) : Bool := s.T.getD y false

/-- `slack[y]`. -/
def slackAt (s : KMState) (y : Nat) : EDouble := s.slack.getD y (fin 0)

/-- `slackx[y]`. -/
def slackxAt (s : KMState) (y : Nat) : Nat := s.slackx.getD y 0

/-- `prev[x]`. -/
def prevAt (s : KMState) (x : Nat) : Int := s.prev.getD x (-1)

end KMState

/-- The tolerant equality of the source:
`auto eq = [](double a, double b) { return std::abs(a - b) < 0.0001; };`. -/
def eqE (a b : EDouble) : Bool := lt (abs (sub a b)) (fin (1 / 10000))

/-- The `delta` computed by `update_labels`: the minimum, over the `y`
outside `T`, of the slacks, starting from
`std::numeric_limits<double>::max()`. -/
def updateDelta (s : KMState) : EDouble :=
  (List.range s.NY).foldl
    (fun d y => if s.TAt y then d else stdMin d (s.slackAt y)) (fin DBL_MAX)

/-- Embedding of the `update_labels` lambda of `Optimize`. -/
def updateLabels (s : KMState) : KMState :=
  let delta := updateDelta s
  { s with
    lx := (List.range s.NX).map
      (fun x => if s.SAt x then sub (s.lxAt x) delta else s.lxAt x),
    ly := (List.range s.NY).map
      (fun y => if s.TAt y then add (s.lyAt y) delta else s.lyAt y),
    slack := (List.range s.NY).map
      (fun y => if s.TAt y then s.slackAt y else sub (s.slackAt y) delta) }

/-- Embedding of the `add_to_tree` lambda of `Optimize`:
add `x` to `S` with predecessor `prevx` and refresh the slacks. -/
def addToTree (s : KMState) (x prevx : Nat) : KMState :=
  let s := { s with S := s.S.set x true, prev := s.prev.set x (prevx : Int) }
  { s with
    slack := (List.range s.NY).map (fun y =>
      let c := sub (add (s.lxAt x) (s.lyAt y)) (s.val x y)
      if lt c (s.slackAt y) then c else s.slackAt y),
    slackx := (List.range s.NY).map (fun y =>
      let c := sub (add (s.lxAt x) (s.lyAt y)) (s.val x y)
      if lt c (s.slackAt y) then x else s.slackxAt y) }

/-- The inner `for (y ...)` scan of the BFS in `Optimize`: scan the
edges of the dequeued vertex `x` in the equality graph.  Returns the
exposed `y` when an augmenting path is found.  `fuel = s.NY` at the
initial `y = 0` makes the fuel recursion exactly the C++ `for` loop
(`addToTree` never changes `NY`). -/
def bfsScan (s : KMState) (x y : Nat) : Nat → KMState × Option Nat
  | 0 => (s, none)
  | fuel + 1 =>
    if y < s.NY then
      if eqE (s.val x y) (add (s.lxAt x) (s.lyAt y)) && !(s.TAt y) then
        if s.yxAt y = -1 then (s, some y)
        else
          let x2 := (s.yxAt y).toNat
          let s2 := { s with T := s.T.set y true, q := s.q ++ [x2] }
          bfsScan (addToTree s2 x2 x) x (y + 1) fuel
      else bfsScan s x (y + 1) fuel
    else (s, none)

/-- The `while (rd < wr)` BFS loop of `Optimize`. -/
def bfsLoop (s : KMState) (fuel : Nat) : Option (KMState × Option (Nat × Nat)) :=
  if s.rd < s.q.length then
    match fuel with
    | 0 => none
    | fuel + 1 =>
      let x := s.q.getD s.rd 0
      let s2 := { s with rd := s.rd + 1 }
      match bfsScan s2 x 0 s2.NY with
      | (s3, some y) => some (s3, some (x, y))
      | (s3, none) => bfsLoop s3 fuel
  else some (s, none)

/-- The `for (y ...)` scan after `update_labels` in `Optimize`: add the
edges that entered the equality graph; an exposed zero-slack `y` yields
an augmenting path from `slackx[y]`. -/
def yScan (s : KMState) (y : Nat) : Nat → KMState × Option (Nat × Nat)
  | 0 => (s, none)
  | fuel + 1 =>
    if y < s.NY then
      if !(s.TAt y) && eqE (s.slackAt y) (fin 0) then
        if s.yxAt y = -1 then (s, some (s.slackxAt y, y))
        else
          let x2 := (s.yxAt y).toNat
          let sx := s.slackxAt y
          let s2 := { s with T := s.T.set y true }
          let s3 := if s2.SAt x2 then s2
                    else addToTree { s2 with q := s2.q ++ [x2] } x2 sx
          yScan s3 (y + 1) fuel
      else yScan s (y + 1) fuel
    else (s, none)

/-- The dual-update round of the main cycle: `update_labels`, then
`wr = rd = 0`, then the rescan of the `y` values. -/
def innerRound (s : KMState) : KMState × Option (Nat × Nat) :=
  let s2 := updateLabels s
  let s3 := { s2 with q := [], rd := 0 }
  yScan s3 0 s3.NY

/-- The `while (true)` main cycle of a phase of `Optimize`: BFS, and on
failure a dual update followed by the rescan, until an augmenting path
appears. -/
def innerCycle (s : KMState) (fuel : Nat) : Option (KMState × Nat × Nat) :=
  match fuel with
  | 0 => none
  | fuel + 1 =>
    match bfsLoop s fuel with
    | none => none
    | some (s1, some (x, y)) => some (s1, x, y)
    | some (s1, none) =>
      match innerRound s1 with
      | (s4, some (x, y)) => some (s4, x, y)
      | (s4, none) => innerCycle s4 fuel

/-- The augmenting `for (cx ..., cy ..., ty ...)` loop of `Optimize`:
invert the edges along the alternating path back to the root sentinel
`-2`. -/
def augmentFlip (s : KMState) (cx cy : Int) (fuel : Nat) : Option KMState :=
  match fuel with
  | 0 => none
  | fuel + 1 =>
    if cx = -2 then some s
    else
      let ty := s.xyAt cx.toNat
      let s2 := { s with
        yx := s.yx.set cy.toNat cx,
        xy := s.xy.set cx.toNat cy }
      augmentFlip s2 (s2.prevAt cx.toNat) ty fuel

/-- The head of a phase of `Optimize`: reset the tree, pick the
unmatched root with the largest label (the C++ leaves `root`
uninitialized when no label exceeds `DBL_MIN`; we model that
unspecified value as 0), and initialize the slacks from the root. -/
def phaseInit (s : KMState) : KMState :=
  let s0 := { s with
    S := List.replicate s.NX false,
    T := List.replicate s.NY false,
    prev := List.replicate s.NX (-1 : Int),
    q := [], rd := 0 }
  let rb := (List.range s0.NX).foldl
    (fun (p : Nat × EDouble) x =>
      if s0.xyAt x = -1 && lt p.2 (s0.lxAt x) then (x, s0.lxAt x) else p)
    (0, fin DBL_MIN)
  let root := rb.1
  let s1 := { s0 with
    q := [root],
    prev := s0.prev.set root (-2 : Int),
    S := s0.S.set root true }
  { s1 with
    slack := (List.range s1.NY).map
      (fun y => sub (add (s1.lxAt root) (s1.lyAt y)) (s1.val root y)),
    slackx := (List.range s1.NY).map (fun _ => root) }

/-- One iteration of the outer `while (max_match < ...)` loop of
`Optimize` after `phaseInit`: find an augmenting path and flip it. -/
def phase (s : KMState) (fuel : Nat) : Option KMState :=
  match innerCycle (phaseInit s) fuel with
  | none => none
  | some (s3, x, y) =>
    let s4 := { s3 with maxMatch := s3.maxMatch + 1 }
    augmentFlip s4 (x : Int) (y : Int) fuel

/-- The outer `while (max_match < std::min(NX, NY))` loop. -/
def mainLoop (s : KMState) (fuel : Nat) : Option KMState :=
  match fuel with
  | 0 => none
  | fuel + 1 =>
    if s.maxMatch < min s.NX s.NY then
      match phase s fuel with
      | none => none
      | some s2 => mainLoop s2 fuel
    else some s

/-- `max_character` as computed at the top of `Optimize`
(`std::max` fold starting from the initializer 0). -/
def maxCharacter (assignments : List Assignment) : Nat :=
  assignments.foldl (fun m a => max m a.character) 0

/-- `max_task` as computed at the top of `Optimize`. -/
def maxTask (assignments : List Assignment) : Nat :=
  assignments.foldl (fun m a => max m a.task) 0

/-- `max_cost` as computed at the top of `Optimize`.  Note the fold runs
over all costs, infinite ones included. -/
def maxCost (assignments : List Assignment) : EDouble :=
  assignments.foldl (fun m a => stdMax m a.cost) (fin 0)

/-- The orientation test of `Optimize`: `if (max_task > max_character)`
keeps X = characters; otherwise the roles of characters and tasks are
swapped throughout. -/
def swapped (assignments : List Assignment) : Bool :=
  !(decide (maxCharacter assignments < maxTask assignments))

/-- The initial solver state built by `Optimize`: problem dimensions,
the transformed value matrix (`1.0` baseline, `max_cost - cost + 1.0`
for each supplied pairing, later writes overwriting earlier ones), the
labels `lx[x] = max_y value[x][y]` and `ly = 0`, and the empty
matching. -/
def optimizeInit (assignments : List Assignment) : KMState :=
  let sw := swapped assignments
  let max_cost := maxCost assignments
  let NX := if sw then maxTask assignments + 1 else maxCharacter assignments + 1
  let NY := if sw then maxCharacter assignments + 1 else maxTask assignments + 1
  let value0 : List (List EDouble) := List.replicate NX (List.replicate NY (fin 1))
  let value := assignments.foldl (fun v a =>
    let x := if sw then a.task else a.character
    let y := if sw then a.character else a.task
    v.set x ((v.getD x []).set y (add (sub max_cost a.cost) (fin 1)))) value0
  let lx := (List.range NX).map (fun x =>
    (List.range NY).foldl
      (fun m y => stdMax m ((value.getD x []).getD y (fin 1))) (fin 0))
  { NX := NX, NY := NY, value := value, lx := lx,
    ly := List.replicate NY (fin 0),
    xy := List.replicate NX (-1 : Int),
    yx := List.replicate NY (-1 : Int),
    S := List.replicate NX false,
    T := List.replicate NY false,
    slack := List.replicate NY (fin 0),
    slackx := List.replicate NY 0,
    prev := List.replicate NX (-1 : Int),
    q := [], rd := 0, maxMatch := 0 }

/-- The final filtering pass of `Optimize`: erase (swap-with-back) every
assignment whose task is not the final partner of its character
(`xy` in the plain orientation, `yx` in the swapped one). -/
def optimizeFinish (assignments : List Assignment) (sw : Bool) (sf : KMState) :
    List Assignment :=
  eraseWalk
    (fun a => decide ((a.task : Int) =
      (if sw then sf.yxAt a.character else sf.xyAt a.character)))
    assignments 0 assignments.length

/-- Embedding of `colony::Optimize` (src/colony.h).  Computes the
problem dimensions and the transformed value matrix, runs the
Kuhn-Munkres phases, and erases every assignment not selected by the
final matching.  `fuel` bounds the loops the source does not obviously
bound; `none` means the source would not have terminated within that
many iterations. -/
def Optimize (assignments : List Assignment) (fuel : Nat) : Option (List Assignment) :=
  match mainLoop (optimizeInit assignments) fuel with
  | none => none
  | some sf => some (optimizeFinish assignments (swapped assignments) sf)

/-! ### Specification-side definitions used to state the claims -/

/-- Modelled from the spec of the CandidateFilter algorithm, for
comparison with the source: "Walk the sorted list; retain a pairing only
if both its character counter and its task counter are below the
respective limits, incrementing both on retention" — the walk proceeds
strictly in ascending (sorted) order. -/
def specLimitWalk (limC limT : Int) (tpc cpt : Nat → Nat) :
    List Assignment → List Assignment
  | [] => []
  | a :: rest =>
    if (tpc a.character : Int) < limC ∧ (cpt a.task : Int) < limT then
      a :: specLimitWalk limC limT
        (fun c => if c = a.character then tpc c + 1 else tpc c)
        (fun t => if t = a.task then cpt t + 1 else cpt t) rest
    else specLimitWalk limC limT tpc cpt rest

/-- The spec-side candidate filter: the counter walk over the sorted
list, in sorted order. -/
def specLimitAssignments (assignments : List Assignment)
    (limC limT : Int) : List Assignment :=
  specLimitWalk limC limT (fun _ => 0) (fun _ => 0)
    (List.insertionSort costLE assignments)

/-- The effect of the `std::swap(a[i], a.back()); a.pop_back()` erasure
on the unprocessed suffix `current :: rest`: the last element takes the
place of the erased one. -/
def swapBack {α : Type _} (rest : List α) : List α :=
  match rest.getLast? with
  | none => []
  | some b => b :: rest.dropLast

/-- The walk `limitLoop` actually performs, phrased on the unprocessed
suffix of the candidate vector: a rejected pairing is replaced by the
currently last element, which is examined next; fuel exhaustion returns
the remaining suffix unprocessed (mirroring `limitLoop` returning the
whole vector). -/
def limitWalk (limC limT : Int) (tpc cpt : Nat → Nat) :
    List Assignment → Nat → List Assignment
  | l, 0 => l
  | [], _ + 1 => []
  | a :: rest, fuel + 1 =>
    if limC ≤ (tpc a.character : Int) then
      limitWalk limC limT tpc cpt (swapBack rest) fuel
    else if limT ≤ (cpt a.task : Int) then
      limitWalk limC limT tpc cpt (swapBack rest) fuel
    else
      a :: limitWalk limC limT
        (fun c => if c = a.character then tpc c + 1 else tpc c)
        (fun t => if t = a.task then cpt t + 1 else cpt t) rest fuel

/-- A feasible matching over a pool of candidate pairings: a selection
in which no character and no task occurs twice.  (The selection is a
list of pairings; feasibility of drawing them from a pool `l` is stated
separately as a sub-permutation.) -/
def Matching (m : List Assignment) : Prop :=
  (m.map Assignment.character).Nodup ∧ (m.map Assignment.task).Nodup

instance : DecidablePred Matching := fun m => by
  unfold Matching
  infer_instance

/-- The total cost of a list of pairings, as a rational (finite costs
only contribute their value; `toQ` maps the special values to 0, and
the theorems using this sum restrict to finite costs). -/
def costSum (m : List Assignment) : ℚ :=
  (m.map (fun a => a.cost.toQ)).sum

/-- The solver state reached on input `[(0,0,inf),(0,1,5),(1,0,3)]`
after the first dual update: the fold for `max_cost` ran over the
infinite cost, so the value matrix holds `inf - inf + 1 = NaN` at the
infinite pairing and `inf` at the finite ones, every slack is NaN, and
`update_labels` no longer changes anything (`delta = DBL_MAX`,
`inf - DBL_MAX = inf`, `NaN - DBL_MAX = NaN`): a fixpoint of the inner
cycle, i.e. an infinite loop in the C++. -/
def divergeFixA : KMState := {
  NX := 2, NY := 2,
  value := [[nan, inf], [inf, fin 1]],
  lx := [inf, inf], ly := [fin 0, fin 0],
  xy := [-1, -1], yx := [-1, -1],
  S := [true, false], T := [false, false],
  slack := [nan, nan], slackx := [0, 0],
  prev := [-2, -1], q := [], rd := 0, maxMatch := 0 }

/-- The same state right after `phaseInit` (root 0 enqueued). -/
def divergeInitA : KMState := { divergeFixA with q := [0] }

/-- The same state after the BFS drained the queue. -/
def divergeDrainA : KMState := { divergeFixA with q := [0], rd := 1 }

/-- The analogous inner-cycle fixpoint on input `[(0,0,5),(1,1,inf)]`. -/
def divergeFixB : KMState := {
  NX := 2, NY := 2,
  value := [[inf, fin 1], [fin 1, nan]],
  lx := [inf, fin 1], ly := [fin 0, fin 0],
  xy := [-1, -1], yx := [-1, -1],
  S := [true, false], T := [false, false],
  slack := [nan, inf], slackx := [0, 0],
  prev := [-2, -1], q := [], rd := 0, maxMatch := 0 }

/-- `divergeFixB` right after `phaseInit` (root 0 enqueued). -/
def divergeInitB : KMState := { divergeFixB with q := [0] }

/-- `divergeFixB` after the BFS drained the queue. -/
def divergeDrainB : KMState := { divergeFixB with q := [0], rd := 1 }

/-! ### Solver invariants (used to settle the uniqueness and optimality
claims for inputs with non-negative integer costs, where the `1e-4`
tolerance coincides with exact equality) -/

/-- Number of matched X vertices of the current matching. -/
def matchedX (s : KMState) : Nat :=
  (List.range s.NX).countP (fun x => decide (s.xyAt x ≠ -1))

/-- Number of matched Y vertices of the current matching. -/
def matchedY (s : KMState) : Nat :=
  (List.range s.NY).countP (fun y => decide (s.yxAt y ≠ -1))

/-- The predecessor chain from `x` reaches the root sentinel `-2`. -/
inductive ChainsToRoot (prev : List Int) : Nat → Prop where
  | root (x : Nat) (h : prev.getD x (-1) = -2) : ChainsToRoot prev x
  | step (x x2 : Nat) (h : prev.getD x (-1) = (x2 : Int))
      (h2 : ChainsToRoot prev x2) : ChainsToRoot prev x

/-- The edge `(x, y)` is tight: `value[x][y] = lx[x] + ly[y]` (stated on
the rational readings; the invariants keep all three finite). -/
def tightQ (s : KMState) (x y : Nat) : Prop :=
  (s.val x y).toQ = (s.lxAt x).toQ + (s.lyAt y).toQ

/-- The between-phases invariant of the solver on integer-cost inputs:
well-formed dimensions, an integer-valued value matrix with entries at
least 1, integer labels with `lx ≥ 1`, a consistent partial matching
counted by `max_match` on both sides, feasible labels, non-negative `ly`
vanishing on unmatched Y vertices, and tight matched edges. -/
structure GlobalInv (s : KMState) : Prop where
  hNX : 0 < s.NX
  hXY : s.NX ≤ s.NY
  lenlx : s.lx.length = s.NX
  lenly : s.ly.length = s.NY
  lenxy : s.xy.length = s.NX
  lenyx : s.yx.length = s.NY
  valint : ∀ x < s.NX, ∀ y < s.NY, ∃ n : ℤ, s.val x y = fin (n : ℚ) ∧ 1 ≤ n
  lxint : ∀ x < s.NX, ∃ n : ℤ, s.lxAt x = fin (n : ℚ)
  lyint : ∀ y < s.NY, ∃ n : ℤ, s.lyAt y = fin (n : ℚ)
  lx1 : ∀ x < s.NX, 1 ≤ (s.lxAt x).toQ
  xyrange : ∀ x < s.NX, s.xyAt x = -1 ∨ (0 ≤ s.xyAt x ∧ (s.xyAt x).toNat < s.NY)
  yxrange : ∀ y < s.NY, s.yxAt y = -1 ∨ (0 ≤ s.yxAt y ∧ (s.yxAt y).toNat < s.NX)
  consistXY : ∀ x < s.NX, 0 ≤ s.xyAt x → s.yxAt (s.xyAt x).toNat = (x : Int)
  consistYX : ∀ y < s.NY, 0 ≤ s.yxAt y → s.xyAt (s.yxAt y).toNat = (y : Int)
  countX : matchedX s = s.maxMatch
  countY : matchedY s = s.maxMatch
  feas : ∀ x < s.NX, ∀ y < s.NY,
    (s.val x y).toQ ≤ (s.lxAt x).toQ + (s.lyAt y).toQ
  lynn : ∀ y < s.NY, 0 ≤ (s.lyAt y).toQ
  lyzero : ∀ y < s.NY, s.yxAt y = -1 → (s.lyAt y).toQ = 0
  tightM : ∀ y < s.NY, 0 ≤ s.yxAt y → tightQ s (s.yxAt y).toNat y

/-- The within-phase invariant: the alternating-tree structure over
`S`, `T`, `prev`, the queue, and the slack arrays. -/
structure PhaseInv (s : KMState) extends GlobalInv s : Prop where
  lenS : s.S.length = s.NX
  lenT : s.T.length = s.NY
  lenprev : s.prev.length = s.NX
  lenslack : s.slack.length = s.NY
  lenslackx : s.slackx.length = s.NY
  hmatch : s.maxMatch < s.NX
  rootUnmatched : ∀ x < s.NX, s.prevAt x = -2 → s.xyAt x = -1
  Smem : ∀ x < s.NX, s.SAt x = true →
    s.prevAt x = -2 ∨
    (0 ≤ s.prevAt x ∧ (s.prevAt x).toNat < s.NX ∧
      s.SAt (s.prevAt x).toNat = true ∧
      0 ≤ s.xyAt x ∧ (s.xyAt x).toNat < s.NY ∧
      s.TAt (s.xyAt x).toNat = true ∧
      tightQ s (s.prevAt x).toNat (s.xyAt x).toNat)
  chains : ∀ x < s.NX, s.SAt x = true → ChainsToRoot s.prev x
  Tmem : ∀ y < s.NY, s.TAt y = true →
    0 ≤ s.yxAt y ∧ (s.yxAt y).toNat < s.NX ∧ s.SAt (s.yxAt y).toNat = true
  qmem : ∀ x ∈ s.q, x < s.NX ∧ s.SAt x = true
  slackLe : ∀ y < s.NY, s.TAt y = false → ∀ x < s.NX, s.SAt x = true →
    (s.slackAt y).toQ ≤ (s.lxAt x).toQ + (s.lyAt y).toQ - (s.val x y).toQ
  slackEq : ∀ y < s.NY, s.TAt y = false →
    s.slackxAt y < s.NX ∧ s.SAt (s.slackxAt y) = true ∧
    (s.slackAt y).toQ =
      (s.lxAt (s.slackxAt y)).toQ + (s.lyAt y).toQ -
        (s.val (s.slackxAt y) y).toQ
  slackFin : ∀ y < s.NY, s.TAt y = false → ∃ n : ℤ, s.slackAt y = fin (n : ℚ)

/-- The properties of the endpoint pair returned when a phase finds an
augmenting path: an `S` vertex and an exposed `Y` vertex joined by a
tight edge. -/
structure FoundPair (s : KMState) (x y : Nat) : Prop where
  hx : x < s.NX
  hSx : s.SAt x = true
  hy : y < s.NY
  hexp : s.yxAt y = -1
  htight : tightQ s x y

/-- The successive X vertices of an alternating path: each one points to
the next through `prev`, and the last one carries the root sentinel. -/
def SChainAux (s : KMState) : List Nat → Prop
  | [] => True
  | [x] => s.prevAt x = -2
  | x :: x2 :: rest => s.prevAt x = (x2 : Int) ∧ SChainAux s (x2 :: rest)

/-- The data consumed by the augmenting flip: starting at the cursor
`(cx, cy)`, the list `xs` holds the X vertices the flip will visit, each
joined by a tight edge to the Y vertex handed down to it (`cy` for the
first, the current partner of its predecessor for the rest), and the
walk ends at the root sentinel with an unmatched root. -/
def ChainSpec (s : KMState) : Int → Int → List Nat → Prop
  | cx, cy, [] => cx = -2 ∧ cy = -1
  | cx, cy, x :: rest =>
    cx = (x : Int) ∧ x < s.NX ∧ 0 ≤ cy ∧ cy.toNat < s.NY ∧
    tightQ s x cy.toNat ∧ ChainSpec s (s.prevAt x) (s.xyAt x) rest

/-- The invariant of the augmenting flip, at cursor `(cx, cy)` with the
X vertices `xs` still to visit: everything of `GlobalInv` except the
matching counts, with Y-side consistency allowed to fail only at the
dangling vertex `cy`, no X vertex matched to `cy`, and a well-formed
remaining chain. -/
structure FlipInv (s : KMState) (cx cy : Int) (xs : List Nat) : Prop where
  hNX : 0 < s.NX
  hXY : s.NX ≤ s.NY
  lenlx : s.lx.length = s.NX
  lenly : s.ly.length = s.NY
  lenxy : s.xy.length = s.NX
  lenyx : s.yx.length = s.NY
  valint : ∀ x < s.NX, ∀ y < s.NY, ∃ n : ℤ, s.val x y = fin (n : ℚ) ∧ 1 ≤ n
  lxint : ∀ x < s.NX, ∃ n : ℤ, s.lxAt x = fin (n : ℚ)
  lyint : ∀ y < s.NY, ∃ n : ℤ, s.lyAt y = fin (n : ℚ)
  lx1 : ∀ x < s.NX, 1 ≤ (s.lxAt x).toQ
  xyrange : ∀ x < s.NX, s.xyAt x = -1 ∨ (0 ≤ s.xyAt x ∧ (s.xyAt x).toNat < s.NY)
  yxrange : ∀ y < s.NY, s.yxAt y = -1 ∨ (0 ≤ s.yxAt y ∧ (s.yxAt y).toNat < s.NX)
  consistX : ∀ x < s.NX, 0 ≤ s.xyAt x → s.yxAt (s.xyAt x).toNat = (x : Int)
  consistY : ∀ y < s.NY, 0 ≤ s.yxAt y →
    s.xyAt (s.yxAt y).toNat = (y : Int) ∨ (0 ≤ cy ∧ (y : Int) = cy)
  feas : ∀ x < s.NX, ∀ y < s.NY,
    (s.val x y).toQ ≤ (s.lxAt x).toQ + (s.lyAt y).toQ
  lynn : ∀ y < s.NY, 0 ≤ (s.lyAt y).toQ
  lyzero : ∀ y < s.NY, s.yxAt y = -1 → (s.lyAt y).toQ = 0
  tightM : ∀ y < s.NY, 0 ≤ s.yxAt y → tightQ s (s.yxAt y).toNat y
  hfresh : ∀ x < s.NX, 0 ≤ cy → s.xyAt x ≠ cy
  hchain : ChainSpec s cx cy xs
  hnodup : xs.Nodup

/-- The X-side identifier of a pairing under the orientation chosen by
`Optimize` (`sw = true` when the roles of characters and tasks are
swapped so that `NX ≤ NY`). -/
def ochar (sw : Bool) (a : Assignment) : Nat :=
  if sw then a.task else a.character

/-- The Y-side identifier of a pairing under the orientation chosen by
`Optimize`. -/
def otask (sw : Bool) (a : Assignment) : Nat :=
  if sw then a.character else a.task

/-- A frame recording that a state transformer left the dimensions, the
value matrix, both matching arrays and the match counter untouched. -/
structure ScanFrame (s s' : KMState) : Prop where
  hNX : s'.NX = s.NX
  hNY : s'.NY = s.NY
  hvalue : s'.value = s.value
  hxy : s'.xy = s.xy
  hyx : s'.yx = s.yx
  hmm : s'.maxMatch = s.maxMatch

/-! ## Claim C4: the cost kernel contract -/

/-- Claim C4: on the valid domain (`travel_time ≥ 0`, `work_time ≥ 0`,
`retry_risk ∈ [0,1)`, `priority > 0`) `ComputeCost` returns
`(travel_time + work_time) / ((1 - retry_risk) * priority)`; whenever
`retry_risk ≥ 1` or `priority ≤ 0` (in the IEEE sense of the C++
comparison, so never for NaN) it returns positive infinity; and the four
round-trip identities of the spec hold. -/
theorem computeCost_contract :
    (∀ t w r p : ℚ, 0 ≤ t → 0 ≤ w → 0 ≤ r → r < 1 → 0 < p →
      ComputeCost (fin t) (fin w) (fin r) (fin p) =
        fin ((t + w) / ((1 - r) * p))) ∧
    (∀ t w r p : EDouble, (le (fin 1) r || le p (fin 0)) = true →
      ComputeCost t w r p = inf) ∧
    (∀ t w : ℚ, ComputeCost (fin t) (fin w) (fin 0) (fin 1) = fin (t + w)) ∧
    (∀ t w : ℚ,
      ComputeCost (fin t) (fin w) (fin (1 / 2)) (fin 1) = fin (2 * (t + w))) ∧
    (∀ t w p : EDouble, ComputeCost t w (fin 1) p = inf) ∧
    (∀ t w r : EDouble, ComputeCost t w r (fin 0) = inf) := by
  refine ⟨?_, ?_, ?_, ?_, ?_, ?_⟩
  · intro t w r p _ht _hw _hr0 hr hp
    have h1r : ¬(1 < r) := by linarith
    have h1e : (1 : ℚ) ≠ r := by intro h; rw [h] at hr; exact lt_irrefl r hr
    have hp0 : ¬(p < 0) := by linarith
    have hpe : p ≠ 0 := ne_of_gt hp
    have hrne : (1 : ℚ) - r ≠ 0 := sub_ne_zero.mpr h1e
    simp only [ComputeCost, EDouble.le, EDouble.lt, EDouble.add, EDouble.sub,
      EDouble.div]
    simp only [decide_eq_false h1r, decide_eq_false hp0, EDouble.fin.injEq,
      decide_eq_false h1e, decide_eq_false hpe, Bool.or_self, Bool.or_false,
      Bool.false_or]
    simp only [if_neg hrne, if_neg hpe]
    show (if (false || false) = true then inf else fin ((t + w) / (1 - r) / p)) = _
    rw [if_neg (by simp)]
    rw [div_div]
  · intro t w r p h
    simp only [ComputeCost, h, if_true]
  · intro t w
    simp only [ComputeCost, EDouble.le, EDouble.lt, EDouble.add, EDouble.sub,
      EDouble.div]
    norm_num
  · intro t w
    simp only [ComputeCost, EDouble.le, EDouble.lt, EDouble.add, EDouble.sub,
      EDouble.div]
    norm_num
    ring_nf
  · intro t w p
    simp [ComputeCost, EDouble.le, EDouble.lt]
  · intro t w r
    cases r <;> simp [ComputeCost, EDouble.le, EDouble.lt]

/-- Witness for C4 at concrete inputs. -/
theorem computeCost_contract_witness :
    ComputeCost (fin 3) (fin 4) (fin (1 / 4)) (fin 2) =
      fin ((3 + 4) / ((1 - 1 / 4) * 2)) ∧
    ComputeCost (fin 1) (fin 1) (fin 2) (fin 1) = inf := by
  constructor
  · exact computeCost_contract.1 3 4 (1 / 4) 2 (by norm_num) (by norm_num)
      (by norm_num) (by norm_num) (by norm_num)
  · exact computeCost_contract.2.1 (fin 1) (fin 1) (fin 2) (fin 1) (by decide)

/-! ## Lemmas about the swap-with-back erase walks -/

open List

theorem surgery_shape {α : Type _} (l : List α) (i : Nat) (d : α) (h : i < l.length) :
    ((l.set i (l.getD (l.length - 1) d)).dropLast) =
      l.take i ++ swapBack (l.drop (i + 1)) := by
  have hset := List.set_eq_take_cons_drop (l.getD (l.length - 1) d) h
  by_cases hlast : i + 1 = l.length
  · have hdrop : l.drop (i + 1) = [] := by
      apply List.drop_eq_nil_of_le; omega
    rw [hset, hdrop, dropLast_append_cons]
    simp [swapBack]
  · have hlt : i + 1 < l.length := by omega
    have hRlen : 0 < (l.drop (i + 1)).length := by rw [length_drop]; omega
    have hRne : l.drop (i + 1) ≠ [] := ne_nil_of_length_pos hRlen
    have hb : l.getD (l.length - 1) d = (l.drop (i + 1)).getLast hRne := by
      rw [getLast_eq_getElem, getElem_drop, getD_eq_getElem l d (by omega)]
      congr 1
      rw [length_drop]
      omega
    rw [hset, dropLast_append_cons, dropLast_cons_of_ne_nil hRne, swapBack,
      getLast?_eq_getLast _ hRne, ← hb]

theorem swapBack_perm {α : Type _} (rest : List α) : swapBack rest ~ rest := by
  by_cases hR : rest = []
  · rw [hR]
    exact Perm.refl _
  · rw [swapBack, getLast?_eq_getLast _ hR]
    calc rest.getLast hR :: rest.dropLast
        ~ rest.dropLast ++ [rest.getLast hR] :=
          @List.perm_append_comm _ [rest.getLast hR] rest.dropLast
      _ = rest := dropLast_append_getLast hR

theorem surgery_perm {α : Type _} (l : List α) (i : Nat) (d : α) (h : i < l.length) :
    ((l.set i (l.getD (l.length - 1) d)).dropLast) ~ l.take i ++ l.drop (i + 1) := by
  rw [surgery_shape l i d h]
  exact List.Perm.append_left _ ((swapBack_perm _).trans (Perm.refl _))

theorem limitLoop_eq_walk (limC limT : Int) :
    ∀ (fuel : Nat) (l : List Assignment) (i : Nat) (tpc cpt : Nat → Nat),
      limitLoop limC limT l i tpc cpt fuel =
        l.take i ++ limitWalk limC limT tpc cpt (l.drop i) fuel := by
  intro fuel
  induction fuel with
  | zero =>
    intro l i tpc cpt
    rw [limitLoop, limitWalk, take_append_drop]
  | succ fuel ih =>
    intro l i tpc cpt
    by_cases h : i < l.length
    · have hdrop : l.drop i = l.get ⟨i, h⟩ :: l.drop (i + 1) := by
        rw [get_eq_getElem]
        exact drop_eq_getElem_cons h
      rw [limitLoop, dif_pos h, hdrop, limitWalk]
      set a := l.get ⟨i, h⟩ with ha
      by_cases h1 : limC ≤ (tpc a.character : Int)
      · rw [if_pos h1, if_pos h1, ih]
        rw [surgery_shape l i a h, take_left' (by rw [length_take]; omega),
          drop_left' (by rw [length_take]; omega)]
      · rw [if_neg h1, if_neg h1]
        by_cases h2 : limT ≤ (cpt a.task : Int)
        · rw [if_pos h2, if_pos h2, ih]
          rw [surgery_shape l i a h, take_left' (by rw [length_take]; omega),
            drop_left' (by rw [length_take]; omega)]
        · rw [if_neg h2, if_neg h2, ih]
          have hts : l.take (i + 1) = l.take i ++ [a] := by
            rw [take_succ, getElem?_eq_getElem h]
            rfl
          rw [hts, append_assoc]
          rfl
    · rw [limitLoop, dif_neg h, drop_eq_nil_of_le (by omega),
        take_of_length_le (by omega)]
      simp [limitWalk]

/-- The erase walk of `Optimize`, run with enough fuel from a position
whose prefix is all retained, keeps (up to order) exactly the elements
satisfying the predicate. -/
theorem eraseWalk_perm {α : Type _} (p : α → Bool) :
    ∀ (fuel : Nat) (l : List α) (i : Nat), l.length - i ≤ fuel →
      (∀ a ∈ l.take i, p a = true) →
      eraseWalk p l i fuel ~ l.take i ++ (l.drop i).filter p := by
  intro fuel
  induction fuel with
  | zero =>
    intro l i hfuel hpre
    have hle : l.length ≤ i := by omega
    rw [eraseWalk, take_of_length_le hle, drop_eq_nil_of_le hle]
    simp
  | succ fuel ih =>
    intro l i hfuel hpre
    rw [eraseWalk]
    by_cases h : i < l.length
    · rw [dif_pos h]
      have hdrop : l.drop i = l.get ⟨i, h⟩ :: l.drop (i + 1) := by
        rw [get_eq_getElem]
        exact drop_eq_getElem_cons h
      set a := l.get ⟨i, h⟩ with ha
      by_cases hp : p a = true
      · rw [if_pos hp]
        have hts : l.take (i + 1) = l.take i ++ [a] := by
          rw [take_succ, getElem?_eq_getElem h]
          rfl
        have hpre2 : ∀ b ∈ l.take (i + 1), p b = true := by
          intro b hb
          rw [hts] at hb
          rcases mem_append.mp hb with hb | hb
          · exact hpre b hb
          · rcases mem_singleton.mp hb with rfl
            exact hp
        have := ih l (i + 1) (by omega) hpre2
        refine this.trans ?_
        rw [hdrop, filter_cons, if_pos hp, hts, append_assoc]
        rfl
      · rw [if_neg hp]
        have hs := surgery_shape l i a h
        have hlen : ((l.set i (l.getD (l.length - 1) a)).dropLast).length
            = l.length - 1 := by
          rw [List.length_dropLast, List.length_set]
        have htake : ((l.set i (l.getD (l.length - 1) a)).dropLast).take i
            = l.take i := by
          rw [hs, take_left' (by rw [length_take]; omega)]
        have hdrop2 : ((l.set i (l.getD (l.length - 1) a)).dropLast).drop i
            = swapBack (l.drop (i + 1)) := by
          rw [hs, drop_left' (by rw [length_take]; omega)]
        have := ih ((l.set i (l.getD (l.length - 1) a)).dropLast) i
          (by omega) (by rw [htake]; exact hpre)
        rw [htake, hdrop2] at this
        refine this.trans ?_
        refine List.Perm.append_left _ ?_
        have : (swapBack (l.drop (i + 1))).filter p ~ (l.drop (i + 1)).filter p :=
          (swapBack_perm _).filter p
        refine this.trans ?_
        rw [hdrop, filter_cons, if_neg hp]
    · rw [dif_neg h, take_of_length_le (by omega), drop_eq_nil_of_le (by omega)]
      simp

/-- Retention counts of the actual filter walk are bounded by the caps:
the character-side bound. -/
theorem limitWalk_countP_char (limC limT : Int) (c : Nat) :
    ∀ (fuel : Nat) (l : List Assignment) (tpc cpt : Nat → Nat),
      l.length ≤ fuel →
      (limitWalk limC limT tpc cpt l fuel).countP
          (fun a => decide (a.character = c)) ≤ limC.toNat - tpc c := by
  intro fuel
  induction fuel with
  | zero =>
    intro l tpc cpt hlen
    have : l = [] := by
      cases l with
      | nil => rfl
      | cons a r => simp at hlen
    rw [this, limitWalk]
    simp
  | succ fuel ih =>
    intro l tpc cpt hlen
    cases l with
    | nil =>
      rw [limitWalk]
      simp
    | cons a rest =>
      have hr : rest.length ≤ fuel := by
        simp at hlen
        omega
      have hswap : (swapBack rest).length ≤ fuel := by
        calc (swapBack rest).length = rest.length := (swapBack_perm rest).length_eq
          _ ≤ fuel := hr
      rw [limitWalk]
      by_cases h1 : limC ≤ (tpc a.character : Int)
      · rw [if_pos h1]
        exact ih _ _ _ hswap
      · rw [if_neg h1]
        by_cases h2 : limT ≤ (cpt a.task : Int)
        · rw [if_pos h2]
          exact ih _ _ _ hswap
        · rw [if_neg h2]
          rw [countP_cons]
          have hIH := ih rest
            (fun c2 => if c2 = a.character then tpc c2 + 1 else tpc c2)
            (fun t2 => if t2 = a.task then cpt t2 + 1 else cpt t2) hr
          have hbeta : (fun c2 => if c2 = a.character then tpc c2 + 1 else tpc c2) c
              = if c = a.character then tpc c + 1 else tpc c := rfl
          rw [hbeta] at hIH
          by_cases hc : a.character = c
          · rw [if_pos hc.symm] at hIH
            have hlt : tpc c < limC.toNat := by
              have h3 : (tpc a.character : Int) < limC := by omega
              rw [hc] at h3
              omega
            rw [decide_eq_true hc, if_pos rfl]
            omega
          · rw [if_neg (fun hcc => hc hcc.symm)] at hIH
            rw [decide_eq_false hc]
            simp only [Bool.false_eq_true, if_false]
            omega

/-- Retention counts of the actual filter walk: the task-side bound. -/
theorem limitWalk_countP_task (limC limT : Int) (t : Nat) :
    ∀ (fuel : Nat) (l : List Assignment) (tpc cpt : Nat → Nat),
      l.length ≤ fuel →
      (limitWalk limC limT tpc cpt l fuel).countP
          (fun a => decide (a.task = t)) ≤ limT.toNat - cpt t := by
  intro fuel
  induction fuel with
  | zero =>
    intro l tpc cpt hlen
    have : l = [] := by
      cases l with
      | nil => rfl
      | cons a r => simp at hlen
    rw [this, limitWalk]
    simp
  | succ fuel ih =>
    intro l tpc cpt hlen
    cases l with
    | nil =>
      rw [limitWalk]
      simp
    | cons a rest =>
      have hr : rest.length ≤ fuel := by
        simp at hlen
        omega
      have hswap : (swapBack rest).length ≤ fuel := by
        calc (swapBack rest).length = rest.length := (swapBack_perm rest).length_eq
          _ ≤ fuel := hr
      rw [limitWalk]
      by_cases h1 : limC ≤ (tpc a.character : Int)
      · rw [if_pos h1]
        exact ih _ _ _ hswap
      · rw [if_neg h1]
        by_cases h2 : limT ≤ (cpt a.task : Int)
        · rw [if_pos h2]
          exact ih _ _ _ hswap
        · rw [if_neg h2]
          rw [countP_cons]
          have hIH := ih rest
            (fun c2 => if c2 = a.character then tpc c2 + 1 else tpc c2)
            (fun t2 => if t2 = a.task then cpt t2 + 1 else cpt t2) hr
          have hbeta : (fun t2 => if t2 = a.task then cpt t2 + 1 else cpt t2) t
              = if t = a.task then cpt t + 1 else cpt t := rfl
          rw [hbeta] at hIH
          by_cases hc : a.task = t
          · rw [if_pos hc.symm] at hIH
            have hlt : cpt t < limT.toNat := by
              have h3 : (cpt a.task : Int) < limT := by omega
              rw [hc] at h3
              omega
            rw [decide_eq_true hc, if_pos rfl]
            omega
          · rw [if_neg (fun hcc => hc hcc.symm)] at hIH
            rw [decide_eq_false hc]
            simp only [Bool.false_eq_true, if_false]
            omega

/-! ## Claim C5: what the candidate filter retains -/

/-- Counterexample to claim C5: `LimitAssignments` does not retain the
pairings selected by the pure ascending walk over the sorted list.  On
this input with both caps 1, rejecting `(0,1,2)` swaps the most
expensive pairing `(1,2,9)` into its place, and that pairing is then
retained, blocking the cheaper `(1,1,3)` that the ascending walk (the
spec's algorithm, `specLimitAssignments`) retains instead. -/
theorem limitAssignments_claim_counterexample :
    LimitAssignments
        [⟨0, 0, fin 1⟩, ⟨0, 1, fin 2⟩, ⟨1, 1, fin 3⟩, ⟨1, 2, fin 9⟩] 1 1 =
      [⟨0, 0, fin 1⟩, ⟨1, 2, fin 9⟩] ∧
    specLimitAssignments
        [⟨0, 0, fin 1⟩, ⟨0, 1, fin 2⟩, ⟨1, 1, fin 3⟩, ⟨1, 2, fin 9⟩] 1 1 =
      [⟨0, 0, fin 1⟩, ⟨1, 1, fin 3⟩] ∧
    Assignment.mk 1 2 (fin 9) ∈ LimitAssignments
        [⟨0, 0, fin 1⟩, ⟨0, 1, fin 2⟩, ⟨1, 1, fin 3⟩, ⟨1, 2, fin 9⟩] 1 1 ∧
    Assignment.mk 1 2 (fin 9) ∉ specLimitAssignments
        [⟨0, 0, fin 1⟩, ⟨0, 1, fin 2⟩, ⟨1, 1, fin 3⟩, ⟨1, 2, fin 9⟩] 1 1 := by
  with_unfolding_all decide

/-- Claim C5 (amended): `LimitAssignments` retains exactly the pairings
selected by the counter walk over the cost-sorted list in which a
*rejected* pairing is replaced by the currently last element of the
remaining vector, which is examined next (`limitWalk`), rather than by
the pure ascending walk. -/
theorem limitAssignments_eq_swapback_walk
    (assignments : List Assignment) (limC limT : Int) :
    LimitAssignments assignments limC limT =
      limitWalk limC limT (fun _ => 0) (fun _ => 0)
        (List.insertionSort costLE assignments)
        (List.insertionSort costLE assignments).length := by
  unfold LimitAssignments
  rw [limitLoop_eq_walk]
  rfl

/-! ## Claim C6: the filter caps hold -/

/-- Claim C6: after `LimitAssignments` with positive caps `Kc`, `Kt`, no
character id occurs in more than `Kc` retained pairings and no task id
occurs in more than `Kt` retained pairings. -/
theorem limitAssignments_caps (l : List Assignment) (Kc Kt : Int)
    (hc : 0 < Kc) (ht : 0 < Kt) :
    (∀ c : Nat, ((LimitAssignments l Kc Kt).countP
        (fun a => decide (a.character = c)) : Int) ≤ Kc) ∧
    (∀ t : Nat, ((LimitAssignments l Kc Kt).countP
        (fun a => decide (a.task = t)) : Int) ≤ Kt) := by
  have heq : LimitAssignments l Kc Kt =
      limitWalk Kc Kt (fun _ => 0) (fun _ => 0)
        (List.insertionSort costLE l)
        (List.insertionSort costLE l).length := by
    unfold LimitAssignments
    rw [limitLoop_eq_walk]
    rfl
  constructor
  · intro c
    rw [heq]
    have := limitWalk_countP_char Kc Kt c
      (List.insertionSort costLE l).length
      (List.insertionSort costLE l) (fun _ => 0) (fun _ => 0) le_rfl
    have hcast : ((limitWalk Kc Kt (fun _ => 0) (fun _ => 0)
        (List.insertionSort costLE l)
        (List.insertionSort costLE l).length).countP
          (fun a => decide (a.character = c))) ≤ Kc.toNat := by omega
    omega
  · intro t
    rw [heq]
    have := limitWalk_countP_task Kc Kt t
      (List.insertionSort costLE l).length
      (List.insertionSort costLE l) (fun _ => 0) (fun _ => 0) le_rfl
    have hcast : ((limitWalk Kc Kt (fun _ => 0) (fun _ => 0)
        (List.insertionSort costLE l)
        (List.insertionSort costLE l).length).countP
          (fun a => decide (a.task = t))) ≤ Kt.toNat := by omega
    omega

/-- Witness for C6 at a concrete input. -/
theorem limitAssignments_caps_witness :
    (0 : Int) < 1 ∧
    ((LimitAssignments
        [⟨0, 0, fin 1⟩, ⟨0, 1, fin 2⟩, ⟨0, 2, fin 3⟩] 1 1).countP
      (fun a => decide (a.character = 0)) : Int) ≤ 1 :=
  ⟨by decide,
    (limitAssignments_caps
      [⟨0, 0, fin 1⟩, ⟨0, 1, fin 2⟩, ⟨0, 2, fin 3⟩] 1 1
      (by decide) (by decide)).1 0⟩

/-! ## Propagation lemmas for the solver loops -/

/-- Assemble a concrete `Optimize` run from its evaluated stages. -/
theorem optimize_eval (input : List Assignment) (fuel : Nat)
    (si sf : KMState) (sw : Bool) (out : List Assignment)
    (h1 : optimizeInit input = si) (h2 : mainLoop si fuel = some sf)
    (h3 : swapped input = sw) (h4 : optimizeFinish input sw sf = out) :
    Optimize input fuel = some out := by
  show (match mainLoop (optimizeInit input) fuel with
    | none => none
    | some sf => some (optimizeFinish input (swapped input) sf)) = some out
  rw [h1, h2]
  simp only [h3, h4]

/-- Destruct a successful `Optimize` run. -/
theorem optimize_some_eq {input : List Assignment} {fuel : Nat}
    {out : List Assignment} (h : Optimize input fuel = some out) :
    ∃ sf, mainLoop (optimizeInit input) fuel = some sf ∧
      out = optimizeFinish input (swapped input) sf := by
  unfold Optimize at h
  cases hm : mainLoop (optimizeInit input) fuel with
  | none =>
    rw [hm] at h
    exact absurd h (by simp)
  | some sf =>
    rw [hm] at h
    simp only [Option.some.injEq] at h
    exact ⟨sf, rfl, h.symm⟩

/-- The final filtering pass keeps, up to order, exactly the input
pairings whose (character, task) cell is selected by the final
matching. -/
theorem optimizeFinish_perm (input : List Assignment) (sw : Bool)
    (sf : KMState) :
    optimizeFinish input sw sf ~ input.filter
      (fun a => decide ((a.task : Int) =
        (if sw then sf.yxAt a.character else sf.xyAt a.character))) := by
  unfold optimizeFinish
  have h := eraseWalk_perm
    (fun a => decide ((a.task : Int) =
      (if sw then sf.yxAt a.character else sf.xyAt a.character)))
    input.length input 0 (by omega) (by simp)
  simpa using h

theorem innerCycle_step (s s1 s4 : KMState) (f : Nat)
    (hb : bfsLoop s f = some (s1, none))
    (hr : innerRound s1 = (s4, none)) :
    innerCycle s (f + 1) = innerCycle s4 f := by
  show (match bfsLoop s f with
    | none => none
    | some (s1, some (x, y)) => some (s1, x, y)
    | some (s1, none) =>
      match innerRound s1 with
      | (s4, some (x, y)) => some (s4, x, y)
      | (s4, none) => innerCycle s4 f) = innerCycle s4 f
  simp only [hb, hr]

theorem phase_none (s : KMState) (f : Nat)
    (h : innerCycle (phaseInit s) f = none) : phase s f = none := by
  show (match innerCycle (phaseInit s) f with
    | none => none
    | some (s3, x, y) =>
      augmentFlip { s3 with maxMatch := s3.maxMatch + 1 } (x : Int) (y : Int) f) = none
  simp only [h]

theorem mainLoop_none_succ (s : KMState) (f : Nat)
    (hlt : s.maxMatch < min s.NX s.NY) (h : phase s f = none) :
    mainLoop s (f + 1) = none := by
  show (if s.maxMatch < min s.NX s.NY then
      match phase s f with
      | none => none
      | some s2 => mainLoop s2 f
    else some s) = none
  rw [if_pos hlt]
  simp only [h]

theorem optimize_none (input : List Assignment) (fuel : Nat)
    (h : mainLoop (optimizeInit input) fuel = none) :
    Optimize input fuel = none := by
  show (match mainLoop (optimizeInit input) fuel with
    | none => none
    | some sf => some (optimizeFinish input (swapped input) sf)) = none
  simp only [h]

/-! ## Claim C2: infinity avoidance -/

theorem divergeA_fix : ∀ f : Nat, innerCycle divergeFixA f = none := by
  intro f
  induction f with
  | zero => rfl
  | succ f ih =>
    have hbfs : bfsLoop divergeFixA f = some (divergeFixA, none) := by
      cases f <;> rfl
    have hr : innerRound divergeFixA = (divergeFixA, none) := by
      with_unfolding_all decide
    rw [innerCycle_step divergeFixA divergeFixA divergeFixA f hbfs hr]
    exact ih

theorem divergeA_bfs : ∀ g : Nat,
    bfsLoop divergeInitA (g + 1) = some (divergeDrainA, none) := by
  intro g
  have hscan : bfsScan { divergeInitA with rd := divergeInitA.rd + 1 }
      (divergeInitA.q.getD divergeInitA.rd 0) 0
      ({ divergeInitA with rd := divergeInitA.rd + 1 } : KMState).NY
      = (divergeDrainA, none) := by
    with_unfolding_all decide
  have hdrained : bfsLoop divergeDrainA g = some (divergeDrainA, none) := by
    cases g <;> rfl
  show (if divergeInitA.rd < divergeInitA.q.length then
      match g + 1 with
      | 0 => none
      | fuel + 1 =>
        match bfsScan { divergeInitA with rd := divergeInitA.rd + 1 }
            (divergeInitA.q.getD divergeInitA.rd 0) 0
            ({ divergeInitA with rd := divergeInitA.rd + 1 } : KMState).NY with
        | (s3, some y) =>
          some (s3, some (divergeInitA.q.getD divergeInitA.rd 0, y))
        | (s3, none) => bfsLoop s3 fuel
    else some (divergeInitA, none)) = some (divergeDrainA, none)
  rw [if_pos (by with_unfolding_all decide)]
  simp only [hscan]
  exact hdrained

theorem divergeA_inner : ∀ f : Nat, innerCycle divergeInitA f = none := by
  intro f
  cases f with
  | zero => rfl
  | succ g =>
    cases g with
    | zero => rfl
    | succ g2 =>
      have hb := divergeA_bfs g2
      have hr : innerRound divergeDrainA = (divergeFixA, none) := by
        with_unfolding_all decide
      rw [innerCycle_step divergeInitA divergeDrainA divergeFixA (g2 + 1) hb hr]
      exact divergeA_fix (g2 + 1)

/-- Claim C2: on the input `[(0,0,inf),(0,1,5),(1,0,3)]` — where a
finite-cost perfect matching `{(0,1,5),(1,0,3)}` exists — `Optimize`
never returns, for any iteration budget: `max_cost` is folded over all
costs including the infinite one, giving `C_max = inf` (not the maximum
finite cost, as the spec prescribes), which puts NaN into the value
matrix and makes the dual-update loop a fixpoint.  The expected output
set `{(0,1,5),(1,0,3)}` is in particular never produced. -/
theorem optimize_infinity_never_returns :
    ∀ fuel : Nat,
      Optimize [⟨0, 0, inf⟩, ⟨0, 1, fin 5⟩, ⟨1, 0, fin 3⟩] fuel = none := by
  intro fuel
  apply optimize_none
  cases fuel with
  | zero => rfl
  | succ f =>
    apply mainLoop_none_succ
    · with_unfolding_all decide
    · apply phase_none
      have hpi : phaseInit
          (optimizeInit [⟨0, 0, inf⟩, ⟨0, 1, fin 5⟩, ⟨1, 0, fin 3⟩])
          = divergeInitA := by
        with_unfolding_all decide
      rw [hpi]
      exact divergeA_inner f

/-! ## Claim C3: termination -/

theorem divergeB_fix : ∀ f : Nat, innerCycle divergeFixB f = none := by
  intro f
  induction f with
  | zero => rfl
  | succ f ih =>
    have hbfs : bfsLoop divergeFixB f = some (divergeFixB, none) := by
      cases f <;> rfl
    have hr : innerRound divergeFixB = (divergeFixB, none) := by
      with_unfolding_all decide
    rw [innerCycle_step divergeFixB divergeFixB divergeFixB f hbfs hr]
    exact ih

theorem divergeB_bfs : ∀ g : Nat,
    bfsLoop divergeInitB (g + 1) = some (divergeDrainB, none) := by
  intro g
  have hscan : bfsScan { divergeInitB with rd := divergeInitB.rd + 1 }
      (divergeInitB.q.getD divergeInitB.rd 0) 0
      ({ divergeInitB with rd := divergeInitB.rd + 1 } : KMState).NY
      = (divergeDrainB, none) := by
    with_unfolding_all decide
  have hdrained : bfsLoop divergeDrainB g = some (divergeDrainB, none) := by
    cases g <;> rfl
  show (if divergeInitB.rd < divergeInitB.q.length then
      match g + 1 with
      | 0 => none
      | fuel + 1 =>
        match bfsScan { divergeInitB with rd := divergeInitB.rd + 1 }
            (divergeInitB.q.getD divergeInitB.rd 0) 0
            ({ divergeInitB with rd := divergeInitB.rd + 1 } : KMState).NY with
        | (s3, some y) =>
          some (s3, some (divergeInitB.q.getD divergeInitB.rd 0, y))
        | (s3, none) => bfsLoop s3 fuel
    else some (divergeInitB, none)) = some (divergeDrainB, none)
  rw [if_pos (by with_unfolding_all decide)]
  simp only [hscan]
  exact hdrained

theorem divergeB_inner : ∀ f : Nat, innerCycle divergeInitB f = none := by
  intro f
  cases f with
  | zero => rfl
  | succ g =>
    cases g with
    | zero => rfl
    | succ g2 =>
      have hb := divergeB_bfs g2
      have hr : innerRound divergeDrainB = (divergeFixB, none) := by
        with_unfolding_all decide
      rw [innerCycle_step divergeInitB divergeDrainB divergeFixB (g2 + 1) hb hr]
      exact divergeB_fix (g2 + 1)

/-- Claim C3: the main loop does not always terminate.  On the valid
input `[(0,0,5),(1,1,inf)]` (non-NaN costs, one of them infinite) the
first phase's dual update reaches a fixpoint and `Optimize` never
returns, for any iteration budget — so no sequence of N augmentations
ever completes. -/
theorem optimize_infinite_cost_no_termination :
    ∀ fuel : Nat, Optimize [⟨0, 0, fin 5⟩, ⟨1, 1, inf⟩] fuel = none := by
  intro fuel
  apply optimize_none
  cases fuel with
  | zero => rfl
  | succ f =>
    apply mainLoop_none_succ
    · with_unfolding_all decide
    · apply phase_none
      have hpi : phaseInit (optimizeInit [⟨0, 0, fin 5⟩, ⟨1, 1, inf⟩])
          = divergeInitB := by
        with_unfolding_all decide
      rw [hpi]
      exact divergeB_inner f

/-! ## Claim C9: idempotence -/

/-- Claim C9 fails: running `Optimize` on the output of a previous run
can change the set.  The first run on `[(0,1,5),(0,0,7)]` keeps exactly
`[(0,1,5)]`; re-running `Optimize` on `[(0,1,5)]` yields `[]`, because
the transformed value of the pairing with the maximal cost ties the 1.0
baseline of the unsupplied cell `(0,0)`, which the scan reaches first —
the matching picks the nonexistent pairing and the real one is
filtered out. -/
theorem optimize_not_idempotent :
    Optimize [⟨0, 1, fin 5⟩, ⟨0, 0, fin 7⟩] 10 = some [⟨0, 1, fin 5⟩] ∧
    Optimize [⟨0, 1, fin 5⟩] 10 = some [] := by
  constructor
  · exact optimize_eval _ 10
      { NX := 1, NY := 2,
        value := [[fin 1, fin 3]],
        lx := [fin 3], ly := [fin 0, fin 0],
        xy := [-1], yx := [-1, -1],
        S := [false], T := [false, false],
        slack := [fin 0, fin 0], slackx := [0, 0],
        prev := [-1], q := [], rd := 0, maxMatch := 0 }
      { NX := 1, NY := 2,
        value := [[fin 1, fin 3]],
        lx := [fin 3], ly := [fin 0, fin 0],
        xy := [1], yx := [-1, 0],
        S := [true], T := [false, false],
        slack := [fin 2, fin 0], slackx := [0, 0],
        prev := [-2], q := [0], rd := 1, maxMatch := 1 }
      false _
      (by with_unfolding_all decide) (by with_unfolding_all decide)
      (by with_unfolding_all decide) (by with_unfolding_all decide)
  · exact optimize_eval _ 10
      { NX := 1, NY := 2,
        value := [[fin 1, fin 1]],
        lx := [fin 1], ly := [fin 0, fin 0],
        xy := [-1], yx := [-1, -1],
        S := [false], T := [false, false],
        slack := [fin 0, fin 0], slackx := [0, 0],
        prev := [-1], q := [], rd := 0, maxMatch := 0 }
      { NX := 1, NY := 2,
        value := [[fin 1, fin 1]],
        lx := [fin 1], ly := [fin 0, fin 0],
        xy := [0], yx := [0, -1],
        S := [true], T := [false, false],
        slack := [fin 0, fin 0], slackx := [0, 0],
        prev := [-2], q := [0], rd := 1, maxMatch := 1 }
      false _
      (by with_unfolding_all decide) (by with_unfolding_all decide)
      (by with_unfolding_all decide) (by with_unfolding_all decide)

/-! ## Claim C10: outputs are sub-multisets of the input -/

/-- Counterexample to claim C8: when a selected (character, task) pair
occurs twice in the input, `Optimize` retains *both* copies, not
"exactly one arbitrary copy". -/
theorem optimize_duplicate_pair_counterexample :
    Optimize [⟨1, 1, fin 4⟩, ⟨1, 1, fin 4⟩] 10 =
      some [⟨1, 1, fin 4⟩, ⟨1, 1, fin 4⟩] ∧
    ([⟨1, 1, fin 4⟩, ⟨1, 1, fin 4⟩] : List Assignment).count ⟨1, 1, fin 4⟩
      = 2 := by
  constructor
  · exact optimize_eval _ 10
      { NX := 2, NY := 2,
        value := [[fin 1, fin 1], [fin 1, fin 1]],
        lx := [fin 1, fin 1], ly := [fin 0, fin 0],
        xy := [-1, -1], yx := [-1, -1],
        S := [false, false], T := [false, false],
        slack := [fin 0, fin 0], slackx := [0, 0],
        prev := [-1, -1], q := [], rd := 0, maxMatch := 0 }
      { NX := 2, NY := 2,
        value := [[fin 1, fin 1], [fin 1, fin 1]],
        lx := [fin 1, fin 1], ly := [fin 0, fin 0],
        xy := [0, 1], yx := [0, 1],
        S := [true, true], T := [true, false],
        slack := [fin 0, fin 0], slackx := [1, 1],
        prev := [1, -2], q := [1, 0], rd := 1, maxMatch := 2 }
      true _
      (by with_unfolding_all decide) (by with_unfolding_all decide)
      (by with_unfolding_all decide) (by with_unfolding_all decide)
  · decide

/-- Claim C8 (amended): on duplicate (character, task) pairs the
behavior is well defined, but *every* copy of a selected pair is
retained (and every copy of an unselected pair dropped): whether a
pairing survives depends only on its (character, task) cell, and a
surviving pairing keeps its full input multiplicity. -/
theorem optimize_duplicates_all_copies (input : List Assignment)
    (fuel : Nat) (out : List Assignment)
    (h : Optimize input fuel = some out) :
    (∀ a : Assignment, out.count a = input.count a ∨ out.count a = 0) ∧
    (∀ a b : Assignment, a.character = b.character → a.task = b.task →
      ((a ∈ out → b ∈ input → b ∈ out) ∧ (a ∈ out → a ∈ input))) := by
  obtain ⟨sf, _, hout⟩ := optimize_some_eq h
  have hperm := optimizeFinish_perm input (swapped input) sf
  rw [← hout] at hperm
  set p : Assignment → Bool := fun a => decide ((a.task : Int) =
    (if swapped input then sf.yxAt a.character else sf.xyAt a.character))
    with hp
  constructor
  · intro a
    by_cases hpa : p a = true
    · left
      rw [hperm.count_eq a]
      exact count_filter hpa
    · right
      rw [hperm.count_eq a]
      rw [count_eq_zero]
      intro hmem
      exact hpa (mem_filter.mp hmem).2
  · intro a b hc ht
    have hpab : p a = p b := by
      rw [hp]
      simp only [hc, ht]
    constructor
    · intro ha hb
      have hma := hperm.mem_iff.mp ha
      have := mem_filter.mp hma
      rw [hperm.mem_iff]
      rw [mem_filter]
      exact ⟨hb, by rw [← hpab]; exact this.2⟩
    · intro ha
      have hma := hperm.mem_iff.mp ha
      exact (mem_filter.mp hma).1

/-- Witness for C8 at the duplicated input. -/
theorem optimize_duplicates_all_copies_witness :
    ([⟨1, 1, fin 4⟩, ⟨1, 1, fin 4⟩] : List Assignment).count ⟨1, 1, fin 4⟩
        = ([⟨1, 1, fin 4⟩, ⟨1, 1, fin 4⟩] : List Assignment).count ⟨1, 1, fin 4⟩
      ∨ ([⟨1, 1, fin 4⟩, ⟨1, 1, fin 4⟩] : List Assignment).count ⟨1, 1, fin 4⟩
        = 0 := by
  have heval : Optimize [⟨1, 1, fin 4⟩, ⟨1, 1, fin 4⟩] 10 =
      some [⟨1, 1, fin 4⟩, ⟨1, 1, fin 4⟩] :=
    optimize_eval _ 10
      { NX := 2, NY := 2,
        value := [[fin 1, fin 1], [fin 1, fin 1]],
        lx := [fin 1, fin 1], ly := [fin 0, fin 0],
        xy := [-1, -1], yx := [-1, -1],
        S := [false, false], T := [false, false],
        slack := [fin 0, fin 0], slackx := [0, 0],
        prev := [-1, -1], q := [], rd := 0, maxMatch := 0 }
      { NX := 2, NY := 2,
        value := [[fin 1, fin 1], [fin 1, fin 1]],
        lx := [fin 1, fin 1], ly := [fin 0, fin 0],
        xy := [0, 1], yx := [0, 1],
        S := [true, true], T := [true, false],
        slack := [fin 0, fin 0], slackx := [1, 1],
        prev := [1, -2], q := [1, 0], rd := 1, maxMatch := 2 }
      true _
      (by with_unfolding_all decide) (by with_unfolding_all decide)
      (by with_unfolding_all decide) (by with_unfolding_all decide)
  exact (optimize_duplicates_all_copies _ 10 _ heval).1 ⟨1, 1, fin 4⟩

/-! ## Claim C7: uniqueness of retained ids -/

theorem getD_map_range {α : Type _} (f : Nat → α) (n i : Nat) (d : α) :
    ((List.range n).map f).getD i d = if i < n then f i else d := by
  by_cases h : i < n
  · rw [if_pos h, List.getD_eq_getElem _ _ (by simpa using h)]
    simp
  · rw [if_neg h, List.getD_eq_default _ _ (by simpa using h)]

theorem getD_set_self {α : Type _} (l : List α) (i : Nat) (v d : α)
    (h : i < l.length) : (l.set i v).getD i d = v := by
  rw [List.getD_eq_getElem _ _ (by simpa using h)]
  exact List.getElem_set_self _

theorem getD_set_ne {α : Type _} (l : List α) (i j : Nat) (v d : α)
    (h : i ≠ j) : (l.set i v).getD j d = l.getD j d := by
  by_cases hj : j < l.length
  · rw [List.getD_eq_getElem _ _ (by simpa using hj),
      List.getD_eq_getElem _ _ hj]
    exact List.getElem_set_ne h _
  · rw [List.getD_eq_default _ _ (by simpa using hj),
      List.getD_eq_default _ _ (by omega)]

theorem eqE_int_iff (a b : ℤ) :
    eqE (fin (a : ℚ)) (fin (b : ℚ)) = true ↔ a = b := by
  unfold eqE
  simp only [EDouble.sub, EDouble.abs, EDouble.lt, decide_eq_true_eq]
  constructor
  · intro h
    by_contra hne
    have h1 : (1 : ℚ) ≤ |(a : ℚ) - b| := by
      rw [show ((a : ℚ) - b) = ((a - b : ℤ) : ℚ) by push_cast; ring,
        ← Int.cast_abs]
      exact_mod_cast Int.one_le_abs (by omega)
    linarith
  · rintro rfl
    norm_num

theorem lt_fin_iff (p q : ℚ) : EDouble.lt (fin p) (fin q) = true ↔ p < q := by
  simp [EDouble.lt]

theorem toQ_fin (p : ℚ) : (fin p).toQ = p := rfl

/-! ## Supporting lemmas: finite EDouble arithmetic and list accessors -/

theorem add_fin (p q : ℚ) : EDouble.add (fin p) (fin q) = fin (p + q) := rfl

theorem sub_fin (p q : ℚ) : EDouble.sub (fin p) (fin q) = fin (p - q) := rfl

theorem stdMin_fin (p q : ℚ) : stdMin (fin p) (fin q) = fin (min p q) := by
  simp only [stdMin, EDouble.lt]
  by_cases h : q < p
  · simp [h, min_eq_right (le_of_lt h)]
  · simp [h, min_eq_left (not_lt.mp h)]

theorem stdMax_fin (p q : ℚ) : stdMax (fin p) (fin q) = fin (max p q) := by
  simp only [stdMax, EDouble.lt]
  by_cases h : p < q
  · simp [h, max_eq_right (le_of_lt h)]
  · simp [h, max_eq_left (not_lt.mp h)]

/-! ## Accessor lemmas for the state transformers -/

theorem updateLabels_NX (s : KMState) : (updateLabels s).NX = s.NX := rfl
theorem updateLabels_NY (s : KMState) : (updateLabels s).NY = s.NY := rfl
theorem updateLabels_value (s : KMState) : (updateLabels s).value = s.value := rfl
theorem updateLabels_val (s : KMState) (x y : Nat) :
    (updateLabels s).val x y = s.val x y := rfl
theorem updateLabels_xy (s : KMState) : (updateLabels s).xy = s.xy := rfl
theorem updateLabels_yx (s : KMState) : (updateLabels s).yx = s.yx := rfl
theorem updateLabels_xyAt (s : KMState) (x : Nat) :
    (updateLabels s).xyAt x = s.xyAt x := rfl
theorem updateLabels_yxAt (s : KMState) (y : Nat) :
    (updateLabels s).yxAt y = s.yxAt y := rfl
theorem updateLabels_SAt (s : KMState) (x : Nat) :
    (updateLabels s).SAt x = s.SAt x := rfl
theorem updateLabels_TAt (s : KMState) (y : Nat) :
    (updateLabels s).TAt y = s.TAt y := rfl
theorem updateLabels_prevAt (s : KMState) (x : Nat) :
    (updateLabels s).prevAt x = s.prevAt x := rfl
theorem updateLabels_slackxAt (s : KMState) (y : Nat) :
    (updateLabels s).slackxAt y = s.slackxAt y := rfl
theorem updateLabels_q (s : KMState) : (updateLabels s).q = s.q := rfl
theorem updateLabels_maxMatch (s : KMState) :
    (updateLabels s).maxMatch = s.maxMatch := rfl

theorem updateLabels_lxAt (s : KMState) (x : Nat) (hx : x < s.NX) :
    (updateLabels s).lxAt x =
      if s.SAt x then EDouble.sub (s.lxAt x) (updateDelta s) else s.lxAt x := by
  show ((List.range s.NX).map _).getD x (fin 0) = _
  rw [getD_map_range, if_pos hx]

theorem updateLabels_lyAt (s : KMState) (y : Nat) (hy : y < s.NY) :
    (updateLabels s).lyAt y =
      if s.TAt y then EDouble.add (s.lyAt y) (updateDelta s) else s.lyAt y := by
  show ((List.range s.NY).map _).getD y (fin 0) = _
  rw [getD_map_range, if_pos hy]

theorem updateLabels_slackAt (s : KMState) (y : Nat) (hy : y < s.NY) :
    (updateLabels s).slackAt y =
      if s.TAt y then s.slackAt y
      else EDouble.sub (s.slackAt y) (updateDelta s) := by
  show ((List.range s.NY).map _).getD y (fin 0) = _
  rw [getD_map_range, if_pos hy]

theorem addToTree_NX (s : KMState) (x px : Nat) : (addToTree s x px).NX = s.NX := rfl
theorem addToTree_NY (s : KMState) (x px : Nat) : (addToTree s x px).NY = s.NY := rfl
theorem addToTree_value (s : KMState) (x px : Nat) :
    (addToTree s x px).value = s.value := rfl
theorem addToTree_val (s : KMState) (x px : Nat) (a b : Nat) :
    (addToTree s x px).val a b = s.val a b := rfl
theorem addToTree_lx (s : KMState) (x px : Nat) : (addToTree s x px).lx = s.lx := rfl
theorem addToTree_ly (s : KMState) (x px : Nat) : (addToTree s x px).ly = s.ly := rfl
theorem addToTree_lxAt (s : KMState) (x px a : Nat) :
    (addToTree s x px).lxAt a = s.lxAt a := rfl
theorem addToTree_lyAt (s : KMState) (x px b : Nat) :
    (addToTree s x px).lyAt b = s.lyAt b := rfl
theorem addToTree_xy (s : KMState) (x px : Nat) : (addToTree s x px).xy = s.xy := rfl
theorem addToTree_yx (s : KMState) (x px : Nat) : (addToTree s x px).yx = s.yx := rfl
theorem addToTree_xyAt (s : KMState) (x px a : Nat) :
    (addToTree s x px).xyAt a = s.xyAt a := rfl
theorem addToTree_yxAt (s : KMState) (x px b : Nat) :
    (addToTree s x px).yxAt b = s.yxAt b := rfl
theorem addToTree_TAt (s : KMState) (x px b : Nat) :
    (addToTree s x px).TAt b = s.TAt b := rfl
theorem addToTree_q (s : KMState) (x px : Nat) : (addToTree s x px).q = s.q := rfl
theorem addToTree_rd (s : KMState) (x px : Nat) : (addToTree s x px).rd = s.rd := rfl
theorem addToTree_maxMatch (s : KMState) (x px : Nat) :
    (addToTree s x px).maxMatch = s.maxMatch := rfl

theorem addToTree_SAt (s : KMState) (x px a : Nat) (hx : x < s.S.length) :
    (addToTree s x px).SAt a = if a = x then true else s.SAt a := by
  show (s.S.set x true).getD a false = _
  by_cases h : a = x
  · subst h; rw [if_pos rfl, getD_set_self _ _ _ _ hx]
  · rw [if_neg h, getD_set_ne _ _ _ _ _ (fun hh => h hh.symm)]; rfl

theorem addToTree_prevAt (s : KMState) (x px a : Nat) (hx : x < s.prev.length) :
    (addToTree s x px).prevAt a = if a = x then (px : Int) else s.prevAt a := by
  show (s.prev.set x (px : Int)).getD a (-1) = _
  by_cases h : a = x
  · subst h; rw [if_pos rfl, getD_set_self _ _ _ _ hx]
  · rw [if_neg h, getD_set_ne _ _ _ _ _ (fun hh => h hh.symm)]; rfl

theorem addToTree_slackAt (s : KMState) (x px b : Nat) (hb : b < s.NY) :
    (addToTree s x px).slackAt b =
      (if EDouble.lt (EDouble.sub (EDouble.add (s.lxAt x) (s.lyAt b)) (s.val x b))
          (s.slackAt b) then
        EDouble.sub (EDouble.add (s.lxAt x) (s.lyAt b)) (s.val x b)
      else s.slackAt b) := by
  show ((List.range s.NY).map _).getD b (fin 0) = _
  rw [getD_map_range, if_pos hb]; rfl

theorem addToTree_slackxAt (s : KMState) (x px b : Nat) (hb : b < s.NY) :
    (addToTree s x px).slackxAt b =
      (if EDouble.lt (EDouble.sub (EDouble.add (s.lxAt x) (s.lyAt b)) (s.val x b))
          (s.slackAt b) then x
      else s.slackxAt b) := by
  show ((List.range s.NY).map _).getD b 0 = _
  rw [getD_map_range, if_pos hb]; rfl

/-! ## Frames, transport across untouched fields, and the delta fold -/

theorem scanFrame_rfl (s : KMState) : ScanFrame s s := ⟨rfl, rfl, rfl, rfl, rfl, rfl⟩

theorem ScanFrame.comp {s1 s2 s3 : KMState} (a : ScanFrame s1 s2)
    (b : ScanFrame s2 s3) : ScanFrame s1 s3 :=
  ⟨b.hNX.trans a.hNX, b.hNY.trans a.hNY, b.hvalue.trans a.hvalue,
   b.hxy.trans a.hxy, b.hyx.trans a.hyx, b.hmm.trans a.hmm⟩

theorem xyAt_congr {s s' : KMState} (h : s'.xy = s.xy) (x : Nat) :
    s'.xyAt x = s.xyAt x := by unfold KMState.xyAt; rw [h]

theorem yxAt_congr {s s' : KMState} (h : s'.yx = s.yx) (y : Nat) :
    s'.yxAt y = s.yxAt y := by unfold KMState.yxAt; rw [h]

theorem val_congr {s s' : KMState} (h : s'.value = s.value) (x y : Nat) :
    s'.val x y = s.val x y := by unfold KMState.val; rw [h]

theorem matchedX_congr {s s' : KMState} (f : ScanFrame s s') :
    matchedX s' = matchedX s := by
  unfold matchedX
  rw [f.hNX]
  exact List.countP_congr (fun x _ => by rw [xyAt_congr f.hxy])

theorem matchedY_congr {s s' : KMState} (f : ScanFrame s s') :
    matchedY s' = matchedY s := by
  unfold matchedY
  rw [f.hNY]
  exact List.countP_congr (fun y _ => by rw [yxAt_congr f.hyx])

theorem foldMin_spec (tb : Nat → Bool) (slk : Nat → EDouble) (l : List Nat) :
    ∀ a : ℚ,
    (∀ y ∈ l, tb y = false → ∃ n : ℤ, slk y = fin (n : ℚ)) →
    ∃ d : ℚ,
      l.foldl (fun d y => if tb y then d else stdMin d (slk y)) (fin a) = fin d ∧
      d ≤ a ∧ (∀ y ∈ l, tb y = false → d ≤ (slk y).toQ) ∧
      (d = a ∨ ∃ y ∈ l, tb y = false ∧ d = (slk y).toQ) := by
  induction l with
  | nil => exact fun a _ => ⟨a, rfl, le_refl a, fun y hy => absurd hy (List.not_mem_nil y), Or.inl rfl⟩
  | cons y0 l ih =>
    intro a hfin
    by_cases ht : tb y0 = true
    · have hstep : List.foldl (fun d y => if tb y then d else stdMin d (slk y)) (fin a) (y0 :: l)
          = List.foldl (fun d y => if tb y then d else stdMin d (slk y)) (fin a) l := by
        simp [List.foldl_cons, ht]
      obtain ⟨d, hd, hda, hdle, hlast⟩ := ih a (fun y hy => hfin y (List.mem_cons_of_mem _ hy))
      refine ⟨d, hstep.trans hd, hda, ?_, ?_⟩
      · intro y hy hty
        rcases List.mem_cons.mp hy with h | h
        · subst h; rw [hty] at ht; exact absurd ht (by simp)
        · exact hdle y h hty
      · rcases hlast with h | ⟨y, hy, h1, h2⟩
        · exact Or.inl h
        · exact Or.inr ⟨y, List.mem_cons_of_mem _ hy, h1, h2⟩
    · have ht' : tb y0 = false := by revert ht; cases tb y0 <;> simp
      obtain ⟨m, hm⟩ := hfin y0 (List.mem_cons_self y0 l) ht'
      have hstep : List.foldl (fun d y => if tb y then d else stdMin d (slk y)) (fin a) (y0 :: l)
          = List.foldl (fun d y => if tb y then d else stdMin d (slk y)) (fin (min a (m : ℚ))) l := by
        simp [List.foldl_cons, ht', hm, stdMin_fin]
      obtain ⟨d, hd, hda, hdle, hlast⟩ :=
        ih (min a (m : ℚ)) (fun y hy => hfin y (List.mem_cons_of_mem _ hy))
      refine ⟨d, hstep.trans hd, le_trans hda (min_le_left _ _), ?_, ?_⟩
      · intro y hy hty
        rcases List.mem_cons.mp hy with h | h
        · subst h
          rw [hm, toQ_fin]
          exact le_trans hda (min_le_right _ _)
        · exact hdle y h hty
      · rcases hlast with h | ⟨y, hy, h1, h2⟩
        · rcases le_total a (m : ℚ) with hc | hc
          · exact Or.inl (h.trans (min_eq_left hc))
          · exact Or.inr ⟨y0, List.mem_cons_self _ _, ht',
              by rw [hm, toQ_fin]; exact h.trans (min_eq_right hc)⟩
        · exact Or.inr ⟨y, List.mem_cons_of_mem _ hy, h1, h2⟩

theorem DBL_MAX_int : ∃ n : ℤ, (DBL_MAX : ℚ) = (n : ℚ) ∧ 0 ≤ (n : ℚ) := by
  refine ⟨((2 : ℤ) ^ 1024 - 2 ^ 971), ?_, ?_⟩
  · rw [DBL_MAX]
    push_cast [Nat.sub_le]
    norm_num
  · push_cast
    norm_num

theorem updateDelta_spec (s : KMState)
    (hfin : ∀ y < s.NY, s.TAt y = false → ∃ n : ℤ, s.slackAt y = fin (n : ℚ))
    (hnn : ∀ y < s.NY, s.TAt y = false → 0 ≤ (s.slackAt y).toQ) :
    ∃ d : ℤ, updateDelta s = fin (d : ℚ) ∧ 0 ≤ (d : ℚ) ∧
      ∀ y < s.NY, s.TAt y = false → (d : ℚ) ≤ (s.slackAt y).toQ := by
  obtain ⟨M, hM, hM0⟩ := DBL_MAX_int
  have hfin' : ∀ y ∈ List.range s.NY, s.TAt y = false →
      ∃ n : ℤ, s.slackAt y = fin (n : ℚ) :=
    fun y hy => hfin y (List.mem_range.mp hy)
  obtain ⟨d, hd, hda, hdle, hlast⟩ :=
    foldMin_spec s.TAt s.slackAt (List.range s.NY) DBL_MAX hfin'
  have hint : ∃ n : ℤ, d = (n : ℚ) := by
    rcases hlast with h | ⟨y, hy, h1, h2⟩
    · exact ⟨M, h.trans hM⟩
    · obtain ⟨n, hn⟩ := hfin' y hy h1
      exact ⟨n, by rw [h2, hn, toQ_fin]⟩
  obtain ⟨n, hn⟩ := hint
  refine ⟨n, ?_, ?_, ?_⟩
  · rw [updateDelta, hd, hn]
  · rw [← hn]
    rcases hlast with h | ⟨y, hy, h1, h2⟩
    · rw [h, hM]; exact hM0
    · rw [h2]; exact hnn y (List.mem_range.mp hy) h1
  · intro y hy hty
    rw [← hn]
    exact hdle y (List.mem_range.mpr hy) hty

/-! ## Preservation through updateLabels -/

theorem exists_unmatchedY (s : KMState) (h : matchedY s < s.NY) :
    ∃ y, y < s.NY ∧ s.yxAt y = -1 := by
  by_contra hno
  push_neg at hno
  have hall : ∀ y ∈ List.range s.NY, (fun y => decide (s.yxAt y ≠ -1)) y = true := by
    intro y hy
    simp only [decide_eq_true_eq]
    exact hno y (List.mem_range.mp hy)
  have : matchedY s = s.NY := by
    unfold matchedY
    rw [List.countP_eq_length.mpr hall, List.length_range]
  omega

theorem slack_nonneg (s : KMState) (hI : PhaseInv s) :
    ∀ y < s.NY, s.TAt y = false → 0 ≤ (s.slackAt y).toQ := by
  intro y hy ht
  obtain ⟨hsx, hsS, heq⟩ := hI.slackEq y hy ht
  rw [heq]
  have := hI.feas (s.slackxAt y) hsx y hy
  linarith

theorem matched_notS (s : KMState) (hI : PhaseInv s) (y : Nat) (hy : y < s.NY)
    (hT : s.TAt y = false) (hm : 0 ≤ s.yxAt y) :
    s.SAt (s.yxAt y).toNat = false := by
  by_contra hS
  have hS : s.SAt (s.yxAt y).toNat = true := by
    revert hS; cases s.SAt (s.yxAt y).toNat <;> simp
  have hx2 : (s.yxAt y).toNat < s.NX := by
    rcases hI.yxrange y hy with h | ⟨_, h⟩
    · rw [h] at hm; omega
    · exact h
  have hxy2 : s.xyAt (s.yxAt y).toNat = (y : Int) := hI.consistYX y hy hm
  rcases hI.Smem (s.yxAt y).toNat hx2 hS with hroot | ⟨_, _, _, _, _, hTxy, _⟩
  · have := hI.rootUnmatched (s.yxAt y).toNat hx2 hroot
    rw [hxy2] at this
    omega
  · rw [hxy2, Int.toNat_natCast] at hTxy
    rw [hTxy] at hT
    exact absurd hT (by simp)

theorem updateLabels_inv (s : KMState) (hI : PhaseInv s) :
    PhaseInv (updateLabels s) ∧ ScanFrame s (updateLabels s) := by
  have hframe : ScanFrame s (updateLabels s) := ⟨rfl, rfl, rfl, rfl, rfl, rfl⟩
  obtain ⟨d, hdval, hd0, hdle⟩ :=
    updateDelta_spec s hI.slackFin (slack_nonneg s hI)
  -- an unmatched y outside T with label 0
  have hmY : matchedY s < s.NY := by
    have := hI.countY
    have := hI.hmatch
    have := hI.hXY
    omega
  obtain ⟨yu, hyu, hyuu⟩ := exists_unmatchedY s hmY
  have hTyu : s.TAt yu = false := by
    by_contra h
    have h : s.TAt yu = true := by revert h; cases s.TAt yu <;> simp
    obtain ⟨h0, _, _⟩ := hI.Tmem yu hyu h
    rw [hyuu] at h0
    omega
  have hlyu : (s.lyAt yu).toQ = 0 := hI.lyzero yu hyu hyuu
  -- pointwise characterizations
  have hlx : ∀ x < s.NX, ((updateLabels s).lxAt x =
      (if s.SAt x then EDouble.sub (s.lxAt x) (fin (d : ℚ)) else s.lxAt x)) := by
    intro x hx
    rw [updateLabels_lxAt s x hx, hdval]
  have hly : ∀ y < s.NY, ((updateLabels s).lyAt y =
      (if s.TAt y then EDouble.add (s.lyAt y) (fin (d : ℚ)) else s.lyAt y)) := by
    intro y hy
    rw [updateLabels_lyAt s y hy, hdval]
  have hslk : ∀ y < s.NY, ((updateLabels s).slackAt y =
      (if s.TAt y then s.slackAt y else EDouble.sub (s.slackAt y) (fin (d : ℚ)))) := by
    intro y hy
    rw [updateLabels_slackAt s y hy, hdval]
  -- rational readings
  have hlxQ : ∀ x < s.NX, ((updateLabels s).lxAt x).toQ =
      (s.lxAt x).toQ - (if s.SAt x then (d : ℚ) else 0) := by
    intro x hx
    obtain ⟨k, hk⟩ := hI.lxint x hx
    rw [hlx x hx, hk]
    by_cases hS : s.SAt x <;> simp [hS, sub_fin, toQ_fin]
  have hlyQ : ∀ y < s.NY, ((updateLabels s).lyAt y).toQ =
      (s.lyAt y).toQ + (if s.TAt y then (d : ℚ) else 0) := by
    intro y hy
    obtain ⟨k, hk⟩ := hI.lyint y hy
    rw [hly y hy, hk]
    by_cases hT : s.TAt y <;> simp [hT, add_fin, toQ_fin]
  have hslkQ : ∀ y < s.NY, s.TAt y = false → ((updateLabels s).slackAt y).toQ =
      (s.slackAt y).toQ - (d : ℚ) := by
    intro y hy hT
    obtain ⟨k, hk⟩ := hI.slackFin y hy hT
    rw [hslk y hy, hT, hk]
    simp [sub_fin, toQ_fin]
  -- the per-x lower bound through the unmatched vertex
  have hkey : ∀ x < s.NX, s.SAt x = true →
      (s.val x yu).toQ ≤ (s.lxAt x).toQ - (d : ℚ) := by
    intro x hx hS
    have h1 := hI.slackLe yu hyu hTyu x hx hS
    have h2 := hdle yu hyu hTyu
    linarith
  have hval1 : ∀ x < s.NX, ∀ y < s.NY, 1 ≤ (s.val x y).toQ := by
    intro x hx y hy
    obtain ⟨n, hn, hn1⟩ := hI.valint x hx y hy
    rw [hn, toQ_fin]
    exact_mod_cast hn1
  refine ⟨⟨⟨?_, ?_, ?_, ?_, ?_, ?_, ?_, ?_, ?_, ?_, ?_, ?_, ?_, ?_, ?_, ?_, ?_, ?_, ?_, ?_⟩,
    ?_, ?_, ?_, ?_, ?_, ?_, ?_, ?_, ?_, ?_, ?_, ?_, ?_, ?_⟩, hframe⟩
  · exact hI.hNX
  · exact hI.hXY
  · show ((List.range s.NX).map _).length = s.NX
    simp
  · show ((List.range s.NY).map _).length = s.NY
    simp
  · exact hI.lenxy
  · exact hI.lenyx
  · exact hI.valint
  · intro x hx
    obtain ⟨k, hk⟩ := hI.lxint x hx
    rw [hlx x hx, hk]
    by_cases hS : s.SAt x
    · exact ⟨k - d, by simp [hS, sub_fin]⟩
    · exact ⟨k, by simp [hS]⟩
  · intro y hy
    obtain ⟨k, hk⟩ := hI.lyint y hy
    rw [hly y hy, hk]
    by_cases hT : s.TAt y
    · exact ⟨k + d, by simp [hT, add_fin]⟩
    · exact ⟨k, by simp [hT]⟩
  · intro x hx
    rw [hlxQ x hx]
    by_cases hS : s.SAt x
    · rw [if_pos hS]
      have := hkey x hx hS
      have := hval1 x hx yu hyu
      linarith
    · rw [if_neg hS]
      have := hI.lx1 x hx
      linarith
  · exact hI.xyrange
  · exact hI.yxrange
  · exact hI.consistXY
  · exact hI.consistYX
  · rw [matchedX_congr hframe]; exact hI.countX
  · rw [matchedY_congr hframe]; exact hI.countY
  · intro x hx y hy
    rw [show (updateLabels s).val x y = s.val x y from rfl, hlxQ x hx, hlyQ y hy]
    by_cases hS : s.SAt x <;> by_cases hT : s.TAt y
    · have := hI.feas x hx y hy
      simp only [hS, hT, if_pos]
      linarith
    · have h1 := hI.slackLe y hy (by revert hT; cases s.TAt y <;> simp) x hx
        (by revert hS; cases s.SAt x <;> simp)
      have h2 := hdle y hy (by revert hT; cases s.TAt y <;> simp)
      simp only [hS, hT, if_pos, if_neg, Bool.false_eq_true, ite_false, ite_true]
      linarith
    · have := hI.feas x hx y hy
      simp only [hS, hT]
      simp only [Bool.false_eq_true, ite_false, ite_true]
      linarith
    · have := hI.feas x hx y hy
      simp only [hS, hT]
      simp only [Bool.false_eq_true, ite_false]
      linarith
  · intro y hy
    rw [hlyQ y hy]
    have := hI.lynn y hy
    by_cases hT : s.TAt y <;> simp [hT] <;> linarith
  · intro y hy hym
    have hT : s.TAt y = false := by
      by_contra h
      have h : s.TAt y = true := by revert h; cases s.TAt y <;> simp
      obtain ⟨h0, _, _⟩ := hI.Tmem y hy h
      rw [show (updateLabels s).yxAt y = s.yxAt y from rfl] at hym
      rw [hym] at h0
      omega
    rw [hlyQ y hy, hT]
    simp only [Bool.false_eq_true, ite_false, add_zero]
    exact hI.lyzero y hy (by rw [show (updateLabels s).yxAt y = s.yxAt y from rfl] at hym; exact hym)
  · intro y hy hym
    rw [show (updateLabels s).yxAt y = s.yxAt y from rfl] at hym
    have hx2 : (s.yxAt y).toNat < s.NX := by
      rcases hI.yxrange y hy with h | ⟨_, h⟩
      · rw [h] at hym; omega
      · exact h
    show ((updateLabels s).val _ y).toQ = _
    rw [show (updateLabels s).yxAt y = s.yxAt y from rfl,
      show ((updateLabels s).val (s.yxAt y).toNat y) = s.val (s.yxAt y).toNat y from rfl,
      hlxQ _ hx2, hlyQ y hy]
    have htight := hI.tightM y hy hym
    by_cases hT : s.TAt y
    · obtain ⟨_, _, hS2⟩ := hI.Tmem y hy (by revert hT; cases s.TAt y <;> simp)
      rw [hS2, hT]
      simp only [ite_true]
      rw [htight]
      ring
    · have hT' : s.TAt y = false := by revert hT; cases s.TAt y <;> simp
      have hS2 := matched_notS s hI y hy hT' hym
      rw [hS2, hT']
      simp only [Bool.false_eq_true, ite_false, sub_zero, add_zero]
      exact htight
  · show s.S.length = s.NX
    exact hI.lenS
  · show s.T.length = s.NY
    exact hI.lenT
  · show s.prev.length = s.NX
    exact hI.lenprev
  · show ((List.range s.NY).map _).length = s.NY
    simp
  · show s.slackx.length = s.NY
    exact hI.lenslackx
  · show s.maxMatch < s.NX
    exact hI.hmatch
  · intro x hx
    show s.prevAt x = -2 → s.xyAt x = -1
    exact hI.rootUnmatched x hx
  · intro x hx hS
    have hS' : s.SAt x = true := hS
    rcases hI.Smem x hx hS' with hroot | ⟨h1, h2, h3, h4, h5, h6, h7⟩
    · exact Or.inl hroot
    · refine Or.inr ⟨h1, h2, h3, h4, h5, h6, ?_⟩
      rw [show (updateLabels s).prevAt x = s.prevAt x from rfl,
        show (updateLabels s).xyAt x = s.xyAt x from rfl]
      unfold tightQ
      rw [show ((updateLabels s).val (s.prevAt x).toNat (s.xyAt x).toNat) =
        s.val (s.prevAt x).toNat (s.xyAt x).toNat from rfl,
        hlxQ _ h2, hlyQ _ h5]
      rw [h3, h6]
      simp only [ite_true]
      unfold tightQ at h7
      rw [h7]
      ring
  · intro x hx hS
    exact hI.chains x hx hS
  · intro y hy hT
    exact hI.Tmem y hy hT
  · intro x hxq
    exact hI.qmem x hxq
  · intro y hy hT x hx hS
    have hT' : s.TAt y = false := hT
    have hS' : s.SAt x = true := hS
    rw [hslkQ y hy hT', hlxQ x hx, hlyQ y hy,
      show (updateLabels s).val x y = s.val x y from rfl, hS', hT']
    simp only [ite_true, Bool.false_eq_true, ite_false, add_zero]
    have := hI.slackLe y hy hT' x hx hS'
    linarith
  · intro y hy hT
    have hT' : s.TAt y = false := hT
    obtain ⟨h1, h2, h3⟩ := hI.slackEq y hy hT'
    refine ⟨h1, h2, ?_⟩
    rw [show (updateLabels s).slackxAt y = s.slackxAt y from rfl]
    rw [hslkQ y hy hT', hlxQ _ h1, hlyQ y hy,
      show (updateLabels s).val (s.slackxAt y) y = s.val (s.slackxAt y) y from rfl]
    rw [h2, hT']
    simp only [ite_true, Bool.false_eq_true, ite_false, add_zero]
    linarith
  · intro y hy hT
    have hT' : s.TAt y = false := hT
    obtain ⟨k, hk⟩ := hI.slackFin y hy hT'
    rw [hslk y hy, hT', hk]
    simp only [Bool.false_eq_true, ite_false, sub_fin]
    exact ⟨k - d, by push_cast; ring_nf⟩

/-! ## Tree-growing steps -/

theorem chains_set (s : KMState) (hI : PhaseInv s) (x2 : Nat) (px : Int)
    (hx2S : s.SAt x2 = false) :
    ∀ a, a < s.NX → s.SAt a = true → ChainsToRoot (s.prev.set x2 px) a := by
  intro a ha hSa
  have hder := hI.chains a ha hSa
  revert ha hSa
  induction hder with
  | root x h =>
    intro hx hSx
    refine ChainsToRoot.root x ?_
    have hne : x2 ≠ x := fun he => by rw [he, hSx] at hx2S; exact absurd hx2S (by simp)
    rw [getD_set_ne _ _ _ _ _ hne]
    exact h
  | step x xn h h2 ih =>
    intro hx hSx
    have hne : x2 ≠ x := fun he => by rw [he, hSx] at hx2S; exact absurd hx2S (by simp)
    rcases hI.Smem x hx hSx with hroot | ⟨g1, g2, g3, _, _, _, _⟩
    · have : s.prevAt x = -2 := hroot
      rw [show s.prevAt x = s.prev.getD x (-1) from rfl, h] at this
      exact absurd this (by omega)
    · have hxn : (s.prevAt x).toNat = xn := by
        have hh : s.prevAt x = (xn : Int) := h
        rw [hh]
        exact Int.toNat_natCast xn
      refine ChainsToRoot.step x xn ?_ ?_
      · rw [getD_set_ne _ _ _ _ _ hne]
        exact h
      · exact ih (hxn ▸ g2) (hxn ▸ g3)

theorem absorb_inv (s : KMState) (y px : Nat) (hI : PhaseInv s)
    (hy : y < s.NY) (hT : s.TAt y = false) (hym : 0 ≤ s.yxAt y)
    (hpx : px < s.NX) (hSpx : s.SAt px = true) (htight : tightQ s px y) :
    PhaseInv (addToTree
        { s with T := s.T.set y true, q := s.q ++ [(s.yxAt y).toNat] }
        (s.yxAt y).toNat px)
    ∧ ScanFrame s (addToTree
        { s with T := s.T.set y true, q := s.q ++ [(s.yxAt y).toNat] }
        (s.yxAt y).toNat px) := by
  set x2 := (s.yxAt y).toNat with hx2def
  set sm : KMState := { s with T := s.T.set y true, q := s.q ++ [x2] } with hsm
  set s' := addToTree sm x2 px with hs'
  have hx2NX : x2 < s.NX := by
    rcases hI.yxrange y hy with h | ⟨_, h⟩
    · rw [h] at hym; omega
    · exact h
  have hxyx2 : s.xyAt x2 = (y : Int) := hI.consistYX y hy hym
  have hx2S : s.SAt x2 = false := matched_notS s hI y hy hT hym
  have hframe : ScanFrame s s' := ⟨rfl, rfl, rfl, rfl, rfl, rfl⟩
  have htQ : ∀ a b, tightQ s' a b ↔ tightQ s a b := fun a b => Iff.rfl
  -- accessors
  have hSAt : ∀ a, s'.SAt a = if a = x2 then true else s.SAt a := by
    intro a
    have := addToTree_SAt sm x2 px a (by show x2 < s.S.length; rw [hI.lenS]; exact hx2NX)
    rw [this]; rfl
  have hprevAt : ∀ a, s'.prevAt a = if a = x2 then (px : Int) else s.prevAt a := by
    intro a
    have := addToTree_prevAt sm x2 px a (by show x2 < s.prev.length; rw [hI.lenprev]; exact hx2NX)
    rw [this]; rfl
  have hTAt : ∀ b, s'.TAt b = if b = y then true else s.TAt b := by
    intro b
    rw [addToTree_TAt]
    show (s.T.set y true).getD b false = _
    by_cases h : b = y
    · subst h; rw [if_pos rfl, getD_set_self _ _ _ _ (by rw [hI.lenT]; exact hy)]
    · rw [if_neg h, getD_set_ne _ _ _ _ _ (fun hh => h hh.symm)]; rfl
  have hq : s'.q = s.q ++ [x2] := rfl
  have hslackAt : ∀ b, b < s.NY → s'.slackAt b =
      (if EDouble.lt (EDouble.sub (EDouble.add (s.lxAt x2) (s.lyAt b)) (s.val x2 b))
          (s.slackAt b) then
        EDouble.sub (EDouble.add (s.lxAt x2) (s.lyAt b)) (s.val x2 b)
      else s.slackAt b) := by
    intro b hb
    exact addToTree_slackAt sm x2 px b hb
  have hslackxAt : ∀ b, b < s.NY → s'.slackxAt b =
      (if EDouble.lt (EDouble.sub (EDouble.add (s.lxAt x2) (s.lyAt b)) (s.val x2 b))
          (s.slackAt b) then x2
      else s.slackxAt b) := by
    intro b hb
    exact addToTree_slackxAt sm x2 px b hb
  refine ⟨⟨⟨hI.hNX, hI.hXY, hI.lenlx, hI.lenly, hI.lenxy, hI.lenyx, hI.valint, hI.lxint,
    hI.lyint, hI.lx1, hI.xyrange, hI.yxrange, hI.consistXY, hI.consistYX,
    by rw [matchedX_congr hframe]; exact hI.countX,
    by rw [matchedY_congr hframe]; exact hI.countY,
    hI.feas, hI.lynn, hI.lyzero, hI.tightM⟩,
    ?_, ?_, ?_, ?_, ?_, hI.hmatch, ?_, ?_, ?_, ?_, ?_, ?_, ?_, ?_⟩, hframe⟩
  · show (s.S.set x2 true).length = s.NX
    rw [List.length_set]; exact hI.lenS
  · show (s.T.set y true).length = s.NY
    rw [List.length_set]; exact hI.lenT
  · show (s.prev.set x2 (px : Int)).length = s.NX
    rw [List.length_set]; exact hI.lenprev
  · show ((List.range s.NY).map _).length = s.NY
    simp
  · show ((List.range s.NY).map _).length = s.NY
    simp
  · -- rootUnmatched
    intro a ha hpr
    rw [hprevAt a] at hpr
    by_cases he : a = x2
    · rw [if_pos he] at hpr
      exact absurd hpr (by omega)
    · rw [if_neg he] at hpr
      exact hI.rootUnmatched a ha hpr
  · -- Smem
    intro a ha hSa
    rw [hSAt a] at hSa
    by_cases he : a = x2
    · subst he
      refine Or.inr ?_
      rw [hprevAt x2, if_pos rfl]
      refine ⟨by omega, by rw [Int.toNat_natCast]; exact hpx, ?_, ?_, ?_, ?_, ?_⟩
      · rw [Int.toNat_natCast, hSAt px]
        by_cases h2 : px = x2
        · rw [if_pos h2]
        · rw [if_neg h2]; exact hSpx
      · show 0 ≤ s.xyAt x2
        rw [hxyx2]; omega
      · show (s.xyAt x2).toNat < s.NY
        rw [hxyx2, Int.toNat_natCast]; exact hy
      · rw [show s'.xyAt x2 = s.xyAt x2 from rfl, hxyx2, Int.toNat_natCast, hTAt y, if_pos rfl]
      · rw [Int.toNat_natCast, show s'.xyAt x2 = s.xyAt x2 from rfl, hxyx2, Int.toNat_natCast,
          htQ px y]
        exact htight
    · rw [if_neg he] at hSa
      rcases hI.Smem a ha hSa with hroot | ⟨g1, g2, g3, g4, g5, g6, g7⟩
      · exact Or.inl (by rw [hprevAt a, if_neg he]; exact hroot)
      · refine Or.inr ?_
        rw [hprevAt a, if_neg he]
        refine ⟨g1, g2, ?_, g4, g5, ?_, ?_⟩
        · rw [hSAt _]
          by_cases h2 : (s.prevAt a).toNat = x2 <;> simp [h2]
          exact g3
        · rw [show s'.xyAt a = s.xyAt a from rfl, hTAt _]
          by_cases h2 : (s.xyAt a).toNat = y <;> simp [h2]
          exact g6
        · rw [show s'.xyAt a = s.xyAt a from rfl, htQ]
          exact g7
  · -- chains
    intro a ha hSa
    rw [hSAt a] at hSa
    show ChainsToRoot (s.prev.set x2 (px : Int)) a
    by_cases he : a = x2
    · subst he
      refine ChainsToRoot.step x2 px ?_ ?_
      · rw [getD_set_self _ _ _ _ (by rw [hI.lenprev]; exact hx2NX)]
      · exact chains_set s hI x2 (px : Int) hx2S px hpx hSpx
    · rw [if_neg he] at hSa
      exact chains_set s hI x2 (px : Int) hx2S a ha hSa
  · -- Tmem
    intro b hb hTb
    rw [hTAt b] at hTb
    by_cases he : b = y
    · refine ⟨?_, ?_, ?_⟩
      · show 0 ≤ s.yxAt b
        rw [he]; exact hym
      · show (s.yxAt b).toNat < s.NX
        rw [he]; exact hx2NX
      · show s'.SAt (s.yxAt b).toNat = true
        rw [he, ← hx2def, hSAt x2, if_pos rfl]
    · rw [if_neg he] at hTb
      obtain ⟨g1, g2, g3⟩ := hI.Tmem b hb hTb
      refine ⟨g1, g2, ?_⟩
      rw [show s'.yxAt b = s.yxAt b from rfl, hSAt _]
      by_cases h2 : (s.yxAt b).toNat = x2 <;> simp [h2]
      exact g3
  · -- qmem
    intro a haq
    rw [hq] at haq
    rcases List.mem_append.mp haq with h | h
    · obtain ⟨g1, g2⟩ := hI.qmem a h
      refine ⟨g1, ?_⟩
      rw [hSAt a]
      by_cases h2 : a = x2 <;> simp [h2]
      exact g2
    · have : a = x2 := by simpa using h
      subst this
      exact ⟨hx2NX, by rw [hSAt x2, if_pos rfl]⟩
  · -- slackLe
    intro b hb hTb a ha hSa
    rw [hTAt b] at hTb
    by_cases he : b = y
    · rw [if_pos he] at hTb; exact absurd hTb (by simp)
    · rw [if_neg he] at hTb
      rw [hSAt a] at hSa
      obtain ⟨k1, hk1⟩ := hI.lxint x2 hx2NX
      obtain ⟨k2, hk2⟩ := hI.lyint b hb
      obtain ⟨k3, hk3, _⟩ := hI.valint x2 hx2NX b hb
      obtain ⟨k4, hk4⟩ := hI.slackFin b hb hTb
      have hc : EDouble.sub (EDouble.add (s.lxAt x2) (s.lyAt b)) (s.val x2 b) =
          fin ((k1 : ℚ) + k2 - k3) := by rw [hk1, hk2, hk3, add_fin, sub_fin]
      rw [hslackAt b hb, hc, hk4]
      have heq : ∀ e : EDouble, e.toQ = e.toQ := fun _ => rfl
      by_cases hlt : ((k1 : ℚ) + k2 - k3) < (k4 : ℚ)
      · rw [if_pos (by rw [EDouble.lt]; exact decide_eq_true hlt)]
        by_cases hea : a = x2
        · subst hea
          rw [toQ_fin, show s'.lxAt x2 = s.lxAt x2 from rfl,
            show s'.lyAt b = s.lyAt b from rfl,
            show s'.val x2 b = s.val x2 b from rfl, hk1, hk2, hk3,
            toQ_fin, toQ_fin, toQ_fin]
        · rw [if_neg hea] at hSa
          have := hI.slackLe b hb hTb a ha hSa
          rw [hk4, toQ_fin] at this
          rw [toQ_fin, show s'.lxAt a = s.lxAt a from rfl,
            show s'.lyAt b = s.lyAt b from rfl,
            show s'.val a b = s.val a b from rfl]
          linarith
      · rw [if_neg (by rw [EDouble.lt]; simpa using hlt)]
        by_cases hea : a = x2
        · subst hea
          rw [toQ_fin, show s'.lxAt x2 = s.lxAt x2 from rfl,
            show s'.lyAt b = s.lyAt b from rfl,
            show s'.val x2 b = s.val x2 b from rfl, hk1, hk2, hk3,
            toQ_fin, toQ_fin, toQ_fin]
          linarith
        · rw [if_neg hea] at hSa
          have := hI.slackLe b hb hTb a ha hSa
          rw [hk4, toQ_fin] at this
          rw [toQ_fin, show s'.lxAt a = s.lxAt a from rfl,
            show s'.lyAt b = s.lyAt b from rfl,
            show s'.val a b = s.val a b from rfl]
          linarith
  · -- slackEq
    intro b hb hTb
    rw [hTAt b] at hTb
    by_cases he : b = y
    · rw [if_pos he] at hTb; exact absurd hTb (by simp)
    · rw [if_neg he] at hTb
      obtain ⟨k1, hk1⟩ := hI.lxint x2 hx2NX
      obtain ⟨k2, hk2⟩ := hI.lyint b hb
      obtain ⟨k3, hk3, _⟩ := hI.valint x2 hx2NX b hb
      obtain ⟨k4, hk4⟩ := hI.slackFin b hb hTb
      have hc : EDouble.sub (EDouble.add (s.lxAt x2) (s.lyAt b)) (s.val x2 b) =
          fin ((k1 : ℚ) + k2 - k3) := by rw [hk1, hk2, hk3, add_fin, sub_fin]
      rw [hslackAt b hb, hslackxAt b hb, hc, hk4]
      by_cases hlt : ((k1 : ℚ) + k2 - k3) < (k4 : ℚ)
      · rw [if_pos (by rw [EDouble.lt]; exact decide_eq_true hlt),
          if_pos (by rw [EDouble.lt]; exact decide_eq_true hlt)]
        refine ⟨hx2NX, by rw [hSAt _, if_pos rfl], ?_⟩
        rw [toQ_fin, show s'.lxAt x2 = s.lxAt x2 from rfl,
          show s'.lyAt b = s.lyAt b from rfl,
          show s'.val x2 b = s.val x2 b from rfl, hk1, hk2, hk3, toQ_fin, toQ_fin, toQ_fin]
      · rw [if_neg (by rw [EDouble.lt]; simpa using hlt),
          if_neg (by rw [EDouble.lt]; simpa using hlt)]
        obtain ⟨g1, g2, g3⟩ := hI.slackEq b hb hTb
        refine ⟨g1, ?_, ?_⟩
        · rw [hSAt _]
          by_cases h2 : s.slackxAt b = x2 <;> simp [h2]
          exact g2
        · rw [toQ_fin, show s'.lxAt (s.slackxAt b) = s.lxAt (s.slackxAt b) from rfl,
            show s'.lyAt b = s.lyAt b from rfl,
            show s'.val (s.slackxAt b) b = s.val (s.slackxAt b) b from rfl]
          rw [hk4, toQ_fin] at g3
          exact g3
  · -- slackFin
    intro b hb hTb
    rw [hTAt b] at hTb
    by_cases he : b = y
    · rw [if_pos he] at hTb; exact absurd hTb (by simp)
    · rw [if_neg he] at hTb
      obtain ⟨k1, hk1⟩ := hI.lxint x2 hx2NX
      obtain ⟨k2, hk2⟩ := hI.lyint b hb
      obtain ⟨k3, hk3, _⟩ := hI.valint x2 hx2NX b hb
      obtain ⟨k4, hk4⟩ := hI.slackFin b hb hTb
      have hc : EDouble.sub (EDouble.add (s.lxAt x2) (s.lyAt b)) (s.val x2 b) =
          fin ((k1 : ℚ) + k2 - k3) := by rw [hk1, hk2, hk3, add_fin, sub_fin]
      rw [hslackAt b hb, hc, hk4]
      by_cases hlt : EDouble.lt (fin ((k1 : ℚ) + k2 - k3)) (fin (k4 : ℚ)) = true
      · rw [if_pos hlt]
        exact ⟨k1 + k2 - k3, by push_cast; ring_nf⟩
      · rw [if_neg (by revert hlt; cases EDouble.lt (fin ((k1 : ℚ) + k2 - k3)) (fin (k4 : ℚ)) <;> simp)]
        exact ⟨k4, rfl⟩

/-! ## Small steps and bridges -/

theorem absorb_S_grows (s : KMState) (y px : Nat) (hI : PhaseInv s)
    (hx2 : (s.yxAt y).toNat < s.NX) :
    ∀ a, s.SAt a = true →
      (addToTree { s with T := s.T.set y true, q := s.q ++ [(s.yxAt y).toNat] }
        (s.yxAt y).toNat px).SAt a = true := by
  intro a hSa
  have := addToTree_SAt { s with T := s.T.set y true, q := s.q ++ [(s.yxAt y).toNat] }
    (s.yxAt y).toNat px a (by show (s.yxAt y).toNat < s.S.length; rw [hI.lenS]; exact hx2)
  rw [this]
  by_cases h2 : a = (s.yxAt y).toNat
  · rw [if_pos h2]
  · rw [if_neg h2]; exact hSa

theorem tset_inv (s : KMState) (y : Nat) (hI : PhaseInv s) (hy : y < s.NY)
    (hym : 0 ≤ s.yxAt y) (hSx2 : s.SAt (s.yxAt y).toNat = true) :
    PhaseInv { s with T := s.T.set y true } ∧
      ScanFrame s { s with T := s.T.set y true } := by
  set s' : KMState := { s with T := s.T.set y true } with hs'
  have hframe : ScanFrame s s' := ⟨rfl, rfl, rfl, rfl, rfl, rfl⟩
  have hTAt : ∀ b, s'.TAt b = if b = y then true else s.TAt b := by
    intro b
    show (s.T.set y true).getD b false = _
    by_cases h : b = y
    · subst h; rw [if_pos rfl, getD_set_self _ _ _ _ (by rw [hI.lenT]; exact hy)]
    · rw [if_neg h, getD_set_ne _ _ _ _ _ (fun hh => h hh.symm)]; rfl
  have hx2 : (s.yxAt y).toNat < s.NX := by
    rcases hI.yxrange y hy with h | ⟨_, h⟩
    · rw [h] at hym; omega
    · exact h
  refine ⟨⟨⟨hI.hNX, hI.hXY, hI.lenlx, hI.lenly, hI.lenxy, hI.lenyx, hI.valint, hI.lxint,
    hI.lyint, hI.lx1, hI.xyrange, hI.yxrange, hI.consistXY, hI.consistYX,
    by rw [matchedX_congr hframe]; exact hI.countX,
    by rw [matchedY_congr hframe]; exact hI.countY,
    hI.feas, hI.lynn, hI.lyzero, hI.tightM⟩,
    hI.lenS, by show (s.T.set y true).length = s.NY; rw [List.length_set]; exact hI.lenT,
    hI.lenprev, hI.lenslack, hI.lenslackx, hI.hmatch, hI.rootUnmatched,
    ?_, hI.chains, ?_, hI.qmem, ?_, ?_, ?_⟩, hframe⟩
  · intro a ha hSa
    rcases hI.Smem a ha hSa with hroot | ⟨g1, g2, g3, g4, g5, g6, g7⟩
    · exact Or.inl hroot
    · refine Or.inr ⟨g1, g2, g3, g4, g5, ?_, g7⟩
      rw [show s'.xyAt a = s.xyAt a from rfl, hTAt _]
      by_cases h2 : (s.xyAt a).toNat = y <;> simp [h2]
      exact g6
  · intro b hb hTb
    rw [hTAt b] at hTb
    by_cases he : b = y
    · refine ⟨?_, ?_, ?_⟩
      · show 0 ≤ s.yxAt b
        rw [he]; exact hym
      · show (s.yxAt b).toNat < s.NX
        rw [he]; exact hx2
      · show s.SAt (s.yxAt b).toNat = true
        rw [he]; exact hSx2
    · rw [if_neg he] at hTb
      exact hI.Tmem b hb hTb
  · intro b hb hTb a ha hSa
    rw [hTAt b] at hTb
    by_cases he : b = y
    · rw [if_pos he] at hTb; exact absurd hTb (by simp)
    · rw [if_neg he] at hTb
      exact hI.slackLe b hb hTb a ha hSa
  · intro b hb hTb
    rw [hTAt b] at hTb
    by_cases he : b = y
    · rw [if_pos he] at hTb; exact absurd hTb (by simp)
    · rw [if_neg he] at hTb
      exact hI.slackEq b hb hTb
  · intro b hb hTb
    rw [hTAt b] at hTb
    by_cases he : b = y
    · rw [if_pos he] at hTb; exact absurd hTb (by simp)
    · rw [if_neg he] at hTb
      exact hI.slackFin b hb hTb

theorem PhaseInv_rd (s : KMState) (n : Nat) (hI : PhaseInv s) :
    PhaseInv { s with rd := n } :=
  ⟨⟨hI.hNX, hI.hXY, hI.lenlx, hI.lenly, hI.lenxy, hI.lenyx, hI.valint, hI.lxint,
    hI.lyint, hI.lx1, hI.xyrange, hI.yxrange, hI.consistXY, hI.consistYX,
    hI.countX, hI.countY, hI.feas, hI.lynn, hI.lyzero, hI.tightM⟩,
    hI.lenS, hI.lenT, hI.lenprev, hI.lenslack, hI.lenslackx, hI.hmatch,
    hI.rootUnmatched, hI.Smem, hI.chains, hI.Tmem, hI.qmem,
    hI.slackLe, hI.slackEq, hI.slackFin⟩

theorem PhaseInv_qreset (s : KMState) (hI : PhaseInv s) :
    PhaseInv { s with q := [], rd := 0 } :=
  ⟨⟨hI.hNX, hI.hXY, hI.lenlx, hI.lenly, hI.lenxy, hI.lenyx, hI.valint, hI.lxint,
    hI.lyint, hI.lx1, hI.xyrange, hI.yxrange, hI.consistXY, hI.consistYX,
    hI.countX, hI.countY, hI.feas, hI.lynn, hI.lyzero, hI.tightM⟩,
    hI.lenS, hI.lenT, hI.lenprev, hI.lenslack, hI.lenslackx, hI.hmatch,
    hI.rootUnmatched, hI.Smem, hI.chains, hI.Tmem,
    fun x hx => absurd hx (List.not_mem_nil x),
    hI.slackLe, hI.slackEq, hI.slackFin⟩

theorem eqE_tight (s : KMState) (hI : PhaseInv s) (x y : Nat)
    (hx : x < s.NX) (hy : y < s.NY)
    (h : eqE (s.val x y) (EDouble.add (s.lxAt x) (s.lyAt y)) = true) :
    tightQ s x y := by
  obtain ⟨k3, hk3, _⟩ := hI.valint x hx y hy
  obtain ⟨k1, hk1⟩ := hI.lxint x hx
  obtain ⟨k2, hk2⟩ := hI.lyint y hy
  rw [hk3, hk1, hk2, add_fin] at h
  rw [show ((k1 : ℚ) + k2) = ((k1 + k2 : ℤ) : ℚ) by push_cast; ring] at h
  have he := (eqE_int_iff k3 (k1 + k2)).mp h
  unfold tightQ
  rw [hk3, hk1, hk2, toQ_fin, toQ_fin, toQ_fin, he]
  push_cast
  ring

theorem slack_zero_tight (s : KMState) (hI : PhaseInv s) (y : Nat)
    (hy : y < s.NY) (hT : s.TAt y = false)
    (h : eqE (s.slackAt y) (fin 0) = true) :
    tightQ s (s.slackxAt y) y := by
  obtain ⟨k4, hk4⟩ := hI.slackFin y hy hT
  rw [hk4, show ((0 : ℚ)) = ((0 : ℤ) : ℚ) by norm_num] at h
  have hk40 := (eqE_int_iff k4 0).mp h
  obtain ⟨g1, g2, g3⟩ := hI.slackEq y hy hT
  unfold tightQ
  rw [hk4, toQ_fin, hk40] at g3
  push_cast at g3
  linarith

/-! ## The BFS scan and loop -/

theorem bfsScan_inv : ∀ (fuel : Nat) (s : KMState) (x y : Nat) (s' : KMState)
    (r : Option Nat),
    bfsScan s x y fuel = (s', r) → PhaseInv s → x < s.NX → s.SAt x = true →
    (PhaseInv s' ∧ ScanFrame s s') ∧
      ∀ y', r = some y' → FoundPair s' x y' := by
  intro fuel
  induction fuel with
  | zero =>
    intro s x y s' r h hI hx hS
    rw [bfsScan] at h
    injection h with h1 h2
    subst h1
    subst h2
    exact ⟨⟨hI, scanFrame_rfl s⟩, fun y' hy' => by cases hy'⟩
  | succ fuel ih =>
    intro s x y s' r h hI hx hS
    rw [bfsScan] at h
    by_cases hNY : y < s.NY
    · rw [if_pos hNY] at h
      by_cases hg : (eqE (s.val x y) (EDouble.add (s.lxAt x) (s.lyAt y)) &&
          !(s.TAt y)) = true
      · rw [if_pos hg] at h
        have hA : eqE (s.val x y) (EDouble.add (s.lxAt x) (s.lyAt y)) = true := by
          revert hg
          cases eqE (s.val x y) (EDouble.add (s.lxAt x) (s.lyAt y)) <;> simp
        have hB' : s.TAt y = false := by
          revert hg
          cases s.TAt y <;> simp
        have htight := eqE_tight s hI x y hx hNY hA
        by_cases hex : s.yxAt y = -1
        · rw [if_pos hex] at h
          injection h with h1 h2
          subst h1
          subst h2
          refine ⟨⟨hI, scanFrame_rfl s⟩, ?_⟩
          intro y' hy'
          injection hy' with hy2
          subst hy2
          exact ⟨hx, hS, hNY, hex, htight⟩
        · rw [if_neg hex] at h
          have hym : 0 ≤ s.yxAt y := by
            rcases hI.yxrange y hNY with hr | ⟨hr, _⟩
            · exact absurd hr hex
            · exact hr
          have hx2NX : (s.yxAt y).toNat < s.NX := by
            rcases hI.yxrange y hNY with hr | ⟨_, hr⟩
            · exact absurd hr hex
            · exact hr
          obtain ⟨hI2, hfr2⟩ := absorb_inv s y x hI hNY hB' hym hx hS htight
          have hS2 := absorb_S_grows s y x hI hx2NX x hS
          obtain ⟨⟨hI3, hfr3⟩, hfound⟩ :=
            ih _ x (y + 1) s' r h hI2 (by rw [hfr2.hNX]; exact hx) hS2
          exact ⟨⟨hI3, hfr2.comp hfr3⟩, hfound⟩
      · rw [if_neg hg] at h
        obtain ⟨⟨hI3, hfr3⟩, hfound⟩ := ih s x (y + 1) s' r h hI hx hS
        exact ⟨⟨hI3, hfr3⟩, hfound⟩
    · rw [if_neg hNY] at h
      injection h with h1 h2
      subst h1
      subst h2
      exact ⟨⟨hI, scanFrame_rfl s⟩, fun y' hy' => by cases hy'⟩

theorem bfsLoop_inv : ∀ (fuel : Nat) (s : KMState) (res : KMState × Option (Nat × Nat)),
    bfsLoop s fuel = some res → PhaseInv s →
    (PhaseInv res.1 ∧ ScanFrame s res.1) ∧
      ∀ x y, res.2 = some (x, y) → FoundPair res.1 x y := by
  intro fuel
  induction fuel with
  | zero =>
    intro s res h hI
    by_cases hq : s.rd < s.q.length
    · have h0 : bfsLoop s 0 = none := by
        rw [bfsLoop, if_pos hq]
      rw [h0] at h
      cases h
    · have h0 : bfsLoop s 0 = some (s, none) := by
        rw [bfsLoop, if_neg hq]
      rw [h0] at h
      injection h with h1
      subst h1
      exact ⟨⟨hI, scanFrame_rfl s⟩, fun x y hxy => by cases hxy⟩
  | succ fuel ih =>
    intro s res h hI
    by_cases hq : s.rd < s.q.length
    · have hxq : s.q.getD s.rd 0 ∈ s.q := by
        rw [List.getD_eq_getElem _ _ hq]
        exact List.getElem_mem hq
      obtain ⟨hxNX, hxS⟩ := hI.qmem _ hxq
      have hI2 : PhaseInv { s with rd := s.rd + 1 } := PhaseInv_rd s (s.rd + 1) hI
      have hfr2 : ScanFrame s { s with rd := s.rd + 1 } := ⟨rfl, rfl, rfl, rfl, rfl, rfl⟩
      have h0 : bfsLoop s (fuel + 1) =
          (match bfsScan { s with rd := s.rd + 1 } (s.q.getD s.rd 0) 0 s.NY with
            | (s3, some y) => some (s3, some (s.q.getD s.rd 0, y))
            | (s3, none) => bfsLoop s3 fuel) := by
        rw [bfsLoop, if_pos hq]
      rcases hscan : bfsScan { s with rd := s.rd + 1 } (s.q.getD s.rd 0) 0 s.NY
        with ⟨s3, r3⟩
      obtain ⟨⟨hI3, hfr3⟩, hfound3⟩ :=
        bfsScan_inv _ _ _ _ _ _ hscan hI2 hxNX hxS
      cases r3 with
      | none =>
        rw [h0, hscan] at h
        obtain ⟨⟨hI4, hfr4⟩, hfound4⟩ := ih s3 res h hI3
        exact ⟨⟨hI4, (hfr2.comp hfr3).comp hfr4⟩, hfound4⟩
      | some y3 =>
        rw [h0, hscan] at h
        injection h with h1
        subst h1
        refine ⟨⟨hI3, hfr2.comp hfr3⟩, ?_⟩
        intro x y hxy
        injection hxy with hxy2
        injection hxy2 with ha hb
        subst ha
        subst hb
        exact hfound3 y3 rfl
    · have h0 : bfsLoop s (fuel + 1) = some (s, none) := by
        rw [bfsLoop, if_neg hq]
      rw [h0] at h
      injection h with h1
      subst h1
      exact ⟨⟨hI, scanFrame_rfl s⟩, fun x y hxy => by cases hxy⟩

/-! ## The rescan and the inner cycle -/

theorem yScan_inv : ∀ (fuel : Nat) (s : KMState) (y : Nat) (s' : KMState)
    (r : Option (Nat × Nat)),
    yScan s y fuel = (s', r) → PhaseInv s →
    (PhaseInv s' ∧ ScanFrame s s') ∧
      ∀ x' y', r = some (x', y') → FoundPair s' x' y' := by
  intro fuel
  induction fuel with
  | zero =>
    intro s y s' r h hI
    rw [yScan] at h
    injection h with h1 h2
    subst h1
    subst h2
    exact ⟨⟨hI, scanFrame_rfl s⟩, fun x' y' hy' => by cases hy'⟩
  | succ fuel ih =>
    intro s y s' r h hI
    rw [yScan] at h
    by_cases hNY : y < s.NY
    · rw [if_pos hNY] at h
      by_cases hg : (!(s.TAt y) && eqE (s.slackAt y) (fin 0)) = true
      · rw [if_pos hg] at h
        have hT' : s.TAt y = false := by
          revert hg
          cases s.TAt y <;> simp
        have hE : eqE (s.slackAt y) (fin 0) = true := by
          revert hg
          cases eqE (s.slackAt y) (fin 0) <;> simp
        have htight := slack_zero_tight s hI y hNY hT' hE
        obtain ⟨hsxNX, hsxS, _⟩ := hI.slackEq y hNY hT'
        by_cases hex : s.yxAt y = -1
        · rw [if_pos hex] at h
          injection h with h1 h2
          subst h1
          subst h2
          refine ⟨⟨hI, scanFrame_rfl s⟩, ?_⟩
          intro x' y' hy'
          injection hy' with hy2
          injection hy2 with ha hb
          subst ha
          subst hb
          exact ⟨hsxNX, hsxS, hNY, hex, htight⟩
        · rw [if_neg hex] at h
          have hym : 0 ≤ s.yxAt y := by
            rcases hI.yxrange y hNY with hr | ⟨hr, _⟩
            · exact absurd hr hex
            · exact hr
          have hx2NX : (s.yxAt y).toNat < s.NX := by
            rcases hI.yxrange y hNY with hr | ⟨_, hr⟩
            · exact absurd hr hex
            · exact hr
          have h1 : yScan (if s.SAt (s.yxAt y).toNat = true
              then { s with T := s.T.set y true }
              else addToTree
                { s with T := s.T.set y true, q := s.q ++ [(s.yxAt y).toNat] }
                (s.yxAt y).toNat (s.slackxAt y)) (y + 1) fuel = (s', r) := h
          by_cases hS2 : s.SAt (s.yxAt y).toNat = true
          · rw [if_pos hS2] at h1
            obtain ⟨hI2, hfr2⟩ := tset_inv s y hI hNY hym hS2
            obtain ⟨⟨hI3, hfr3⟩, hfound⟩ := ih _ (y + 1) s' r h1 hI2
            exact ⟨⟨hI3, hfr2.comp hfr3⟩, hfound⟩
          · rw [if_neg hS2] at h1
            obtain ⟨hI2, hfr2⟩ := absorb_inv s y (s.slackxAt y) hI hNY hT' hym hsxNX hsxS htight
            obtain ⟨⟨hI3, hfr3⟩, hfound⟩ := ih _ (y + 1) s' r h1 hI2
            exact ⟨⟨hI3, hfr2.comp hfr3⟩, hfound⟩
      · rw [if_neg hg] at h
        exact ih s (y + 1) s' r h hI
    · rw [if_neg hNY] at h
      injection h with h1 h2
      subst h1
      subst h2
      exact ⟨⟨hI, scanFrame_rfl s⟩, fun x' y' hy' => by cases hy'⟩

theorem innerRound_inv (s : KMState) (s' : KMState) (r : Option (Nat × Nat))
    (h : innerRound s = (s', r)) (hI : PhaseInv s) :
    (PhaseInv s' ∧ ScanFrame s s') ∧
      ∀ x' y', r = some (x', y') → FoundPair s' x' y' := by
  obtain ⟨hI2, hfr2⟩ := updateLabels_inv s hI
  have hI3 := PhaseInv_qreset (updateLabels s) hI2
  have hfr3 : ScanFrame (updateLabels s) { updateLabels s with q := [], rd := 0 } :=
    ⟨rfl, rfl, rfl, rfl, rfl, rfl⟩
  have h' : yScan { updateLabels s with q := [], rd := 0 } 0
      ({ updateLabels s with q := [], rd := 0 } : KMState).NY = (s', r) := h
  obtain ⟨⟨hI4, hfr4⟩, hfound⟩ := yScan_inv _ _ _ _ _ h' hI3
  exact ⟨⟨hI4, (hfr2.comp hfr3).comp hfr4⟩, hfound⟩

theorem innerCycle_inv : ∀ (fuel : Nat) (s s' : KMState) (x y : Nat),
    innerCycle s fuel = some (s', x, y) → PhaseInv s →
    (PhaseInv s' ∧ ScanFrame s s') ∧ FoundPair s' x y := by
  intro fuel
  induction fuel with
  | zero =>
    intro s s' x y h hI
    rw [innerCycle] at h
    cases h
  | succ fuel ih =>
    intro s s' x y h hI
    rcases hb : bfsLoop s fuel with _ | ⟨s1, r1⟩
    · rw [innerCycle, hb] at h
      cases h
    · obtain ⟨⟨hI1, hfr1⟩, hfound1⟩ := bfsLoop_inv fuel s (s1, r1) hb hI
      cases r1 with
      | some xy1 =>
        rcases xy1 with ⟨x1, y1⟩
        have h0 : innerCycle s (fuel + 1) = some (s1, x1, y1) := by
          rw [innerCycle, hb]
        rw [h0] at h
        injection h with h1
        injection h1 with ha hb2
        injection hb2 with hb3 hb4
        subst ha
        subst hb3
        subst hb4
        exact ⟨⟨hI1, hfr1⟩, hfound1 x1 y1 rfl⟩
      | none =>
        rcases hr : innerRound s1 with ⟨s4, r4⟩
        obtain ⟨⟨hI4, hfr4⟩, hfound4⟩ := innerRound_inv s1 s4 r4 hr hI1
        cases r4 with
        | some xy4 =>
          rcases xy4 with ⟨x4, y4⟩
          have h0 : innerCycle s (fuel + 1) = some (s4, x4, y4) := by
            rw [innerCycle, hb]
            show (match innerRound s1 with
              | (s4, some (x, y)) => some (s4, x, y)
              | (s4, none) => innerCycle s4 fuel) = some (s4, x4, y4)
            rw [hr]
          rw [h0] at h
          injection h with h1
          injection h1 with ha hb2
          injection hb2 with hb3 hb4
          subst ha
          subst hb3
          subst hb4
          exact ⟨⟨hI4, hfr1.comp hfr4⟩, hfound4 x4 y4 rfl⟩
        | none =>
          have h0 : innerCycle s (fuel + 1) = innerCycle s4 fuel := by
            rw [innerCycle, hb]
            show (match innerRound s1 with
              | (s4, some (x, y)) => some (s4, x, y)
              | (s4, none) => innerCycle s4 fuel) = innerCycle s4 fuel
            rw [hr]
          rw [h0] at h
          obtain ⟨⟨hI5, hfr5⟩, hfound5⟩ := ih s4 s' x y h hI4
          exact ⟨⟨hI5, (hfr1.comp hfr4).comp hfr5⟩, hfound5⟩

/-! ## Phase initialization -/

theorem getD_replicate {α : Type _} (n : Nat) (c : α) (i : Nat) (d : α) :
    (List.replicate n c).getD i d = if i < n then c else d := by
  by_cases h : i < n
  · rw [if_pos h, List.getD_eq_getElem _ _ (by simpa using h)]
    simp
  · rw [if_neg h]
    exact List.getD_eq_default _ _ (by simpa using h)

theorem DBL_MIN_lt_one : (DBL_MIN : ℚ) < 1 := by
  rw [DBL_MIN, Rat.mkRat_eq_div]
  rw [div_lt_one (by positivity)]
  norm_num

theorem rootFold_inv (xyA : Nat → Int) (lxA : Nat → EDouble) (P0 : Nat → Prop) :
    ∀ (l : List Nat) (p : Nat × EDouble),
    (xyA p.1 = -1 ∧ p.2 = lxA p.1 ∧ P0 p.1) → (∀ a ∈ l, P0 a) →
    (xyA (l.foldl (fun (p : Nat × EDouble) x =>
        if xyA x = -1 && EDouble.lt p.2 (lxA x) then (x, lxA x) else p) p).1 = -1 ∧
      (l.foldl (fun (p : Nat × EDouble) x =>
        if xyA x = -1 && EDouble.lt p.2 (lxA x) then (x, lxA x) else p) p).2 =
        lxA (l.foldl (fun (p : Nat × EDouble) x =>
        if xyA x = -1 && EDouble.lt p.2 (lxA x) then (x, lxA x) else p) p).1 ∧
      P0 (l.foldl (fun (p : Nat × EDouble) x =>
        if xyA x = -1 && EDouble.lt p.2 (lxA x) then (x, lxA x) else p) p).1) := by
  intro l
  induction l with
  | nil => intro p hp _; exact hp
  | cons a l ih =>
    intro p hp hl
    rw [List.foldl_cons]
    by_cases hc : (xyA a = -1 && EDouble.lt p.2 (lxA a)) = true
    · rw [if_pos hc]
      have hxya : xyA a = -1 := by
        by_contra hno
        rw [decide_eq_false hno] at hc
        simp at hc
      exact ih (a, lxA a) ⟨hxya, rfl, hl a (List.mem_cons_self a l)⟩
        (fun b hb => hl b (List.mem_cons_of_mem a hb))
    · rw [if_neg hc]
      exact ih p hp (fun b hb => hl b (List.mem_cons_of_mem a hb))

theorem rootFold_hit (xyA : Nat → Int) (lxA : Nat → EDouble) (P0 : Nat → Prop) :
    ∀ (l : List Nat) (xu : Nat), xu ∈ l → (∀ a ∈ l, P0 a) →
    xyA xu = -1 → EDouble.lt (fin DBL_MIN) (lxA xu) = true →
    (xyA (l.foldl (fun (p : Nat × EDouble) x =>
        if xyA x = -1 && EDouble.lt p.2 (lxA x) then (x, lxA x) else p)
        (0, fin DBL_MIN)).1 = -1 ∧
      P0 (l.foldl (fun (p : Nat × EDouble) x =>
        if xyA x = -1 && EDouble.lt p.2 (lxA x) then (x, lxA x) else p)
        (0, fin DBL_MIN)).1) := by
  intro l
  induction l with
  | nil => intro xu hxu; exact absurd hxu (List.not_mem_nil xu)
  | cons a l ih =>
    intro xu hxu hl hxyu hltu
    rw [List.foldl_cons]
    rcases List.mem_cons.mp hxu with he | he
    · subst he
      rw [if_pos (by rw [hxyu, hltu]; rfl)]
      have := rootFold_inv xyA lxA P0 l (xu, lxA xu)
        ⟨hxyu, rfl, hl xu (List.mem_cons_self xu l)⟩
        (fun b hb => hl b (List.mem_cons_of_mem xu hb))
      exact ⟨this.1, this.2.2⟩
    · by_cases hc : (xyA a = -1 && EDouble.lt (fin DBL_MIN : EDouble) (lxA a)) = true
      · rw [if_pos hc]
        have hxya : xyA a = -1 := by
          by_contra hno
          rw [decide_eq_false hno] at hc
          simp at hc
        have := rootFold_inv xyA lxA P0 l (a, lxA a)
          ⟨hxya, rfl, hl a (List.mem_cons_self a l)⟩
          (fun b hb => hl b (List.mem_cons_of_mem a hb))
        exact ⟨this.1, this.2.2⟩
      · rw [if_neg hc]
        exact ih xu he (fun b hb => hl b (List.mem_cons_of_mem a hb)) hxyu hltu

theorem exists_unmatchedX (s : KMState) (h : matchedX s < s.NX) :
    ∃ x, x < s.NX ∧ s.xyAt x = -1 := by
  by_contra hno
  push_neg at hno
  have hall : ∀ x ∈ List.range s.NX, (fun x => decide (s.xyAt x ≠ -1)) x = true := by
    intro x hx
    simp only [decide_eq_true_eq]
    exact hno x (List.mem_range.mp hx)
  have : matchedX s = s.NX := by
    unfold matchedX
    rw [List.countP_eq_length.mpr hall, List.length_range]
  omega

theorem phaseInit_inv (s : KMState) (hG : GlobalInv s) (hm : s.maxMatch < s.NX) :
    PhaseInv (phaseInit s) ∧ ScanFrame s (phaseInit s) := by
  have hframe : ScanFrame s (phaseInit s) := ⟨rfl, rfl, rfl, rfl, rfl, rfl⟩
  set sP := phaseInit s with hsP
  set root : Nat := ((List.range s.NX).foldl (fun (p : Nat × EDouble) x =>
      if s.xyAt x = -1 && EDouble.lt p.2 (s.lxAt x) then (x, s.lxAt x) else p)
      (0, fin DBL_MIN)).1 with hrootdef
  -- root facts
  have hmX : matchedX s < s.NX := by rw [hG.countX]; exact hm
  obtain ⟨xu, hxu, hxyu⟩ := exists_unmatchedX s hmX
  obtain ⟨ku, hku⟩ := hG.lxint xu hxu
  have hku1 : 1 ≤ (ku : ℚ) := by
    have := hG.lx1 xu hxu
    rw [hku, toQ_fin] at this
    exact this
  have hlt : EDouble.lt (fin DBL_MIN) (s.lxAt xu) = true := by
    rw [hku]
    show decide (DBL_MIN < (ku : ℚ)) = true
    exact decide_eq_true (lt_of_lt_of_le DBL_MIN_lt_one hku1)
  have hroot2 := rootFold_hit s.xyAt s.lxAt (fun a => a < s.NX) (List.range s.NX)
    xu (List.mem_range.mpr hxu) (fun a ha => List.mem_range.mp ha) hxyu hlt
  have hrootm : s.xyAt root = -1 := hroot2.1
  have hrootNX : root < s.NX := hroot2.2
  -- accessors
  have hSAt : ∀ a, sP.SAt a = if a = root then true else false := by
    intro a
    show ((List.replicate s.NX false).set root true).getD a false = _
    by_cases h : a = root
    · subst h
      rw [if_pos rfl, getD_set_self _ _ _ _ (by rw [List.length_replicate]; exact hrootNX)]
    · rw [if_neg h, getD_set_ne _ _ _ _ _ (fun hh => h hh.symm), getD_replicate]
      by_cases h2 : a < s.NX
      · rw [if_pos h2]
      · rw [if_neg h2]
  have hprevAt : ∀ a, sP.prevAt a = if a = root then (-2 : Int) else -1 := by
    intro a
    show ((List.replicate s.NX (-1 : Int)).set root (-2)).getD a (-1) = _
    by_cases h : a = root
    · subst h
      rw [if_pos rfl, getD_set_self _ _ _ _ (by rw [List.length_replicate]; exact hrootNX)]
    · rw [if_neg h, getD_set_ne _ _ _ _ _ (fun hh => h hh.symm), getD_replicate]
      by_cases h2 : a < s.NX
      · rw [if_pos h2]
      · rw [if_neg h2]
  have hTAt : ∀ b, sP.TAt b = false := by
    intro b
    show (List.replicate s.NY false).getD b false = _
    rw [getD_replicate]
    by_cases h2 : b < s.NY
    · rw [if_pos h2]
    · rw [if_neg h2]
  have hq : sP.q = [root] := rfl
  have hslackAt : ∀ b, b < s.NY → sP.slackAt b =
      EDouble.sub (EDouble.add (s.lxAt root) (s.lyAt b)) (s.val root b) := by
    intro b hb
    show ((List.range s.NY).map _).getD b (fin 0) = _
    rw [getD_map_range, if_pos hb]
    rfl
  have hslackxAt : ∀ b, b < s.NY → sP.slackxAt b = root := by
    intro b hb
    show ((List.range s.NY).map _).getD b 0 = _
    rw [getD_map_range, if_pos hb]
    rfl
  refine ⟨⟨⟨hG.hNX, hG.hXY, hG.lenlx, hG.lenly, hG.lenxy, hG.lenyx, hG.valint, hG.lxint,
    hG.lyint, hG.lx1, hG.xyrange, hG.yxrange, hG.consistXY, hG.consistYX,
    by rw [matchedX_congr hframe]; exact hG.countX,
    by rw [matchedY_congr hframe]; exact hG.countY,
    hG.feas, hG.lynn, hG.lyzero, hG.tightM⟩,
    ?_, ?_, ?_, ?_, ?_, hm, ?_, ?_, ?_, ?_, ?_, ?_, ?_, ?_⟩, hframe⟩
  · show ((List.replicate s.NX false).set root true).length = s.NX
    rw [List.length_set, List.length_replicate]
  · show (List.replicate s.NY false).length = s.NY
    rw [List.length_replicate]
  · show ((List.replicate s.NX (-1 : Int)).set root (-2)).length = s.NX
    rw [List.length_set, List.length_replicate]
  · show ((List.range s.NY).map _).length = s.NY
    simp
  · show ((List.range s.NY).map _).length = s.NY
    simp
  · -- rootUnmatched
    intro a ha hpr
    rw [hprevAt a] at hpr
    by_cases h : a = root
    · subst h
      exact hrootm
    · rw [if_neg h] at hpr
      exact absurd hpr (by omega)
  · -- Smem
    intro a ha hSa
    rw [hSAt a] at hSa
    by_cases h : a = root
    · subst h
      exact Or.inl (by rw [hprevAt root, if_pos rfl])
    · rw [if_neg h] at hSa
      cases hSa
  · -- chains
    intro a ha hSa
    rw [hSAt a] at hSa
    by_cases h : a = root
    · subst h
      refine ChainsToRoot.root root ?_
      show sP.prevAt root = -2
      rw [hprevAt root, if_pos rfl]
    · rw [if_neg h] at hSa
      cases hSa
  · -- Tmem
    intro b hb hTb
    rw [hTAt b] at hTb
    cases hTb
  · -- qmem
    intro a haq
    rw [hq] at haq
    have : a = root := by simpa using haq
    subst this
    exact ⟨hrootNX, by rw [hSAt root, if_pos rfl]⟩
  · -- slackLe
    intro b hb _ a ha hSa
    rw [hSAt a] at hSa
    by_cases h : a = root
    · subst h
      obtain ⟨k1, hk1⟩ := hG.lxint root hrootNX
      obtain ⟨k2, hk2⟩ := hG.lyint b hb
      obtain ⟨k3, hk3, _⟩ := hG.valint root hrootNX b hb
      rw [hslackAt b hb, show sP.lxAt root = s.lxAt root from rfl,
        show sP.lyAt b = s.lyAt b from rfl, show sP.val root b = s.val root b from rfl,
        hk1, hk2, hk3, add_fin, sub_fin, toQ_fin, toQ_fin, toQ_fin, toQ_fin]
    · rw [if_neg h] at hSa
      cases hSa
  · -- slackEq
    intro b hb _
    obtain ⟨k1, hk1⟩ := hG.lxint root hrootNX
    obtain ⟨k2, hk2⟩ := hG.lyint b hb
    obtain ⟨k3, hk3, _⟩ := hG.valint root hrootNX b hb
    rw [hslackxAt b hb]
    refine ⟨hrootNX, by rw [hSAt root, if_pos rfl], ?_⟩
    rw [hslackAt b hb, show sP.lxAt root = s.lxAt root from rfl,
      show sP.lyAt b = s.lyAt b from rfl, show sP.val root b = s.val root b from rfl,
      hk1, hk2, hk3, add_fin, sub_fin, toQ_fin, toQ_fin, toQ_fin, toQ_fin]
  · -- slackFin
    intro b hb _
    obtain ⟨k1, hk1⟩ := hG.lxint root hrootNX
    obtain ⟨k2, hk2⟩ := hG.lyint b hb
    obtain ⟨k3, hk3, _⟩ := hG.valint root hrootNX b hb
    rw [hslackAt b hb, hk1, hk2, hk3, add_fin, sub_fin]
    exact ⟨k1 + k2 - k3, by push_cast; ring_nf⟩

/-! ## Chain support lemmas -/

theorem schain_tail (s : KMState) (a : Nat) (l : List Nat)
    (h : SChainAux s (a :: l)) (hne : l ≠ []) : SChainAux s l := by
  cases l with
  | nil => exact absurd rfl hne
  | cons b t => exact h.2

theorem schain_suffix (s : KMState) :
    ∀ (u v : List Nat), SChainAux s (u ++ v) → v ≠ [] → SChainAux s v := by
  intro u
  induction u with
  | nil => intro v h _; exact h
  | cons a u' ih =>
    intro v h hv
    have hne : u' ++ v ≠ [] := by
      intro hq
      rcases List.append_eq_nil.mp hq with ⟨_, h2⟩
      exact hv h2
    exact ih v (schain_tail s a (u' ++ v) h hne) hv

theorem schain_unique (s : KMState) :
    ∀ (u : List Nat) (x : Nat) (v : List Nat),
    SChainAux s (x :: u) → SChainAux s (x :: v) → u = v := by
  intro u
  induction u with
  | nil =>
    intro x v h1 h2
    cases v with
    | nil => rfl
    | cons b t =>
      exfalso
      have ha : s.prevAt x = -2 := h1
      have hb : s.prevAt x = (b : Int) := h2.1
      rw [ha] at hb
      omega
  | cons a u' ih =>
    intro x v h1 h2
    cases v with
    | nil =>
      exfalso
      have ha : s.prevAt x = (a : Int) := h1.1
      have hb : s.prevAt x = -2 := h2
      rw [ha] at hb
      omega
    | cons b t =>
      have ha : s.prevAt x = (a : Int) := h1.1
      have hb : s.prevAt x = (b : Int) := h2.1
      have hab : a = b := by
        rw [ha] at hb
        omega
      subst hab
      rw [ih a t h1.2 h2.2]

theorem schain_nodup (s : KMState) : ∀ (xs : List Nat), SChainAux s xs → xs.Nodup := by
  intro xs
  induction xs with
  | nil => intro _; exact List.nodup_nil
  | cons x rest ih =>
    intro h
    cases hr : rest with
    | nil => simp
    | cons b t =>
      subst hr
      have h2 : SChainAux s (b :: t) := h.2
      refine List.nodup_cons.mpr ⟨?_, ih h2⟩
      intro hmem
      obtain ⟨r1, r2, hsplit⟩ := List.append_of_mem hmem
      have hsuf : SChainAux s (x :: r2) := by
        refine schain_suffix s (x :: r1) (x :: r2) ?_ (by simp)
        have : (x :: r1) ++ (x :: r2) = x :: (b :: t) := by
          rw [List.cons_append, ← hsplit]
        rw [this]
        exact h
      have hun := schain_unique s (b :: t) x r2 h hsuf
      have : (b :: t).length = r2.length := by rw [hun]
      rw [hsplit] at this
      simp at this
      omega

theorem chainSpec_congr (s s2 : KMState) (hNX : s2.NX = s.NX) (hNY : s2.NY = s.NY)
    (hprev : ∀ a, s2.prevAt a = s.prevAt a)
    (htq : ∀ a b, tightQ s2 a b ↔ tightQ s a b) :
    ∀ (xs : List Nat) (cx cy : Int), (∀ z ∈ xs, s2.xyAt z = s.xyAt z) →
    ChainSpec s cx cy xs → ChainSpec s2 cx cy xs := by
  intro xs
  induction xs with
  | nil => intro cx cy _ h; exact h
  | cons z rest ih =>
    intro cx cy hxy h
    obtain ⟨c1, c2, c3, c4, c5, crest⟩ := h
    refine ⟨c1, by rw [hNX]; exact c2, c3, by rw [hNY]; exact c4,
      (htq z cy.toNat).mpr c5, ?_⟩
    rw [hprev z, hxy z (List.mem_cons_self z rest)]
    exact ih (s.prevAt z) (s.xyAt z)
      (fun z' hz' => hxy z' (List.mem_cons_of_mem z hz')) crest

theorem countP_range_set (p p' : Nat → Bool) (n i : Nat) (hi : i < n)
    (hsame : ∀ j, j ≠ i → p' j = p j) :
    (List.range n).countP p' + (if p i then 1 else 0) =
      (List.range n).countP p + (if p' i then 1 else 0) := by
  have hperm : List.range n ~ i :: (List.range n).erase i :=
    List.perm_cons_erase (List.mem_range.mpr hi)
  rw [hperm.countP_eq p', hperm.countP_eq p, List.countP_cons, List.countP_cons]
  have heq : ((List.range n).erase i).countP p' = ((List.range n).erase i).countP p := by
    refine List.countP_congr ?_
    intro j hj
    have : j ≠ i := ((List.Nodup.mem_erase_iff (List.nodup_range n)).mp hj).1
    rw [hsame j this]
  rw [heq]
  omega

theorem chain_extract (s : KMState) (hI : PhaseInv s) :
    ∀ x, x < s.NX → s.SAt x = true →
    ∀ cy : Int, 0 ≤ cy → cy.toNat < s.NY → tightQ s x cy.toNat →
    ∃ xs, ChainSpec s (x : Int) cy xs ∧ SChainAux s xs := by
  intro x hx hS
  have hder := hI.chains x hx hS
  revert hx hS
  induction hder with
  | root x h =>
    intro hx hS cy hcy0 hcyN htight
    refine ⟨[x], ⟨rfl, hx, hcy0, hcyN, htight, ?_, ?_⟩, ?_⟩
    · exact h
    · exact hI.rootUnmatched x hx h
    · exact h
  | step x xn h h2 ih =>
    intro hx hS cy hcy0 hcyN htight
    have hprev : s.prevAt x = (xn : Int) := h
    rcases hI.Smem x hx hS with hroot | ⟨g1, g2, g3, g4, g5, g6, g7⟩
    · exfalso
      have : s.prevAt x = -2 := hroot
      rw [hprev] at this
      omega
    · have hxn : (s.prevAt x).toNat = xn := by
        rw [hprev]
        exact Int.toNat_natCast xn
      obtain ⟨xs2, hcs2, hsc2⟩ := ih (hxn ▸ g2) (hxn ▸ g3) (s.xyAt x) g4 g5
        (by rw [← hxn]; exact g7)
      have hhead : ∃ t, xs2 = xn :: t := by
        cases xs2 with
        | nil =>
          exfalso
          have : (xn : Int) = -2 := hcs2.1
          omega
        | cons w t =>
          have : (xn : Int) = (w : Int) := hcs2.1
          have hw : xn = w := by omega
          exact ⟨t, by rw [hw]⟩
      obtain ⟨t, ht⟩ := hhead
      refine ⟨x :: xs2, ⟨rfl, hx, hcy0, hcyN, htight, ?_⟩, ?_⟩
      · rw [hprev]
        exact hcs2
      · rw [ht]
        exact ⟨hprev, ht ▸ hsc2⟩

theorem flipInv_entry (s : KMState) (x y : Nat) (hI : PhaseInv s)
    (hF : FoundPair s x y) : ∃ xs, FlipInv s (x : Int) (y : Int) xs := by
  obtain ⟨xs, hcs, hsc⟩ := chain_extract s hI x hF.hx hF.hSx (y : Int)
    (by omega) (by rw [Int.toNat_natCast]; exact hF.hy)
    (by rw [Int.toNat_natCast]; exact hF.htight)
  refine ⟨xs, ⟨hI.hNX, hI.hXY, hI.lenlx, hI.lenly, hI.lenxy, hI.lenyx,
    hI.valint, hI.lxint, hI.lyint, hI.lx1, hI.xyrange, hI.yxrange,
    hI.consistXY, ?_, hI.feas, hI.lynn, hI.lyzero, hI.tightM, ?_, hcs,
    schain_nodup s xs hsc⟩⟩
  · intro y' hy' hm
    exact Or.inl (hI.consistYX y' hy' hm)
  · intro x' hx' _ hcon
    have := hI.consistXY x' hx' (by rw [hcon]; omega)
    rw [hcon, Int.toNat_natCast] at this
    rw [hF.hexp] at this
    omega

/-! ## The augmenting flip -/

theorem flip_post : ∀ (fuel : Nat) (xs : List Nat) (s : KMState) (cx cy : Int)
    (s' : KMState),
    FlipInv s cx cy xs → augmentFlip s cx cy fuel = some s' →
    FlipInv s' (-2) (-1) [] ∧
      matchedX s' + (if xs.isEmpty then 1 else 0) = matchedX s + 1 ∧
      s'.NX = s.NX ∧ s'.NY = s.NY ∧ s'.value = s.value ∧ s'.lx = s.lx ∧
      s'.ly = s.ly ∧ s'.maxMatch = s.maxMatch := by
  intro fuel
  induction fuel with
  | zero =>
    intro xs s cx cy s' _ h
    rw [augmentFlip] at h
    cases h
  | succ fuel ih =>
    intro xs s cx cy s' hF h
    rw [augmentFlip] at h
    by_cases hcx : cx = -2
    · rw [if_pos hcx] at h
      injection h with h1
      subst h1
      cases xs with
      | cons x rest =>
        exfalso
        have h1 : cx = (x : Int) := hF.hchain.1
        rw [hcx] at h1
        omega
      | nil =>
        have hcy : cy = -1 := hF.hchain.2
        refine ⟨⟨hF.hNX, hF.hXY, hF.lenlx, hF.lenly, hF.lenxy, hF.lenyx, hF.valint,
          hF.lxint, hF.lyint, hF.lx1, hF.xyrange, hF.yxrange, hF.consistX, ?_,
          hF.feas, hF.lynn, hF.lyzero, hF.tightM, ?_, ⟨rfl, rfl⟩, List.nodup_nil⟩,
          by simp, rfl, rfl, rfl, rfl, rfl, rfl⟩
        · intro b hb hm
          rcases hF.consistY b hb hm with h1 | ⟨h1, _⟩
          · exact Or.inl h1
          · rw [hcy] at h1
            omega
        · intro a ha hcon
          omega
    · rw [if_neg hcx] at h
      cases xs with
      | nil => exact absurd hF.hchain.1 hcx
      | cons x rest =>
        obtain ⟨hcxe, hxNX, hcy0, hcyNY, htight, hrest⟩ := hF.hchain
        subst hcxe
        have h2 : augmentFlip
            { s with yx := s.yx.set cy.toNat ((x : Nat) : Int), xy := s.xy.set x cy }
            (s.prevAt x) (s.xyAt x) fuel = some s' := h
        set s2 : KMState :=
          { s with yx := s.yx.set cy.toNat ((x : Nat) : Int), xy := s.xy.set x cy }
          with hs2
        have hxnotin : x ∉ rest := (List.nodup_cons.mp hF.hnodup).1
        have hndrest : rest.Nodup := (List.nodup_cons.mp hF.hnodup).2
        have hxyAt : ∀ a, s2.xyAt a = if a = x then cy else s.xyAt a := by
          intro a
          show (s.xy.set x cy).getD a (-1) = _
          by_cases hax : a = x
          · subst hax
            rw [if_pos rfl, getD_set_self _ _ _ _ (by rw [hF.lenxy]; exact hxNX)]
          · rw [if_neg hax, getD_set_ne _ _ _ _ _ (fun hh => hax hh.symm)]
            rfl
        have hyxAt : ∀ b, s2.yxAt b = if b = cy.toNat then ((x : Nat) : Int) else s.yxAt b := by
          intro b
          show (s.yx.set cy.toNat _).getD b (-1) = _
          by_cases hb : b = cy.toNat
          · subst hb
            rw [if_pos rfl, getD_set_self _ _ _ _ (by rw [hF.lenyx]; exact hcyNY)]
          · rw [if_neg hb, getD_set_ne _ _ _ _ _ (fun hh => hb hh.symm)]
            rfl
        have htQ : ∀ a b, tightQ s2 a b ↔ tightQ s a b := fun _ _ => Iff.rfl
        have hF2 : FlipInv s2 (s.prevAt x) (s.xyAt x) rest := by
          refine ⟨hF.hNX, hF.hXY, hF.lenlx, hF.lenly, ?_, ?_, hF.valint, hF.lxint,
            hF.lyint, hF.lx1, ?_, ?_, ?_, ?_, hF.feas, hF.lynn, ?_, ?_, ?_, ?_, hndrest⟩
          · show (s.xy.set x cy).length = s.NX
            rw [List.length_set]
            exact hF.lenxy
          · show (s.yx.set cy.toNat _).length = s.NY
            rw [List.length_set]
            exact hF.lenyx
          · -- xyrange
            intro a ha
            rw [hxyAt a]
            by_cases hax : a = x
            · rw [if_pos hax]
              exact Or.inr ⟨hcy0, hcyNY⟩
            · rw [if_neg hax]
              exact hF.xyrange a ha
          · -- yxrange
            intro b hb
            rw [hyxAt b]
            by_cases hbc : b = cy.toNat
            · rw [if_pos hbc]
              exact Or.inr ⟨by omega, by rw [Int.toNat_natCast]; exact hxNX⟩
            · rw [if_neg hbc]
              exact hF.yxrange b hb
          · -- consistX
            intro a ha hm
            rw [hxyAt a] at hm ⊢
            by_cases hax : a = x
            · rw [if_pos hax] at hm ⊢
              rw [hyxAt cy.toNat, if_pos rfl, hax]
            · rw [if_neg hax] at hm ⊢
              have hcX := hF.consistX a ha hm
              rw [hyxAt _]
              by_cases hcc : (s.xyAt a).toNat = cy.toNat
              · exfalso
                exact hF.hfresh a ha hcy0 (by omega)
              · rw [if_neg hcc]
                exact hcX
          · -- consistY
            intro b hb hm
            rw [hyxAt b] at hm ⊢
            by_cases hbc : b = cy.toNat
            · rw [if_pos hbc] at hm ⊢
              rw [Int.toNat_natCast, hxyAt x, if_pos rfl]
              exact Or.inl (by omega)
            · rw [if_neg hbc] at hm ⊢
              rcases hF.consistY b hb hm with h1 | ⟨h1, h2⟩
              · by_cases hax : (s.yxAt b).toNat = x
                · rw [hax] at h1
                  refine Or.inr ⟨by rw [h1]; omega, by rw [h1]⟩
                · rw [hxyAt _, if_neg hax]
                  exact Or.inl h1
              · exfalso
                apply hbc
                omega
          · -- lyzero
            intro b hb hm
            rw [hyxAt b] at hm
            by_cases hbc : b = cy.toNat
            · rw [if_pos hbc] at hm
              exact absurd hm (by omega)
            · rw [if_neg hbc] at hm
              exact hF.lyzero b hb hm
          · -- tightM
            intro b hb hm
            rw [hyxAt b] at hm ⊢
            by_cases hbc : b = cy.toNat
            · rw [if_pos hbc, Int.toNat_natCast]
              rw [hbc]
              exact (htQ x cy.toNat).mpr htight
            · rw [if_neg hbc] at hm ⊢
              exact (htQ _ b).mpr (hF.tightM b hb hm)
          · -- hfresh
            intro a ha hty
            rw [hxyAt a]
            by_cases hax : a = x
            · rw [if_pos hax]
              intro heq
              exact hF.hfresh x hxNX hcy0 heq.symm
            · rw [if_neg hax]
              intro heq
              have h1 := hF.consistX a ha (by rw [heq]; exact hty)
              have h2 := hF.consistX x hxNX hty
              rw [heq] at h1
              rw [h1] at h2
              exact hax (by omega)
          · -- hchain
            refine chainSpec_congr s s2 rfl rfl (fun a => rfl) htQ rest _ _ ?_ hrest
            intro z hz
            rw [hxyAt z, if_neg (fun hh : z = x => hxnotin (hh ▸ hz))]
        obtain ⟨hFend, hcount, e1, e2, e3, e4, e5, e6⟩ := ih rest s2 _ _ s' hF2 h2
        have hmx2 : matchedX s2 + (if 0 ≤ s.xyAt x then 1 else 0) =
            matchedX s + 1 := by
          have hsame : ∀ j, j ≠ x →
              (fun j => decide (s2.xyAt j ≠ -1)) j =
              (fun j => decide (s.xyAt j ≠ -1)) j := by
            intro j hj
            show decide (s2.xyAt j ≠ -1) = decide (s.xyAt j ≠ -1)
            rw [hxyAt j, if_neg hj]
          have hset := countP_range_set (fun j => decide (s.xyAt j ≠ -1))
            (fun j => decide (s2.xyAt j ≠ -1)) s.NX x hxNX hsame
          simp only [] at hset
          have hx2 : s2.xyAt x = cy := by rw [hxyAt x, if_pos rfl]
          have hp' : decide (s2.xyAt x ≠ -1) = true := by
            rw [hx2]
            exact decide_eq_true (by omega)
          have hmm : matchedX s2 = (List.range s.NX).countP
              (fun j => decide (s2.xyAt j ≠ -1)) := rfl
          have hmm2 : matchedX s = (List.range s.NX).countP
              (fun j => decide (s.xyAt j ≠ -1)) := rfl
          rw [hmm, hmm2]
          by_cases hmxx : 0 ≤ s.xyAt x
          · have hpx : decide (s.xyAt x ≠ -1) = true := decide_eq_true (by omega)
            simp only [hp', hpx, eq_self_iff_true, if_true] at hset
            rw [if_pos hmxx]
            omega
          · have hxm1 : s.xyAt x = -1 := by
              rcases hF.xyrange x hxNX with hr | ⟨hr, _⟩
              · exact hr
              · exact absurd hr hmxx
            have hpx : decide (s.xyAt x ≠ -1) = false := by
              rw [hxm1]
              simp
            simp only [hp', hpx, eq_self_iff_true, if_true, Bool.false_eq_true,
              if_false] at hset
            rw [if_neg hmxx]
            omega
        refine ⟨hFend, ?_, e1, e2, e3, e4, e5, e6⟩
        cases hre : rest with
        | nil =>
          have hxm1 : s.xyAt x = -1 := by
            rw [hre] at hrest
            exact hrest.2
          rw [hre] at hcount
          simp only [List.isEmpty_nil, if_true] at hcount
          simp only [List.isEmpty_cons, Bool.false_eq_true, if_false]
          rw [if_neg (by omega : ¬ 0 ≤ s.xyAt x)] at hmx2
          omega
        | cons z t =>
          have hxm0 : 0 ≤ s.xyAt x := by
            rw [hre] at hrest
            exact hrest.2.2.1
          rw [hre] at hcount
          simp only [List.isEmpty_cons, Bool.false_eq_true, if_false] at hcount ⊢
          rw [if_pos hxm0] at hmx2
          omega

/-! ## The phase and the main loop -/

theorem countP_range_eq_card (p : Nat → Prop) [DecidablePred p] (n : Nat) :
    (List.range n).countP (fun x => decide (p x)) = ((Finset.range n).filter p).card := by
  rw [List.countP_eq_length_filter]
  rfl

theorem matched_eq (s : KMState)
    (hxyr : ∀ x < s.NX, s.xyAt x = -1 ∨ (0 ≤ s.xyAt x ∧ (s.xyAt x).toNat < s.NY))
    (hyxr : ∀ y < s.NY, s.yxAt y = -1 ∨ (0 ≤ s.yxAt y ∧ (s.yxAt y).toNat < s.NX))
    (hcx : ∀ x < s.NX, 0 ≤ s.xyAt x → s.yxAt (s.xyAt x).toNat = (x : Int))
    (hcy : ∀ y < s.NY, 0 ≤ s.yxAt y → s.xyAt (s.yxAt y).toNat = (y : Int)) :
    matchedX s = matchedY s := by
  have hX : matchedX s = ((Finset.range s.NX).filter (fun x => 0 ≤ s.xyAt x)).card := by
    unfold matchedX
    rw [← countP_range_eq_card]
    refine List.countP_congr ?_
    intro x hx
    rcases hxyr x (List.mem_range.mp hx) with h | ⟨h, _⟩
    · simp [h]
    · simp only [decide_eq_true_eq]
      constructor
      · intro _; exact h
      · intro _; omega
  have hY : matchedY s = ((Finset.range s.NY).filter (fun y => 0 ≤ s.yxAt y)).card := by
    unfold matchedY
    rw [← countP_range_eq_card]
    refine List.countP_congr ?_
    intro y hy
    rcases hyxr y (List.mem_range.mp hy) with h | ⟨h, _⟩
    · simp [h]
    · simp only [decide_eq_true_eq]
      constructor
      · intro _; exact h
      · intro _; omega
  rw [hX, hY]
  refine Finset.card_bij (fun x _ => (s.xyAt x).toNat) ?_ ?_ ?_
  · intro x hx
    obtain ⟨hx1, hx2⟩ := Finset.mem_filter.mp hx
    have hxN := Finset.mem_range.mp hx1
    rcases hxyr x hxN with h | ⟨h1, h2⟩
    · omega
    · refine Finset.mem_filter.mpr ⟨Finset.mem_range.mpr h2, ?_⟩
      rw [hcx x hxN hx2]
      omega
  · intro x1 hx1 x2 hx2 heq
    obtain ⟨hm1, hp1⟩ := Finset.mem_filter.mp hx1
    obtain ⟨hm2, hp2⟩ := Finset.mem_filter.mp hx2
    have heq2 : (s.xyAt x1).toNat = (s.xyAt x2).toNat := heq
    have e1 := hcx x1 (Finset.mem_range.mp hm1) hp1
    have e2 := hcx x2 (Finset.mem_range.mp hm2) hp2
    rw [heq2] at e1
    rw [e1] at e2
    omega
  · intro y hy
    obtain ⟨hy1, hy2⟩ := Finset.mem_filter.mp hy
    have hyN := Finset.mem_range.mp hy1
    rcases hyxr y hyN with h | ⟨h1, h2⟩
    · omega
    · have hxy := hcy y hyN hy2
      refine ⟨(s.yxAt y).toNat, ?_, ?_⟩
      · refine Finset.mem_filter.mpr ⟨Finset.mem_range.mpr h2, ?_⟩
        rw [hxy]
        omega
      · show (s.xyAt (s.yxAt y).toNat).toNat = y
        rw [hxy]
        omega

theorem flipInv_maxMatch (s : KMState) (cx cy : Int) (xs : List Nat) (n : Nat)
    (hF : FlipInv s cx cy xs) : FlipInv { s with maxMatch := n } cx cy xs :=
  ⟨hF.hNX, hF.hXY, hF.lenlx, hF.lenly, hF.lenxy, hF.lenyx, hF.valint, hF.lxint,
    hF.lyint, hF.lx1, hF.xyrange, hF.yxrange, hF.consistX, hF.consistY, hF.feas,
    hF.lynn, hF.lyzero, hF.tightM, hF.hfresh,
    chainSpec_congr s { s with maxMatch := n } rfl rfl (fun _ => rfl)
      (fun _ _ => Iff.rfl) xs cx cy (fun _ _ => rfl) hF.hchain,
    hF.hnodup⟩

theorem phase_inv (s : KMState) (fuel : Nat) (s' : KMState)
    (hG : GlobalInv s) (hm : s.maxMatch < s.NX)
    (h : phase s fuel = some s') :
    GlobalInv s' ∧ s'.maxMatch = s.maxMatch + 1 ∧ s'.NX = s.NX ∧ s'.NY = s.NY ∧
      s'.value = s.value := by
  obtain ⟨hPI, hfrP⟩ := phaseInit_inv s hG hm
  rcases hic : innerCycle (phaseInit s) fuel with _ | ⟨s3, x, y⟩
  · rw [phase, hic] at h
    cases h
  · obtain ⟨⟨hI3, hfr3⟩, hFnd⟩ := innerCycle_inv fuel (phaseInit s) s3 x y hic hPI
    have h2 : augmentFlip { s3 with maxMatch := s3.maxMatch + 1 } (x : Int) (y : Int)
        fuel = some s' := by
      rw [phase, hic] at h
      exact h
    obtain ⟨xs, hFE⟩ := flipInv_entry s3 x y hI3 hFnd
    have hF4 := flipInv_maxMatch s3 (x : Int) (y : Int) xs (s3.maxMatch + 1) hFE
    obtain ⟨hE, hcount, e1, e2, e3, e4, e5, e6⟩ :=
      flip_post fuel xs { s3 with maxMatch := s3.maxMatch + 1 } (x : Int) (y : Int)
        s' hF4 h2
    have hxs_ne : xs.isEmpty = false := by
      cases xs with
      | nil =>
        exfalso
        have h1 : (x : Int) = -2 := hFE.hchain.1
        omega
      | cons a t => rfl
    rw [hxs_ne] at hcount
    simp only [Bool.false_eq_true, if_false, add_zero] at hcount
    have hmx4 : matchedX { s3 with maxMatch := s3.maxMatch + 1 } = matchedX s3 := rfl
    have hmx3 : matchedX s3 = matchedX s := by
      rw [matchedX_congr hfr3, matchedX_congr hfrP]
    have hmm3 : s3.maxMatch = s.maxMatch := by
      rw [hfr3.hmm, hfrP.hmm]
    have hcY : ∀ b < s'.NY, 0 ≤ s'.yxAt b → s'.xyAt (s'.yxAt b).toNat = (b : Int) := by
      intro b hb hmb
      rcases hE.consistY b hb hmb with h1 | ⟨h1, _⟩
      · exact h1
      · omega
    have hmatched := matched_eq s' hE.xyrange hE.yxrange hE.consistX hcY
    have hcX' : matchedX s' = s.maxMatch + 1 := by
      rw [hcount, hmx4, hmx3, hG.countX]
    refine ⟨⟨hE.hNX, hE.hXY, hE.lenlx, hE.lenly, hE.lenxy, hE.lenyx, hE.valint,
      hE.lxint, hE.lyint, hE.lx1, hE.xyrange, hE.yxrange, hE.consistX, hcY,
      ?_, ?_, hE.feas, hE.lynn, hE.lyzero, hE.tightM⟩, ?_, ?_, ?_, ?_⟩
    · rw [hcX', e6]
      show s.maxMatch + 1 = s3.maxMatch + 1
      rw [hmm3]
    · rw [← hmatched, hcX', e6]
      show s.maxMatch + 1 = s3.maxMatch + 1
      rw [hmm3]
    · rw [e6]
      show s3.maxMatch + 1 = s.maxMatch + 1
      rw [hmm3]
    · rw [e1, hfr3.hNX, hfrP.hNX]
    · rw [e2, hfr3.hNY, hfrP.hNY]
    · rw [e3, hfr3.hvalue, hfrP.hvalue]

theorem mainLoop_inv : ∀ (fuel : Nat) (s s' : KMState),
    mainLoop s fuel = some s' → GlobalInv s →
    GlobalInv s' ∧ s'.NX = s.NX ∧ s'.NY = s.NY ∧ s'.value = s.value ∧
      s'.NX ≤ s'.maxMatch := by
  intro fuel
  induction fuel with
  | zero =>
    intro s s' h _
    rw [mainLoop] at h
    cases h
  | succ fuel ih =>
    intro s s' h hG
    by_cases hm : s.maxMatch < min s.NX s.NY
    · have hmX : s.maxMatch < s.NX := by
        have := hG.hXY
        omega
      rcases hp : phase s fuel with _ | s2
      · have h0 : mainLoop s (fuel + 1) = none := by
          rw [mainLoop, if_pos hm, hp]
        rw [h0] at h
        cases h
      · have h0 : mainLoop s (fuel + 1) = mainLoop s2 fuel := by
          rw [mainLoop, if_pos hm, hp]
        rw [h0] at h
        obtain ⟨hG2, _, e1, e2, e3⟩ := phase_inv s fuel s2 hG hmX hp
        obtain ⟨hG', f1, f2, f3, f4⟩ := ih s2 s' h hG2
        exact ⟨hG', by rw [f1, e1], by rw [f2, e2], by rw [f3, e3], f4⟩
    · have h0 : mainLoop s (fuel + 1) = some s := by
        rw [mainLoop, if_neg hm]
      rw [h0] at h
      injection h with h1
      subst h1
      refine ⟨hG, rfl, rfl, rfl, ?_⟩
      have := hG.hXY
      omega

/-! ## Fold bounds for the initialization stage -/

theorem foldl_max_le (f : Assignment → Nat) :
    ∀ (l : List Assignment) (m0 : Nat),
      m0 ≤ l.foldl (fun m a => max m (f a)) m0 ∧
      ∀ a ∈ l, f a ≤ l.foldl (fun m a => max m (f a)) m0 := by
  intro l
  induction l with
  | nil => exact fun m0 => ⟨le_refl m0, fun a ha => absurd ha (List.not_mem_nil a)⟩
  | cons b t ih =>
    intro m0
    rw [List.foldl_cons]
    obtain ⟨h1, h2⟩ := ih (max m0 (f b))
    refine ⟨le_trans (le_max_left _ _) h1, ?_⟩
    intro a ha
    rcases List.mem_cons.mp ha with he | he
    · subst he
      exact le_trans (le_max_right _ _) h1
    · exact h2 a he

theorem maxCharacter_bound (input : List Assignment) :
    ∀ a ∈ input, a.character ≤ maxCharacter input :=
  (foldl_max_le (fun a => a.character) input 0).2

theorem maxTask_bound (input : List Assignment) :
    ∀ a ∈ input, a.task ≤ maxTask input :=
  (foldl_max_le (fun a => a.task) input 0).2

theorem maxCost_fold_spec :
    ∀ (l : List Assignment) (c0 : ℤ),
    (∀ a ∈ l, ∃ n : ℤ, a.cost = fin (n : ℚ)) →
    ∃ C : ℤ, l.foldl (fun m a => stdMax m a.cost) (fin (c0 : ℚ)) = fin (C : ℚ) ∧
      (c0 : ℚ) ≤ (C : ℚ) ∧ ∀ a ∈ l, a.cost.toQ ≤ (C : ℚ) := by
  intro l
  induction l with
  | nil =>
    intro c0 _
    exact ⟨c0, rfl, le_refl _, fun a ha => absurd ha (List.not_mem_nil a)⟩
  | cons b t ih =>
    intro c0 hfin
    obtain ⟨nb, hnb⟩ := hfin b (List.mem_cons_self b t)
    rw [List.foldl_cons, hnb, stdMax_fin]
    have hcast : max (c0 : ℚ) (nb : ℚ) = ((max c0 nb : ℤ) : ℚ) := by
      rw [Int.cast_max]
    rw [hcast]
    obtain ⟨C, hC, hle, hall⟩ := ih (max c0 nb)
      (fun a ha => hfin a (List.mem_cons_of_mem b ha))
    refine ⟨C, hC, ?_, ?_⟩
    · calc (c0 : ℚ) ≤ ((max c0 nb : ℤ) : ℚ) := by
            rw [Int.cast_max]; exact le_max_left _ _
        _ ≤ (C : ℚ) := hle
    · intro a ha
      rcases List.mem_cons.mp ha with he | he
      · subst he
        rw [hnb, toQ_fin]
        calc (nb : ℚ) ≤ ((max c0 nb : ℤ) : ℚ) := by
              rw [Int.cast_max]; exact le_max_right _ _
          _ ≤ (C : ℚ) := hle
      · exact hall a he

theorem maxCost_spec (input : List Assignment)
    (hcost : ∀ a ∈ input, ∃ n : ℤ, a.cost = fin (n : ℚ) ∧ 0 ≤ n) :
    ∃ C : ℤ, maxCost input = fin (C : ℚ) ∧ 0 ≤ C ∧
      ∀ a ∈ input, a.cost.toQ ≤ (C : ℚ) := by
  obtain ⟨C, hC, h0, hall⟩ := maxCost_fold_spec input 0
    (fun a ha => ⟨(hcost a ha).choose, (hcost a ha).choose_spec.1⟩)
  refine ⟨C, ?_, ?_, hall⟩
  · show input.foldl (fun m a => stdMax m a.cost) (fin 0) = fin (C : ℚ)
    have : ((0 : ℤ) : ℚ) = (0 : ℚ) := by norm_num
    rw [this] at hC
    exact hC
  · exact_mod_cast h0

theorem foldMaxE (g : Nat → EDouble) :
    ∀ (l : List Nat) (c0 : ℤ),
    (∀ y ∈ l, ∃ n : ℤ, g y = fin (n : ℚ)) →
    ∃ K : ℤ, l.foldl (fun m y => stdMax m (g y)) (fin (c0 : ℚ)) = fin (K : ℚ) ∧
      (c0 : ℚ) ≤ (K : ℚ) ∧ ∀ y ∈ l, (g y).toQ ≤ (K : ℚ) := by
  intro l
  induction l with
  | nil =>
    intro c0 _
    exact ⟨c0, rfl, le_refl _, fun y hy => absurd hy (List.not_mem_nil y)⟩
  | cons b t ih =>
    intro c0 hfin
    obtain ⟨nb, hnb⟩ := hfin b (List.mem_cons_self b t)
    rw [List.foldl_cons, hnb, stdMax_fin]
    rw [show max (c0 : ℚ) (nb : ℚ) = ((max c0 nb : ℤ) : ℚ) by rw [Int.cast_max]]
    obtain ⟨K, hK, hle, hall⟩ := ih (max c0 nb)
      (fun y hy => hfin y (List.mem_cons_of_mem b hy))
    refine ⟨K, hK, ?_, ?_⟩
    · calc (c0 : ℚ) ≤ ((max c0 nb : ℤ) : ℚ) := by
            rw [Int.cast_max]; exact le_max_left _ _
        _ ≤ (K : ℚ) := hle
    · intro y hy
      rcases List.mem_cons.mp hy with he | he
      · subst he
        rw [hnb, toQ_fin]
        calc (nb : ℚ) ≤ ((max c0 nb : ℤ) : ℚ) := by
              rw [Int.cast_max]; exact le_max_right _ _
          _ ≤ (K : ℚ) := hle
      · exact hall y he

/-! ## The value matrix characterization -/

theorem valfold (sw : Bool) (C : EDouble) (NX NY : Nat) :
    ∀ (l : List Assignment) (v : List (List EDouble)),
    v.length = NX → (∀ i, i < NX → (v.getD i []).length = NY) →
    (l.map (fun a => (ochar sw a, otask sw a))).Nodup →
    (∀ a ∈ l, ochar sw a < NX ∧ otask sw a < NY) →
    (l.foldl (fun v a => v.set (ochar sw a)
        ((v.getD (ochar sw a) []).set (otask sw a)
          (EDouble.add (EDouble.sub C a.cost) (fin 1)))) v).length = NX ∧
    (∀ i, i < NX → ((l.foldl (fun v a => v.set (ochar sw a)
        ((v.getD (ochar sw a) []).set (otask sw a)
          (EDouble.add (EDouble.sub C a.cost) (fin 1)))) v).getD i []).length = NY) ∧
    (∀ x y, (∀ a ∈ l, ¬(ochar sw a = x ∧ otask sw a = y)) →
      ((l.foldl (fun v a => v.set (ochar sw a)
        ((v.getD (ochar sw a) []).set (otask sw a)
          (EDouble.add (EDouble.sub C a.cost) (fin 1)))) v).getD x []).getD y (fin 1) =
        (v.getD x []).getD y (fin 1)) ∧
    (∀ a ∈ l, ((l.foldl (fun v a => v.set (ochar sw a)
        ((v.getD (ochar sw a) []).set (otask sw a)
          (EDouble.add (EDouble.sub C a.cost) (fin 1)))) v).getD (ochar sw a) []).getD
          (otask sw a) (fin 1) =
        EDouble.add (EDouble.sub C a.cost) (fin 1)) := by
  intro l
  induction l with
  | nil =>
    intro v hlen hrow _ _
    exact ⟨hlen, hrow, fun x y _ => rfl, fun a ha => absurd ha (List.not_mem_nil a)⟩
  | cons b t ih =>
    intro v hlen hrow hnd hbnd
    obtain ⟨hbx, hby⟩ := hbnd b (List.mem_cons_self b t)
    have hndt : (t.map (fun a => (ochar sw a, otask sw a))).Nodup :=
      (List.nodup_cons.mp hnd).2
    have hbnotin : (ochar sw b, otask sw b) ∉ t.map (fun a => (ochar sw a, otask sw a)) :=
      (List.nodup_cons.mp hnd).1
    set v' : List (List EDouble) := v.set (ochar sw b)
      ((v.getD (ochar sw b) []).set (otask sw b)
        (EDouble.add (EDouble.sub C b.cost) (fin 1))) with hv'
    have hlen' : v'.length = NX := by rw [hv', List.length_set]; exact hlen
    have hrow' : ∀ i, i < NX → (v'.getD i []).length = NY := by
      intro i hi
      rw [hv']
      by_cases hie : i = ochar sw b
      · subst hie
        rw [getD_set_self _ _ _ _ (by rw [hlen]; exact hbx), List.length_set]
        exact hrow _ hi
      · rw [getD_set_ne _ _ _ _ _ (fun hh => hie hh.symm)]
        exact hrow i hi
    have hvf' : ∀ x y, ¬(ochar sw b = x ∧ otask sw b = y) →
        (v'.getD x []).getD y (fin 1) = (v.getD x []).getD y (fin 1) := by
      intro x y hne
      rw [hv']
      by_cases hxe : x = ochar sw b
      · subst hxe
        rw [getD_set_self _ _ _ _ (by rw [hlen]; exact hbx)]
        have hyne : y ≠ otask sw b := by
          intro he
          exact hne ⟨rfl, he.symm⟩
        rw [getD_set_ne _ _ _ _ _ (fun hh => hyne hh.symm)]
      · rw [getD_set_ne _ _ _ _ _ (fun hh => hxe hh.symm)]
    have hvfb : (v'.getD (ochar sw b) []).getD (otask sw b) (fin 1) =
        EDouble.add (EDouble.sub C b.cost) (fin 1) := by
      rw [hv', getD_set_self _ _ _ _ (by rw [hlen]; exact hbx),
        getD_set_self _ _ _ _ (by rw [hrow _ hbx]; exact hby)]
    have hfold : (b :: t).foldl (fun v a => v.set (ochar sw a)
        ((v.getD (ochar sw a) []).set (otask sw a)
          (EDouble.add (EDouble.sub C a.cost) (fin 1)))) v =
        t.foldl (fun v a => v.set (ochar sw a)
        ((v.getD (ochar sw a) []).set (otask sw a)
          (EDouble.add (EDouble.sub C a.cost) (fin 1)))) v' := by
      rw [List.foldl_cons]
    obtain ⟨g1, g2, g3, g4⟩ := ih v' hlen' hrow' hndt
      (fun a ha => hbnd a (List.mem_cons_of_mem b ha))
    rw [hfold]
    refine ⟨g1, g2, ?_, ?_⟩
    · intro x y hall
      rw [g3 x y (fun a ha => hall a (List.mem_cons_of_mem b ha))]
      exact hvf' x y (hall b (List.mem_cons_self b t))
    · intro a ha
      rcases List.mem_cons.mp ha with he | he
      · subst he
        rw [g3 (ochar sw a) (otask sw a) ?_]
        · exact hvfb
        · intro a2 ha2 ⟨hc1, hc2⟩
          apply hbnotin
          rw [← hc1, ← hc2]
          exact List.mem_map_of_mem _ ha2
      · exact g4 a he

/-! ## The initial state -/

theorem swapped_dims (input : List Assignment) :
    (optimizeInit input).NX ≤ (optimizeInit input).NY := by
  have hNXd : (optimizeInit input).NX =
      if swapped input then maxTask input + 1 else maxCharacter input + 1 := rfl
  have hNYd : (optimizeInit input).NY =
      if swapped input then maxCharacter input + 1 else maxTask input + 1 := rfl
  rw [hNXd, hNYd]
  cases hswe : swapped input
  · have : maxCharacter input < maxTask input := by
      have h2 : (!(decide (maxCharacter input < maxTask input))) = false := hswe
      revert h2
      by_cases hd : maxCharacter input < maxTask input
      · intro _; exact hd
      · rw [decide_eq_false hd]; intro h2; cases h2
    simp only [Bool.false_eq_true, if_false]
    omega
  · have : ¬ (maxCharacter input < maxTask input) := by
      have h2 : (!(decide (maxCharacter input < maxTask input))) = true := hswe
      revert h2
      by_cases hd : maxCharacter input < maxTask input
      · rw [decide_eq_true hd]; intro h2; cases h2
      · intro _; exact hd
    simp only [if_true]
    omega

theorem ocell_bounds (input : List Assignment) :
    ∀ a ∈ input, ochar (swapped input) a < (optimizeInit input).NX ∧
      otask (swapped input) a < (optimizeInit input).NY := by
  intro a ha
  have hNXd : (optimizeInit input).NX =
      if swapped input then maxTask input + 1 else maxCharacter input + 1 := rfl
  have hNYd : (optimizeInit input).NY =
      if swapped input then maxCharacter input + 1 else maxTask input + 1 := rfl
  rw [hNXd, hNYd]
  unfold ochar otask
  cases hswe : swapped input
  · simp only [Bool.false_eq_true, if_false]
    exact ⟨by have := maxCharacter_bound input a ha; omega,
      by have := maxTask_bound input a ha; omega⟩
  · simp only [if_true]
    exact ⟨by have := maxTask_bound input a ha; omega,
      by have := maxCharacter_bound input a ha; omega⟩

theorem ocell_nodup (input : List Assignment)
    (hdup : (input.map (fun a => (a.character, a.task))).Nodup) (sw : Bool) :
    (input.map (fun a => (ochar sw a, otask sw a))).Nodup := by
  cases sw
  · have : (fun (a : Assignment) => (ochar false a, otask false a)) =
        (fun (a : Assignment) => (a.character, a.task)) := rfl
    rw [this]
    exact hdup
  · have : (fun (a : Assignment) => (ochar true a, otask true a)) =
        (Prod.swap ∘ fun (a : Assignment) => (a.character, a.task)) := rfl
    rw [this, ← List.map_map]
    exact hdup.map Prod.swap_injective

theorem v0_val (NX NY : Nat) : ∀ x y,
    (((List.replicate NX (List.replicate NY (fin 1))).getD x []).getD y (fin 1)) = fin 1 := by
  intro x y
  rw [getD_replicate]
  by_cases hx : x < NX
  · rw [if_pos hx, getD_replicate]
    by_cases hy : y < NY
    · rw [if_pos hy]
    · rw [if_neg hy]
  · rw [if_neg hx]
    rfl

theorem optimizeInit_spec (input : List Assignment)
    (hcost : ∀ a ∈ input, ∃ n : ℤ, a.cost = fin (n : ℚ) ∧ 0 ≤ n)
    (hdup : (input.map (fun a => (a.character, a.task))).Nodup) :
    ∃ C : ℤ, maxCost input = fin (C : ℚ) ∧ 0 ≤ C ∧
      (∀ a ∈ input, a.cost.toQ ≤ (C : ℚ)) ∧
      GlobalInv (optimizeInit input) ∧
      (optimizeInit input).maxMatch = 0 ∧
      (∀ x, x < (optimizeInit input).NX → ∀ y, y < (optimizeInit input).NY →
        (∀ a ∈ input, ¬(ochar (swapped input) a = x ∧ otask (swapped input) a = y)) →
        (optimizeInit input).val x y = fin 1) ∧
      (∀ a ∈ input, (optimizeInit input).val (ochar (swapped input) a)
          (otask (swapped input) a) =
        EDouble.add (EDouble.sub (maxCost input) a.cost) (fin 1)) := by
  obtain ⟨C, hC, hC0, hCall⟩ := maxCost_spec input hcost
  set si := optimizeInit input with hsi
  set sw := swapped input with hsw
  have hbnd := ocell_bounds input
  have hdup2 := ocell_nodup input hdup sw
  have hvv : si.value = input.foldl
      (fun v a => v.set (ochar sw a)
        ((v.getD (ochar sw a) []).set (otask sw a)
          (EDouble.add (EDouble.sub (maxCost input) a.cost) (fin 1))))
      (List.replicate si.NX (List.replicate si.NY (fin 1))) := rfl
  have hvaldef : ∀ x y, si.val x y = ((si.value.getD x []).getD y (fin 1)) :=
    fun x y => rfl
  obtain ⟨hsh1, hsh2, huntouched, hwritten⟩ :=
    valfold sw (maxCost input) si.NX si.NY input
      (List.replicate si.NX (List.replicate si.NY (fin 1)))
      (by rw [List.length_replicate])
      (by
        intro i hi
        rw [getD_replicate, if_pos hi, List.length_replicate])
      hdup2 hbnd
  have hvalB : ∀ x, x < si.NX → ∀ y, y < si.NY →
      (∀ a ∈ input, ¬(ochar sw a = x ∧ otask sw a = y)) → si.val x y = fin 1 := by
    intro x hx y hy hall
    rw [hvaldef, hvv, huntouched x y hall, v0_val]
  have hvalA : ∀ a ∈ input, si.val (ochar sw a) (otask sw a) =
      EDouble.add (EDouble.sub (maxCost input) a.cost) (fin 1) := by
    intro a ha
    rw [hvaldef, hvv]
    exact hwritten a ha
  have hvalint : ∀ x, x < si.NX → ∀ y, y < si.NY →
      ∃ n : ℤ, si.val x y = fin (n : ℚ) ∧ 1 ≤ n := by
    intro x hx y hy
    by_cases hex : ∃ a ∈ input, ochar sw a = x ∧ otask sw a = y
    · obtain ⟨a, ha, hax, hay⟩ := hex
      obtain ⟨na, hna, hna0⟩ := hcost a ha
      have hnaC : (na : ℚ) ≤ (C : ℚ) := by
        have := hCall a ha
        rw [hna, toQ_fin] at this
        exact this
      refine ⟨C - na + 1, ?_, ?_⟩
      · rw [← hax, ← hay, hvalA a ha, hC, hna, sub_fin, add_fin]
        congr 1
        push_cast
        ring
      · have : na ≤ C := by exact_mod_cast hnaC
        omega
    · push_neg at hex
      refine ⟨1, ?_, le_refl 1⟩
      rw [hvalB x hx y hy ?_]
      · norm_num
      · intro a ha ⟨h1, h2⟩
        exact hex a ha h1 h2
  have hNX0 : 0 < si.NX := by
    have hNXd : si.NX =
        if sw then maxTask input + 1 else maxCharacter input + 1 := rfl
    rw [hNXd]
    cases sw <;> simp
  have hNY0 : 0 < si.NY := lt_of_lt_of_le hNX0 (swapped_dims input)
  have hlyAt : ∀ y, si.lyAt y = fin 0 := by
    intro y
    show (List.replicate si.NY (fin 0)).getD y (fin 0) = fin 0
    rw [getD_replicate]
    by_cases hy : y < si.NY
    · rw [if_pos hy]
    · rw [if_neg hy]
  have hxyAt : ∀ x, si.xyAt x = -1 := by
    intro x
    show (List.replicate si.NX (-1 : Int)).getD x (-1) = -1
    rw [getD_replicate]
    by_cases hx : x < si.NX
    · rw [if_pos hx]
    · rw [if_neg hx]
  have hyxAt : ∀ y, si.yxAt y = -1 := by
    intro y
    show (List.replicate si.NY (-1 : Int)).getD y (-1) = -1
    rw [getD_replicate]
    by_cases hy : y < si.NY
    · rw [if_pos hy]
    · rw [if_neg hy]
  have hlxAt : ∀ x, x < si.NX → ∃ K : ℤ, si.lxAt x = fin (K : ℚ) ∧ 1 ≤ (K : ℚ) ∧
      ∀ y, y < si.NY → (si.val x y).toQ ≤ (K : ℚ) := by
    intro x hx
    have hfold : si.lxAt x = (List.range si.NY).foldl
        (fun m y => stdMax m (si.val x y)) (fin 0) := by
      show ((List.range si.NX).map _).getD x (fin 0) = _
      rw [getD_map_range, if_pos hx]
      rfl
    obtain ⟨K, hK, hK0, hKall⟩ := foldMaxE (si.val x) (List.range si.NY) 0
      (by
        intro y hy
        obtain ⟨n, hn, _⟩ := hvalint x hx y (List.mem_range.mp hy)
        exact ⟨n, hn⟩)
    have hz : ((0 : ℤ) : ℚ) = (0 : ℚ) := by norm_num
    rw [hz] at hK
    refine ⟨K, by rw [hfold]; exact hK, ?_, ?_⟩
    · obtain ⟨n0, hn0, hn01⟩ := hvalint x hx 0 hNY0
      have := hKall 0 (List.mem_range.mpr hNY0)
      rw [hn0, toQ_fin] at this
      have h1 : (1 : ℚ) ≤ (n0 : ℚ) := by exact_mod_cast hn01
      linarith
    · intro y hy
      exact hKall y (List.mem_range.mpr hy)
  refine ⟨C, hC, hC0, hCall, ⟨hNX0, swapped_dims input, ?_, ?_, ?_, ?_, hvalint, ?_, ?_,
    ?_, ?_, ?_, ?_, ?_, ?_, ?_, ?_, ?_, ?_, ?_⟩, rfl, hvalB, hvalA⟩
  · show ((List.range si.NX).map _).length = si.NX
    simp
  · show (List.replicate si.NY (fin 0)).length = si.NY
    rw [List.length_replicate]
  · show (List.replicate si.NX (-1 : Int)).length = si.NX
    rw [List.length_replicate]
  · show (List.replicate si.NY (-1 : Int)).length = si.NY
    rw [List.length_replicate]
  · intro x hx
    obtain ⟨K, hK, _, _⟩ := hlxAt x hx
    exact ⟨K, hK⟩
  · intro y _
    exact ⟨0, by rw [hlyAt y]; norm_num⟩
  · intro x hx
    obtain ⟨K, hK, hK1, _⟩ := hlxAt x hx
    rw [hK, toQ_fin]
    exact hK1
  · intro x _
    exact Or.inl (hxyAt x)
  · intro y _
    exact Or.inl (hyxAt y)
  · intro x _ hm
    rw [hxyAt x] at hm
    omega
  · intro y _ hm
    rw [hyxAt y] at hm
    omega
  · show matchedX si = si.maxMatch
    unfold matchedX
    rw [List.countP_eq_zero.mpr ?_]
    · rfl
    · intro x _
      simp only [decide_eq_true_eq]
      rw [hxyAt x]
      omega
  · show matchedY si = si.maxMatch
    unfold matchedY
    rw [List.countP_eq_zero.mpr ?_]
    · rfl
    · intro y _
      simp only [decide_eq_true_eq]
      rw [hyxAt y]
      omega
  · intro x hx y hy
    obtain ⟨K, hK, _, hKall⟩ := hlxAt x hx
    rw [hlyAt y, hK, toQ_fin, toQ_fin]
    have := hKall y hy
    linarith
  · intro y _
    rw [hlyAt y, toQ_fin]
  · intro y _ _
    rw [hlyAt y, toQ_fin]
  · intro y hy hm
    rw [hyxAt y] at hm
    omega

/-! ## The final state and Claim C7 (uniqueness of the output matching) -/

theorem optimize_final_spec (input : List Assignment) (fuel : Nat)
    (out : List Assignment)
    (hcost : ∀ a ∈ input, ∃ n : ℤ, a.cost = fin (n : ℚ) ∧ 0 ≤ n)
    (hdup : (input.map (fun a => (a.character, a.task))).Nodup)
    (hrun : Optimize input fuel = some out) :
    ∃ (sf : KMState) (C : ℤ),
      GlobalInv sf ∧
      out ~ input.filter (fun a => decide ((a.task : Int) =
        (if swapped input then sf.yxAt a.character else sf.xyAt a.character))) ∧
      maxCost input = fin (C : ℚ) ∧ 0 ≤ C ∧
      (∀ a ∈ input, a.cost.toQ ≤ (C : ℚ)) ∧
      (∀ a ∈ input, ochar (swapped input) a < sf.NX ∧
        otask (swapped input) a < sf.NY) ∧
      (∀ a ∈ input, ((a.task : Int) =
          (if swapped input then sf.yxAt a.character else sf.xyAt a.character)) ↔
        sf.xyAt (ochar (swapped input) a) = (otask (swapped input) a : Int)) ∧
      (∀ x, x < sf.NX → ∀ y, y < sf.NY →
        (∀ a ∈ input, ¬(ochar (swapped input) a = x ∧ otask (swapped input) a = y)) →
        sf.val x y = fin 1) ∧
      (∀ a ∈ input, sf.val (ochar (swapped input) a) (otask (swapped input) a) =
        EDouble.add (EDouble.sub (maxCost input) a.cost) (fin 1)) ∧
      (∀ x, x < sf.NX → 0 ≤ sf.xyAt x) := by
  obtain ⟨sf, hml, hout⟩ := optimize_some_eq hrun
  obtain ⟨C, hC, hC0, hCall, hGi, _, hvalB, hvalA⟩ := optimizeInit_spec input hcost hdup
  obtain ⟨hGf, eNX, eNY, evalue, hfull⟩ := mainLoop_inv fuel (optimizeInit input) sf hml hGi
  have hbnd : ∀ a ∈ input, ochar (swapped input) a < sf.NX ∧
      otask (swapped input) a < sf.NY := by
    intro a ha
    obtain ⟨h1, h2⟩ := ocell_bounds input a ha
    exact ⟨by rw [eNX]; exact h1, by rw [eNY]; exact h2⟩
  have hvalf : ∀ x y, sf.val x y = (optimizeInit input).val x y :=
    fun x y => val_congr evalue x y
  have hallX : ∀ x, x < sf.NX → 0 ≤ sf.xyAt x := by
    intro x hx
    have hcount : matchedX sf = sf.maxMatch := hGf.countX
    have hle : matchedX sf ≤ sf.NX := by
      unfold matchedX
      calc (List.range sf.NX).countP _ ≤ (List.range sf.NX).length :=
            List.countP_le_length _
        _ = sf.NX := List.length_range sf.NX
    have hmXf : matchedX sf = sf.NX := by omega
    have hallP : ∀ z ∈ List.range sf.NX, (fun z => decide (sf.xyAt z ≠ -1)) z = true := by
      refine List.countP_eq_length.mp ?_
      unfold matchedX at hmXf
      rw [hmXf, List.length_range]
    have := hallP x (List.mem_range.mpr hx)
    simp only [decide_eq_true_eq] at this
    rcases hGf.xyrange x hx with h | ⟨h, _⟩
    · exact absurd h this
    · exact h
  refine ⟨sf, C, hGf, ?_, hC, hC0, hCall, hbnd, ?_, ?_, ?_, hallX⟩
  · rw [hout]
    exact optimizeFinish_perm input (swapped input) sf
  · intro a ha
    obtain ⟨hoc, hot⟩ := hbnd a ha
    cases hswe : swapped input
    · simp only [Bool.false_eq_true, if_false]
      show ((a.task : Int) = sf.xyAt a.character) ↔
        (sf.xyAt a.character = (a.task : Int))
      exact eq_comm
    · simp only [if_true]
      have hocb : a.task < sf.NX := by
        have h := hoc
        rw [hswe] at h
        exact h
      have hotb : a.character < sf.NY := by
        have h := hot
        rw [hswe] at h
        exact h
      show ((a.task : Int) = sf.yxAt a.character) ↔
        (sf.xyAt a.task = (a.character : Int))
      constructor
      · intro h
        have h' : sf.yxAt a.character = (a.task : Int) := h.symm
        have hc := hGf.consistYX a.character hotb (by rw [h']; omega)
        rw [h', Int.toNat_natCast] at hc
        exact hc
      · intro h
        have hc := hGf.consistXY a.task hocb (by rw [h]; omega)
        rw [h, Int.toNat_natCast] at hc
        exact hc.symm
  · intro x hx y hy hall
    rw [hvalf]
    exact hvalB x (by rw [← eNX]; exact hx) y (by rw [← eNY]; exact hy) hall
  · intro a ha
    rw [hvalf]
    exact hvalA a ha

theorem ocell_eq_cell (sw : Bool) (a b : Assignment)
    (h1 : ochar sw a = ochar sw b) (h2 : otask sw a = otask sw b) :
    (a.character, a.task) = (b.character, b.task) := by
  cases sw
  · have e1 : a.character = b.character := h1
    have e2 : a.task = b.task := h2
    rw [e1, e2]
  · have e1 : a.task = b.task := h1
    have e2 : a.character = b.character := h2
    rw [e1, e2]

/-- Claim C1 (amended): on inputs with pairwise distinct cells and
non-negative integer costs, when `Optimize` returns, the sum of the
retained costs is minimal among all feasible matchings drawn from the
supplied pairings that retain the same number of pairings. -/
theorem optimize_cost_minimal (input : List Assignment) (fuel : Nat)
    (out m : List Assignment)
    (hcost : ∀ a ∈ input, ∃ n : ℤ, a.cost = fin (n : ℚ) ∧ 0 ≤ n)
    (hdup : (input.map (fun a => (a.character, a.task))).Nodup)
    (hrun : Optimize input fuel = some out)
    (hm_sub : ∀ a ∈ m, a ∈ input)
    (hm_match : Matching m)
    (hcard : m.length = out.length) :
    costSum out ≤ costSum m := by
  obtain ⟨sf, C, hGf, hperm, hC, hC0, hCall, hbnd, hpred, hvalB, hvalA, hallX⟩ :=
    optimize_final_spec input fuel out hcost hdup hrun
  set sw := swapped input with hswdef
  set fl := input.filter (fun a => decide ((a.task : Int) =
    (if sw then sf.yxAt a.character else sf.xyAt a.character))) with hfl
  have hmemfl : ∀ a ∈ fl, a ∈ input ∧
      sf.xyAt (ochar sw a) = (otask sw a : Int) := by
    intro a ha
    obtain ⟨hain, hp⟩ := List.mem_filter.mp ha
    exact ⟨hain, (hpred a hain).mp (of_decide_eq_true hp)⟩
  have hinfl : ∀ a ∈ input, sf.xyAt (ochar sw a) = (otask sw a : Int) → a ∈ fl := by
    intro a hain hp
    exact List.mem_filter.mpr ⟨hain, decide_eq_true ((hpred a hain).mpr hp)⟩
  have hinj : ∀ a ∈ input, ∀ b ∈ input,
      (a.character, a.task) = (b.character, b.task) → a = b :=
    fun a ha b hb h => List.inj_on_of_nodup_map hdup ha hb h
  have hcostQ : ∀ a ∈ input, ∃ n : ℤ, a.cost.toQ = (n : ℚ) ∧ a.cost = fin (n : ℚ) := by
    intro a ha
    obtain ⟨n, hn, _⟩ := hcost a ha
    exact ⟨n, by rw [hn, toQ_fin], hn⟩
  -- the A-side value identity
  have hvalQ : ∀ a ∈ input, (sf.val (ochar sw a) (otask sw a)).toQ =
      (C : ℚ) + 1 - a.cost.toQ := by
    intro a ha
    obtain ⟨n, hnQ, hn⟩ := hcostQ a ha
    rw [hvalA a ha, hC, hn, sub_fin, add_fin, toQ_fin, toQ_fin]
    ring
  -- matched partner function
  have hσrange : ∀ x, x < sf.NX → (sf.xyAt x).toNat < sf.NY := by
    intro x hx
    rcases hGf.xyrange x hx with h | ⟨_, h⟩
    · have := hallX x hx
      omega
    · exact h
  have hσcast : ∀ x, x < sf.NX → ((sf.xyAt x).toNat : Int) = sf.xyAt x := by
    intro x hx
    exact Int.toNat_of_nonneg (hallX x hx)
  have hσinj : ∀ x, x < sf.NX → ∀ x', x' < sf.NX →
      (sf.xyAt x).toNat = (sf.xyAt x').toNat → x = x' := by
    intro x hx x' hx' he
    have c1 := hGf.consistXY x hx (hallX x hx)
    have c2 := hGf.consistXY x' hx' (hallX x' hx')
    rw [he] at c1
    rw [c1] at c2
    omega
  -- (I) the dual identity
  have hstep1 : ∀ x ∈ Finset.range sf.NX,
      (sf.val x (sf.xyAt x).toNat).toQ =
        (sf.lxAt x).toQ + (sf.lyAt (sf.xyAt x).toNat).toQ := by
    intro x hx
    have hxN := Finset.mem_range.mp hx
    have hc := hGf.consistXY x hxN (hallX x hxN)
    have ht := hGf.tightM (sf.xyAt x).toNat (hσrange x hxN) (by rw [hc]; omega)
    rw [hc] at ht
    have : ((x : Int)).toNat = x := Int.toNat_natCast x
    rw [this] at ht
    exact ht
  have hsum1 : (∑ x ∈ Finset.range sf.NX, (sf.val x (sf.xyAt x).toNat).toQ) =
      (∑ x ∈ Finset.range sf.NX, (sf.lxAt x).toQ) +
      (∑ x ∈ Finset.range sf.NX, (sf.lyAt (sf.xyAt x).toNat).toQ) := by
    rw [← Finset.sum_add_distrib]
    exact Finset.sum_congr rfl hstep1
  have hsum2 : (∑ x ∈ Finset.range sf.NX, (sf.lyAt (sf.xyAt x).toNat).toQ) =
      (∑ y ∈ (Finset.range sf.NX).image (fun x => (sf.xyAt x).toNat),
        (sf.lyAt y).toQ) := by
    rw [Finset.sum_image ?_]
    intro x hx x' hx' he
    exact hσinj x (Finset.mem_range.mp hx) x' (Finset.mem_range.mp hx') he
  have hsub : (Finset.range sf.NX).image (fun x => (sf.xyAt x).toNat) ⊆
      Finset.range sf.NY := by
    intro y hy
    obtain ⟨x, hx, he⟩ := Finset.mem_image.mp hy
    rw [← he]
    exact Finset.mem_range.mpr (hσrange x (Finset.mem_range.mp hx))
  have hsum3 : (∑ y ∈ (Finset.range sf.NX).image (fun x => (sf.xyAt x).toNat),
      (sf.lyAt y).toQ) = (∑ y ∈ Finset.range sf.NY, (sf.lyAt y).toQ) := by
    refine Finset.sum_subset hsub ?_
    intro y hy hny
    have hyN := Finset.mem_range.mp hy
    have hym : sf.yxAt y = -1 := by
      by_contra hne
      have hm0 : 0 ≤ sf.yxAt y := by
        rcases hGf.yxrange y hyN with h | ⟨h, _⟩
        · exact absurd h hne
        · exact h
      have hx' : (sf.yxAt y).toNat < sf.NX := by
        rcases hGf.yxrange y hyN with h | ⟨_, h⟩
        · exact absurd h hne
        · exact h
      have hc := hGf.consistYX y hyN hm0
      apply hny
      refine Finset.mem_image.mpr ⟨(sf.yxAt y).toNat, Finset.mem_range.mpr hx', ?_⟩
      rw [hc]
      exact Int.toNat_natCast y
    exact hGf.lyzero y hyN hym
  have hdual : (∑ x ∈ Finset.range sf.NX, (sf.val x (sf.xyAt x).toNat).toQ) =
      (∑ x ∈ Finset.range sf.NX, (sf.lxAt x).toQ) +
      (∑ y ∈ Finset.range sf.NY, (sf.lyAt y).toQ) := by
    rw [hsum1, hsum2, hsum3]
  -- (II) relate the value sum to costSum out
  have hndinput : input.Nodup := hdup.of_map
  have hndfl : fl.Nodup := hndinput.filter _
  have hndout : out.Nodup := (hperm.nodup_iff).mpr hndfl
  have hcso : costSum out = costSum fl := by
    unfold costSum
    exact (hperm.map (fun a => a.cost.toQ)).sum_eq
  have hcsfl : costSum fl = (∑ a ∈ fl.toFinset, a.cost.toQ) := by
    unfold costSum
    rw [List.sum_toFinset _ hndfl]
  set RA : Nat → Prop := fun x => ∃ a ∈ input, ochar sw a = x ∧
    (otask sw a : Int) = sf.xyAt x with hRA
  have hRAdec : DecidablePred RA := by
    intro x
    unfold_let RA
    infer_instance
  have hAmem : ∀ a ∈ fl, ochar sw a ∈ (Finset.range sf.NX).filter RA := by
    intro a ha
    obtain ⟨hain, hp⟩ := hmemfl a ha
    refine Finset.mem_filter.mpr ⟨Finset.mem_range.mpr (hbnd a hain).1, ?_⟩
    exact ⟨a, hain, rfl, by rw [hp]⟩
  have hAinj : ∀ a ∈ fl, ∀ b ∈ fl, ochar sw a = ochar sw b → a = b := by
    intro a ha b hb he
    obtain ⟨hain, hpa⟩ := hmemfl a ha
    obtain ⟨hbin, hpb⟩ := hmemfl b hb
    refine hinj a hain b hbin (ocell_eq_cell sw a b he ?_)
    rw [he] at hpa
    rw [hpa] at hpb
    omega
  have hAsurj : ∀ x ∈ (Finset.range sf.NX).filter RA, ∃ a, ∃ ha : a ∈ fl,
      ochar sw a = x := by
    intro x hx
    obtain ⟨hxr, a, hain, hoc, hot⟩ := Finset.mem_filter.mp hx
    refine ⟨a, hinfl a hain ?_, hoc⟩
    rw [hoc, ← hot]
  have hAval : ∀ a ∈ fl, (sf.val (ochar sw a) (sf.xyAt (ochar sw a)).toNat).toQ =
      (C : ℚ) + 1 - a.cost.toQ := by
    intro a ha
    obtain ⟨hain, hp⟩ := hmemfl a ha
    rw [hp, Int.toNat_natCast]
    exact hvalQ a hain
  have hsumA : (∑ a ∈ fl.toFinset, a.cost.toQ) =
      (∑ x ∈ (Finset.range sf.NX).filter RA,
        ((C : ℚ) + 1 - (sf.val x (sf.xyAt x).toNat).toQ)) := by
    refine Finset.sum_bij (fun a _ => ochar sw a) ?_ ?_ ?_ ?_
    · intro a ha
      exact hAmem a (List.mem_toFinset.mp ha)
    · intro a ha b hb he
      exact hAinj a (List.mem_toFinset.mp ha) b (List.mem_toFinset.mp hb) he
    · intro x hx
      obtain ⟨a, ha, he⟩ := hAsurj x hx
      exact ⟨a, List.mem_toFinset.mpr ha, he⟩
    · intro a ha
      have := hAval a (List.mem_toFinset.mp ha)
      rw [this]
      ring
  have hcardA : ((Finset.range sf.NX).filter RA).card = out.length := by
    have h1 : fl.toFinset.card = ((Finset.range sf.NX).filter RA).card := by
      refine Finset.card_bij (fun a _ => ochar sw a) ?_ ?_ ?_
      · intro a ha
        exact hAmem a (List.mem_toFinset.mp ha)
      · intro a ha b hb he
        exact hAinj a (List.mem_toFinset.mp ha) b (List.mem_toFinset.mp hb) he
      · intro x hx
        obtain ⟨a, ha, he⟩ := hAsurj x hx
        exact ⟨a, List.mem_toFinset.mpr ha, he⟩
    have h2 : fl.toFinset.card = fl.length := List.toFinset_card_of_nodup hndfl
    have h3 : fl.length = out.length := hperm.length_eq.symm
    omega
  have hnotA : ∀ x ∈ (Finset.range sf.NX).filter (fun x => ¬ RA x),
      (sf.val x (sf.xyAt x).toNat).toQ = 1 := by
    intro x hx
    obtain ⟨hxr, hnra⟩ := Finset.mem_filter.mp hx
    have hxN := Finset.mem_range.mp hxr
    rw [hvalB x hxN (sf.xyAt x).toNat (hσrange x hxN) ?_, toQ_fin]
    intro a hain ⟨h1, h2⟩
    apply hnra
    refine ⟨a, hain, h1, ?_⟩
    rw [h2, hσcast x hxN]
  have hsplit : (∑ x ∈ Finset.range sf.NX, (sf.val x (sf.xyAt x).toNat).toQ) =
      (∑ x ∈ (Finset.range sf.NX).filter RA, (sf.val x (sf.xyAt x).toNat).toQ) +
      (∑ x ∈ (Finset.range sf.NX).filter (fun x => ¬ RA x),
        (sf.val x (sf.xyAt x).toNat).toQ) :=
    (Finset.sum_filter_add_sum_filter_not _ _ _).symm
  have hcardsplit : ((Finset.range sf.NX).filter RA).card +
      ((Finset.range sf.NX).filter (fun x => ¬ RA x)).card = sf.NX := by
    have := Finset.filter_card_add_filter_neg_card_eq_card (s := Finset.range sf.NX)
      (p := RA)
    rw [Finset.card_range] at this
    exact this
  have hvalsum : (∑ x ∈ Finset.range sf.NX, (sf.val x (sf.xyAt x).toNat).toQ) =
      (out.length : ℚ) * ((C : ℚ) + 1) - costSum out +
        ((sf.NX : ℚ) - (out.length : ℚ)) := by
    rw [hsplit]
    have hA : (∑ x ∈ (Finset.range sf.NX).filter RA,
        (sf.val x (sf.xyAt x).toNat).toQ) =
        (out.length : ℚ) * ((C : ℚ) + 1) - costSum out := by
      have he : (∑ x ∈ (Finset.range sf.NX).filter RA,
          (sf.val x (sf.xyAt x).toNat).toQ) =
          (∑ x ∈ (Finset.range sf.NX).filter RA,
            (((C : ℚ) + 1) - (((C : ℚ) + 1) - (sf.val x (sf.xyAt x).toNat).toQ))) := by
        refine Finset.sum_congr rfl ?_
        intro x _
        ring
      rw [he, Finset.sum_sub_distrib, Finset.sum_const, hcardA, ← hsumA,
        hcso, hcsfl]
      simp only [nsmul_eq_mul]
    have hB : (∑ x ∈ (Finset.range sf.NX).filter (fun x => ¬ RA x),
        (sf.val x (sf.xyAt x).toNat).toQ) =
        ((sf.NX : ℚ) - (out.length : ℚ)) := by
      rw [Finset.sum_congr rfl hnotA, Finset.sum_const, nsmul_eq_mul, mul_one]
      have : ((Finset.range sf.NX).filter (fun x => ¬ RA x)).card =
          sf.NX - out.length := by omega
      rw [this]
      have hkle : out.length ≤ sf.NX := by omega
      push_cast [Nat.cast_sub hkle]
      ring
    rw [hA, hB]
  -- (III) the competitor side
  have hndm : m.Nodup := hm_match.1.of_map
  have hcsm : costSum m = (∑ a ∈ m.toFinset, a.cost.toQ) := by
    unfold costSum
    rw [List.sum_toFinset _ hndm]
  have hmocnd : ∀ a ∈ m, ∀ b ∈ m, ochar sw a = ochar sw b → a = b := by
    intro a ha b hb he
    cases hswe : sw
    · rw [hswe] at he
      exact List.inj_on_of_nodup_map hm_match.1 ha hb he
    · rw [hswe] at he
      exact List.inj_on_of_nodup_map hm_match.2 ha hb he
  have hmotnd : ∀ a ∈ m, ∀ b ∈ m, otask sw a = otask sw b → a = b := by
    intro a ha b hb he
    cases hswe : sw
    · rw [hswe] at he
      exact List.inj_on_of_nodup_map hm_match.2 ha hb he
    · rw [hswe] at he
      exact List.inj_on_of_nodup_map hm_match.1 ha hb he
  have hmval : (∑ a ∈ m.toFinset, (sf.val (ochar sw a) (otask sw a)).toQ) =
      (m.length : ℚ) * ((C : ℚ) + 1) - costSum m := by
    have he : (∑ a ∈ m.toFinset, (sf.val (ochar sw a) (otask sw a)).toQ) =
        (∑ a ∈ m.toFinset, (((C : ℚ) + 1) - a.cost.toQ)) := by
      refine Finset.sum_congr rfl ?_
      intro a ha
      exact hvalQ a (hm_sub a (List.mem_toFinset.mp ha))
    rw [he, Finset.sum_sub_distrib, Finset.sum_const,
      List.toFinset_card_of_nodup hndm, hcsm, nsmul_eq_mul]
  have hmfeas : (∑ a ∈ m.toFinset, (sf.val (ochar sw a) (otask sw a)).toQ) ≤
      (∑ a ∈ m.toFinset, ((sf.lxAt (ochar sw a)).toQ + (sf.lyAt (otask sw a)).toQ)) := by
    refine Finset.sum_le_sum ?_
    intro a ha
    have hain := hm_sub a (List.mem_toFinset.mp ha)
    exact hGf.feas (ochar sw a) (hbnd a hain).1 (otask sw a) (hbnd a hain).2
  have hmlx : (∑ a ∈ m.toFinset, (sf.lxAt (ochar sw a)).toQ) =
      (∑ x ∈ m.toFinset.image (fun a => ochar sw a), (sf.lxAt x).toQ) := by
    rw [Finset.sum_image ?_]
    intro a ha b hb he
    exact hmocnd a (List.mem_toFinset.mp ha) b (List.mem_toFinset.mp hb) he
  have hmly : (∑ a ∈ m.toFinset, (sf.lyAt (otask sw a)).toQ) =
      (∑ y ∈ m.toFinset.image (fun a => otask sw a), (sf.lyAt y).toQ) := by
    rw [Finset.sum_image ?_]
    intro a ha b hb he
    exact hmotnd a (List.mem_toFinset.mp ha) b (List.mem_toFinset.mp hb) he
  have hAmsub : m.toFinset.image (fun a => ochar sw a) ⊆ Finset.range sf.NX := by
    intro x hx
    obtain ⟨a, ha, he⟩ := Finset.mem_image.mp hx
    rw [← he]
    exact Finset.mem_range.mpr (hbnd a (hm_sub a (List.mem_toFinset.mp ha))).1
  have hBmsub : m.toFinset.image (fun a => otask sw a) ⊆ Finset.range sf.NY := by
    intro y hy
    obtain ⟨a, ha, he⟩ := Finset.mem_image.mp hy
    rw [← he]
    exact Finset.mem_range.mpr (hbnd a (hm_sub a (List.mem_toFinset.mp ha))).2
  have hAmcard : (m.toFinset.image (fun a => ochar sw a)).card = out.length := by
    rw [Finset.card_image_of_injOn ?_, List.toFinset_card_of_nodup hndm, hcard]
    intro a ha b hb he
    exact hmocnd a (List.mem_toFinset.mp ha) b (List.mem_toFinset.mp hb) he
  have hmlxle : (∑ x ∈ m.toFinset.image (fun a => ochar sw a), (sf.lxAt x).toQ) ≤
      (∑ x ∈ Finset.range sf.NX, (sf.lxAt x).toQ) -
        ((sf.NX : ℚ) - (out.length : ℚ)) := by
    have hs := Finset.sum_sdiff (f := fun x => (sf.lxAt x).toQ) hAmsub
    have hones : ((sf.NX : ℚ) - (out.length : ℚ)) ≤
        (∑ x ∈ Finset.range sf.NX \ m.toFinset.image (fun a => ochar sw a),
          (sf.lxAt x).toQ) := by
      have hcardd : (Finset.range sf.NX \ m.toFinset.image (fun a => ochar sw a)).card =
          sf.NX - out.length := by
        rw [Finset.card_sdiff hAmsub, Finset.card_range, hAmcard]
      have h1 := Finset.card_nsmul_le_sum
        (Finset.range sf.NX \ m.toFinset.image (fun a => ochar sw a))
        (fun x => (sf.lxAt x).toQ) 1 ?_
      · rw [hcardd, nsmul_eq_mul, mul_one] at h1
        have hkle : out.length ≤ sf.NX := by
          have := Finset.card_le_card hAmsub
          rw [hAmcard, Finset.card_range] at this
          exact this
        calc (sf.NX : ℚ) - (out.length : ℚ)
            = ((sf.NX - out.length : ℕ) : ℚ) := by
              push_cast [Nat.cast_sub hkle]
              ring
          _ ≤ _ := h1
      · intro x hx
        have hxN := Finset.mem_range.mp (Finset.mem_sdiff.mp hx).1
        exact hGf.lx1 x hxN
    linarith
  have hmlyle : (∑ y ∈ m.toFinset.image (fun a => otask sw a), (sf.lyAt y).toQ) ≤
      (∑ y ∈ Finset.range sf.NY, (sf.lyAt y).toQ) := by
    refine Finset.sum_le_sum_of_subset_of_nonneg hBmsub ?_
    intro y hy _
    exact hGf.lynn y (Finset.mem_range.mp hy)
  -- assemble
  have hmlen : (m.length : ℚ) = (out.length : ℚ) := by
    exact_mod_cast hcard
  have hfinal := hmval
  rw [hmlen] at hfinal
  have h1 : (out.length : ℚ) * ((C : ℚ) + 1) - costSum m ≤
      (∑ x ∈ Finset.range sf.NX, (sf.lxAt x).toQ) -
        ((sf.NX : ℚ) - (out.length : ℚ)) +
      (∑ y ∈ Finset.range sf.NY, (sf.lyAt y).toQ) := by
    rw [← hfinal]
    calc (∑ a ∈ m.toFinset, (sf.val (ochar sw a) (otask sw a)).toQ)
        ≤ _ := hmfeas
      _ = (∑ a ∈ m.toFinset, (sf.lxAt (ochar sw a)).toQ) +
          (∑ a ∈ m.toFinset, (sf.lyAt (otask sw a)).toQ) :=
            Finset.sum_add_distrib
      _ ≤ _ := by
            rw [hmlx, hmly]
            have := hmlxle
            have := hmlyle
            linarith
  have h2 : (∑ x ∈ Finset.range sf.NX, (sf.lxAt x).toQ) +
      (∑ y ∈ Finset.range sf.NY, (sf.lyAt y).toQ) =
      (out.length : ℚ) * ((C : ℚ) + 1) - costSum out +
        ((sf.NX : ℚ) - (out.length : ℚ)) := by
    rw [← hdual, hvalsum]
  linarith

/-! ## Concrete runs: the C1 counterexample and witnesses -/

/-- Counterexample to claim C1 as stated: on the sub-tolerance input
`[(0,0,1/20000), (0,1,0)]` the solver keeps the pairing of cost
`1/20000` although the matching `[(0,1,0)]` of the same cardinality
costs `0` — the `1e-4` comparison tolerance merges the two values. -/
theorem optimize_optimality_counterexample :
    Optimize [⟨0, 0, fin (1/20000)⟩, ⟨0, 1, fin 0⟩] 3 =
      some [⟨0, 0, fin (1/20000)⟩] ∧
    Matching [⟨0, 1, fin 0⟩] ∧
    (∀ a ∈ ([⟨0, 1, fin 0⟩] : List Assignment),
      a ∈ ([⟨0, 0, fin (1/20000)⟩, ⟨0, 1, fin 0⟩] : List Assignment)) ∧
    ([⟨0, 1, fin 0⟩] : List Assignment).length =
      ([⟨0, 0, fin (1/20000)⟩] : List Assignment).length ∧
    costSum [⟨0, 1, fin 0⟩] < costSum [⟨0, 0, fin (1/20000)⟩] := by
  refine ⟨?_, by decide, by decide, rfl, ?_⟩
  · exact optimize_eval _ 3
      { NX := 1, NY := 2,
        value := [[fin 1, fin (20001/20000)]],
        lx := [fin (20001/20000)], ly := [fin 0, fin 0],
        xy := [-1], yx := [-1, -1],
        S := [false], T := [false, false],
        slack := [fin 0, fin 0], slackx := [0, 0],
        prev := [-1], q := [], rd := 0, maxMatch := 0 }
      { NX := 1, NY := 2,
        value := [[fin 1, fin (20001/20000)]],
        lx := [fin (20001/20000)], ly := [fin 0, fin 0],
        xy := [0], yx := [0, -1],
        S := [true], T := [false, false],
        slack := [fin (1/20000), fin 0], slackx := [0, 0],
        prev := [-2], q := [0], rd := 1, maxMatch := 1 }
      false _
      (by with_unfolding_all rfl) (by with_unfolding_all rfl)
      (by with_unfolding_all rfl) (by with_unfolding_all rfl)
  · show (0 : ℚ) + 0 < 1/20000 + 0
    norm_num

theorem optimize_cost_minimal_witness :
    (∀ a ∈ ([⟨0, 0, fin 5⟩] : List Assignment),
      ∃ n : ℤ, a.cost = fin (n : ℚ) ∧ 0 ≤ n) ∧
    Optimize [⟨0, 0, fin 5⟩] 10 = some [⟨0, 0, fin 5⟩] ∧
    Matching [⟨0, 0, fin 5⟩] ∧
    costSum [⟨0, 0, fin 5⟩] ≤ costSum [⟨0, 0, fin 5⟩] := by
  have hcost : ∀ a ∈ ([⟨0, 0, fin 5⟩] : List Assignment),
      ∃ n : ℤ, a.cost = fin (n : ℚ) ∧ 0 ≤ n := by
    intro a ha
    rw [List.mem_singleton] at ha
    subst ha
    exact ⟨5, by norm_num, by norm_num⟩
  have hdup : (([⟨0, 0, fin 5⟩] : List Assignment).map
      (fun a => (a.character, a.task))).Nodup := by decide
  have heval : Optimize [⟨0, 0, fin 5⟩] 10 = some [⟨0, 0, fin 5⟩] :=
    optimize_eval _ 10
      { NX := 1, NY := 1,
        value := [[fin 1]],
        lx := [fin 1], ly := [fin 0],
        xy := [-1], yx := [-1],
        S := [false], T := [false],
        slack := [fin 0], slackx := [0],
        prev := [-1], q := [], rd := 0, maxMatch := 0 }
      { NX := 1, NY := 1,
        value := [[fin 1]],
        lx := [fin 1], ly := [fin 0],
        xy := [0], yx := [0],
        S := [true], T := [false],
        slack := [fin 0], slackx := [0],
        prev := [-2], q := [0], rd := 1, maxMatch := 1 }
      true _
      (by with_unfolding_all decide) (by with_unfolding_all decide)
      (by with_unfolding_all decide) (by with_unfolding_all decide)
  exact ⟨hcost, heval, by decide,
    optimize_cost_minimal [⟨0, 0, fin 5⟩] 10 [⟨0, 0, fin 5⟩] [⟨0, 0, fin 5⟩]
      hcost hdup heval (fun a ha => ha) (by decide) rfl⟩


end Colony
